import Mathlib

/-!
Shallow embedding of the road-drawing delivery game (src/game.js and
src/unnamed/part_000) and verification of its specification claims.

The repository contains two variants of the same program:
* `src/game.js` — graph builder creates an (empty) adjacency entry for every
  node at node-creation time; `updateCar` has no segment-index clamp.
* `src/unnamed/part_000` — adjacency entries are created lazily by `addEdge`;
  `updateCar` clamps `segIndex` when `segIndex >= path.length`.

Both are embedded.  Coordinates are rationals; the source's Euclidean
comparisons `Math.hypot(dx,dy) < t` (with `t ≥ 0`) are embedded as the
equivalent `dx^2 + dy^2 < t^2`, keeping the graph pipeline computable.
Euclidean lengths themselves (used by the motion model as divisors) are
`Real.sqrt` of the squared distance.
-/

namespace RoadGame

/-- A 2D point with rational coordinates (the source uses JS numbers). -/
structure Pt where
  x : ℚ
  y : ℚ
deriving DecidableEq, Repr

/-- Squared Euclidean distance.  The source computes `Math.hypot(dx, dy)`,
i.e. the square root of this; all source comparisons against nonnegative
thresholds are embedded on squares. -/
def distSq (p q : Pt) : ℚ := (p.x - q.x) ^ 2 + (p.y - q.y) ^ 2

/-- Euclidean distance, `Math.hypot(p.x - q.x, p.y - q.y)`. -/
noncomputable def dist (p q : Pt) : ℝ := Real.sqrt ((distSq p q : ℚ) : ℝ)

/-- `const SNAP_THRESHOLD = 10` (both files). -/
def SNAP_THRESHOLD : ℚ := 10

/-- A graph node: `{ id: nodes.length, x, y }`. -/
structure Node where
  id : ℕ
  x : ℚ
  y : ℚ
deriving DecidableEq, Repr

def Node.pt (n : Node) : Pt := ⟨n.x, n.y⟩

/-- A drawn road segment `{ x1, y1, x2, y2 }`. -/
structure Road where
  x1 : ℚ
  y1 : ℚ
  x2 : ℚ
  y2 : ℚ
deriving DecidableEq, Repr

def Road.p1 (r : Road) : Pt := ⟨r.x1, r.y1⟩
def Road.p2 (r : Road) : Pt := ⟨r.x2, r.y2⟩

/-- The merge test of `getOrCreateNode`:
`Math.hypot(node.x - x, node.y - y) < SNAP_THRESHOLD`, embedded on squares. -/
def nearNode (x y : ℚ) (n : Node) : Bool :=
  decide (distSq ⟨x, y⟩ n.pt < SNAP_THRESHOLD ^ 2)

/-- `getOrCreateNode(x, y, nodes)` of part_000 (and the node-list part of the
game.js closure): return the first node within the snap threshold, else append
a fresh node whose id is the current length. -/
def getOrCreateNode (x y : ℚ) (nodes : List Node) : Node × List Node :=
  match nodes.find? (nearNode x y) with
  | some n => (n, nodes)
  | none => (⟨nodes.length, x, y⟩, nodes ++ [⟨nodes.length, x, y⟩])

/-- Adjacency value: list of `{ id, dist }` neighbor records.  The source
stores `dist = Math.hypot(...)`; that field is written and never read
anywhere in the program, and we store its square (the map `d ↦ d²` is
injective on the nonnegative reals, so symmetry statements transfer). -/
abbrev NbrList := List (ℕ × ℚ)

/-- The adjacency object `adj`, a JS object keyed by node id, embedded as an
association list in key-insertion order (keys provably distinct). -/
abbrev Adj := List (ℕ × NbrList)

/-- Lookup `adj[k]` (`none` = JS `undefined`). -/
def alistGet (adj : Adj) (k : ℕ) : Option NbrList :=
  (adj.find? (fun e => e.1 == k)).map (·.2)

/-- `adj[k]` as used by iteration sites; part_000 reads `adj[current] || []`. -/
def nbrsOf (adj : Adj) (k : ℕ) : NbrList := (alistGet adj k).getD []

/-- `adj[k].push(v)`: append `v` to the (existing) entry for `k`.  If the
entry does not exist this is a no-op; the source would throw there, and both
builders provably only push to existing keys. -/
def adjPush (adj : Adj) (k : ℕ) (v : ℕ × ℚ) : Adj :=
  adj.map (fun e => if e.1 = k then (e.1, e.2 ++ [v]) else e)

/-- `if (!adj[k]) adj[k] = []` of part_000's `addEdge`. -/
def adjEnsure (adj : Adj) (k : ℕ) : Adj :=
  if (alistGet adj k).isSome then adj else adj ++ [(k, [])]

/-- game.js `getOrCreateNode`: same merge logic, but the closure also creates
`adj[newNode.id] = []` whenever a fresh node is made. -/
def getOrCreateNodeG (x y : ℚ) (nodes : List Node) (adj : Adj) :
    Node × List Node × Adj :=
  match nodes.find? (nearNode x y) with
  | some n => (n, nodes, adj)
  | none =>
    (⟨nodes.length, x, y⟩, nodes ++ [⟨nodes.length, x, y⟩],
      adj ++ [(nodes.length, [])])

/-- One iteration of game.js's `roads.forEach` body: resolve both endpoints,
then push the two directed neighbor records with the same distance. -/
def addRoadG (st : List Node × Adj) (r : Road) : List Node × Adj :=
  let s1 := getOrCreateNodeG r.x1 r.y1 st.1 st.2
  let s2 := getOrCreateNodeG r.x2 r.y2 s1.2.1 s1.2.2
  let na := s1.1
  let nb := s2.1
  let d := distSq na.pt nb.pt
  (s2.2.1, adjPush (adjPush s2.2.2 na.id (nb.id, d)) nb.id (na.id, d))

/-- part_000's `addEdge(n1, n2)`. -/
def addEdge (adj : Adj) (n1 n2 : Node) : Adj :=
  let d := distSq n1.pt n2.pt
  let a := adjEnsure (adjEnsure adj n1.id) n2.id
  adjPush (adjPush a n1.id (n2.id, d)) n2.id (n1.id, d)

/-- One iteration of part_000's `roads.forEach` body. -/
def addRoadP (st : List Node × Adj) (r : Road) : List Node × Adj :=
  let s1 := getOrCreateNode r.x1 r.y1 st.1
  let s2 := getOrCreateNode r.x2 r.y2 s1.2
  (s2.2, addEdge st.2 s1.1 s2.1)

/-- The value returned by `buildGraph()`:
`{ nodes, adj, startNode, destNode }`. -/
structure Graph where
  nodes : List Node
  adj : Adj
  startNode : Node
  destNode : Node
deriving DecidableEq, Repr

/-- game.js `buildGraph()`, parameterized by the two fixed anchor positions
(the source reads the globals `start` and `dest`). -/
def buildGraphG (start dest : Pt) (roads : List Road) : Graph :=
  let s1 := getOrCreateNodeG start.x start.y [] []
  let s2 := getOrCreateNodeG dest.x dest.y s1.2.1 s1.2.2
  let st := roads.foldl addRoadG (s2.2.1, s2.2.2)
  ⟨st.1, st.2, s1.1, s2.1⟩

/-- part_000 `buildGraph()`. -/
def buildGraphP (start dest : Pt) (roads : List Road) : Graph :=
  let s1 := getOrCreateNode start.x start.y []
  let s2 := getOrCreateNode dest.x dest.y s1.2
  let st := roads.foldl addRoadP (s2.2, [])
  ⟨st.1, st.2, s1.1, s2.1⟩

example :
    buildGraphG ⟨80, 80⟩ ⟨80, 110⟩ [⟨80, 80, 80, 90⟩] =
      ⟨[⟨0, 80, 80⟩, ⟨1, 80, 110⟩, ⟨2, 80, 90⟩],
        [(0, [(2, 100)]), (1, []), (2, [(0, 100)])],
        ⟨0, 80, 80⟩, ⟨1, 80, 110⟩⟩ := by
  norm_num [buildGraphG, getOrCreateNodeG, addRoadG, adjPush, nearNode, distSq,
    Node.pt, Road.p1, Road.p2, SNAP_THRESHOLD]

example :
    buildGraphP ⟨80, 80⟩ ⟨80, 110⟩ [⟨80, 80, 80, 90⟩] =
      ⟨[⟨0, 80, 80⟩, ⟨1, 80, 110⟩, ⟨2, 80, 90⟩],
        [(0, [(2, 100)]), (2, [(0, 100)])],
        ⟨0, 80, 80⟩, ⟨1, 80, 110⟩⟩ := by
  norm_num [buildGraphP, getOrCreateNode, addRoadP, addEdge, adjEnsure, adjPush,
    alistGet, nearNode, distSq, Node.pt, Road.p1, Road.p2, SNAP_THRESHOLD]

/-! ## Path finding (`findPath`, both files — identical up to `adj[current]`
versus `adj[current] || []`, which coincide on graphs where every dequeued id
has an entry; we embed the total `|| []` form). -/

/-- `cameFrom`, a JS object mapping each visited node id to the id of the
node that discovered it (`null` for the start node), embedded as an
association list in insertion order. -/
abbrev CameFrom := List (ℕ × Option ℕ)

/-- Lookup `cameFrom[k]` (outer `none` = key absent). -/
def cfGet (cf : CameFrom) (k : ℕ) : Option (Option ℕ) :=
  (cf.find? (fun e => e.1 == k)).map (·.2)

/-- The test `neighbor.id in cameFrom`. -/
def cfMem (cf : CameFrom) (k : ℕ) : Bool := (cfGet cf k).isSome

/-- The `for (const neighbor of ...)` body: record `cur` as predecessor of
each not-yet-visited neighbor and enqueue it (at the back of the queue). -/
def scanNbrs (cur : ℕ) (st : CameFrom × List ℕ) (nbrs : NbrList) :
    CameFrom × List ℕ :=
  nbrs.foldl
    (fun st nb =>
      if cfMem st.1 nb.1 then st
      else (st.1 ++ [(nb.1, some cur)], st.2 ++ [nb.1]))
    st

/-- Path reconstruction: follow predecessor links from `cur` back to the
start, unshifting ids along the way (`while (current !== null)`).  `fuel`
bounds the chain length; predecessors are provably inserted strictly earlier
than their children, so `cf.length` steps always suffice.  A missing key
(outer `none`, on which the source would loop on `undefined`) cannot occur
when `cur` is a key of `cf`. -/
def walk (fuel : ℕ) (cf : CameFrom) (cur : ℕ) : List ℕ :=
  match fuel with
  | 0 => [cur]
  | fuel + 1 =>
    match cfGet cf cur with
    | some (some p) => walk fuel cf p ++ [cur]
    | _ => [cur]

/-- All ids occurring in some neighbor list of `adj`. -/
def nbrIds (adj : Adj) : List ℕ := adj.flatMap (fun e => e.2.map (·.1))

/-- Fuel for the BFS `while (queue.length)` loop.  Each iteration strictly
decreases `(number of ids of `nbrIds adj` not yet visited) + queue length`,
which starts below this bound, so the fuel is never exhausted. -/
def bfsFuel (adj : Adj) : ℕ := (nbrIds adj).length + 2

/-- The BFS `while` loop: dequeue from the front; on dequeuing the
destination, reconstruct and return the id path; otherwise visit the
neighbors and continue.  An empty queue means no path (`return null`). -/
def bfsLoop (adj : Adj) (destId : ℕ) :
    ℕ → List ℕ → CameFrom → Option (List ℕ)
  | 0, _, _ => none
  | _ + 1, [], _ => none
  | fuel + 1, cur :: rest, cf =>
    if cur = destId then some (walk cf.length cf cur)
    else
      let st := scanNbrs cur (cf, rest) (nbrsOf adj cur)
      bfsLoop adj destId fuel st.2 st.1

/-- `findPath(graph)` at the level of node ids. -/
def findPathIds (g : Graph) : Option (List ℕ) :=
  bfsLoop g.adj g.destNode.id (bfsFuel g.adj)
    [g.startNode.id] [(g.startNode.id, none)]

/-- `findPath(graph)`: the source resolves each id on the reconstructed chain
through `nodes.find(n => n.id === current)`; on graphs produced by either
builder that lookup provably succeeds, so the fallback default (on which the
source would push `undefined`) is never taken. -/
def findPath (g : Graph) : Option (List Node) :=
  (findPathIds g).map
    (fun ids => ids.map (fun i => ((g.nodes.find? (fun n => n.id == i)).getD ⟨i, 0, 0⟩)))

example :
    findPath (buildGraphG ⟨80, 80⟩ ⟨80, 110⟩ [⟨80, 80, 80, 110⟩]) =
      some [⟨0, 80, 80⟩, ⟨1, 80, 110⟩] := by
  norm_num [buildGraphG, getOrCreateNodeG, addRoadG, adjPush, nearNode, distSq,
    Node.pt, SNAP_THRESHOLD, findPath, findPathIds, bfsLoop, bfsFuel, nbrIds,
    nbrsOf, alistGet, scanNbrs, cfMem, cfGet, walk]

example : findPath (buildGraphG ⟨80, 80⟩ ⟨300, 300⟩ []) = none := by
  norm_num [buildGraphG, getOrCreateNodeG, nearNode, distSq,
    Node.pt, SNAP_THRESHOLD, findPath, findPathIds, bfsLoop, bfsFuel, nbrIds,
    nbrsOf, alistGet, scanNbrs, cfMem, cfGet, walk]

example :
    findPath (buildGraphG ⟨80, 80⟩ ⟨80, 80⟩ []) = some [⟨0, 80, 80⟩] := by
  norm_num [buildGraphG, getOrCreateNodeG, nearNode, distSq,
    Node.pt, SNAP_THRESHOLD, findPath, findPathIds, bfsLoop, bfsFuel, nbrIds,
    nbrsOf, alistGet, scanNbrs, cfMem, cfGet, walk]

/-! ## Vehicle motion model and per-tick state -/

/-- The car object.  Position, progress and speed are JS numbers, embedded
as reals; the constructor pins `speed = 2` and nothing ever changes it. -/
structure Car where
  x : ℝ
  y : ℝ
  speed : ℝ
  path : Option (List Node)
  segIndex : ℕ
  progress : ℝ

/-- `new Car(start.x, start.y)` / the `car` literal of game.js. -/
def carInit (start : Pt) : Car := ⟨(start.x : ℝ), (start.y : ℝ), 2, none, 0, 0⟩

/-- `resetCar()`: back to the start position, segment 0, progress 0.  The
path field is left alone (it is overwritten at the start of every tick). -/
def resetCar (c : Car) (start : Pt) : Car :=
  { c with x := (start.x : ℝ), y := (start.y : ℝ), segIndex := 0, progress := 0 }

open Classical in
/-- The motion body shared verbatim by game.js `updateCar` (lines 129–153)
and part_000 `Car.update`: advance `progress` by `speed / segLength`,
complete the segment on `progress >= 1`, count an arrival and reset when the
final node is reached, else linearly interpolate the position.  Returns
`none` where the source throws a `TypeError` (`path[segIndex]` or
`path[segIndex + 1]` is `undefined` and its `.x` is read).

Division semantics: the source divides IEEE doubles, so on a zero-length
segment with positive speed it computes `speed / 0 = +Infinity` and
`Infinity >= 1` holds, completing the segment immediately; the
`segLength = 0` branch below is exactly that behaviour.  With nonpositive
speed and a zero-length segment the source would compute NaN or `-Infinity`;
no reachable car has nonpositive speed (the constructor pins `speed = 2`),
and the model returns `none` there. -/
noncomputable def carMotion (start : Pt) (c : Car) (score : ℕ) :
    Option (Car × ℕ) :=
  match c.path with
  | none => some (c, score)
  | some path =>
    if 1 < path.length then
      match path.get? c.segIndex, path.get? (c.segIndex + 1) with
      | some curr, some next =>
        let dx : ℝ := (next.x : ℝ) - (curr.x : ℝ)
        let dy : ℝ := (next.y : ℝ) - (curr.y : ℝ)
        let segLength : ℝ := Real.sqrt ((distSq curr.pt next.pt : ℚ) : ℝ)
        if segLength = 0 ∧ c.speed ≤ 0 then none
        else if 1 ≤ c.progress + c.speed / segLength ∨ segLength = 0 then
          if path.length - 1 ≤ c.segIndex + 1 then
            some (resetCar c start, score + 1)
          else
            some ({ c with
                    segIndex := c.segIndex + 1,
                    progress := 0,
                    x := (curr.x : ℝ) + dx * 0,
                    y := (curr.y : ℝ) + dy * 0 }, score)
        else
          some ({ c with
                  progress := c.progress + c.speed / segLength,
                  x := (curr.x : ℝ) + dx * (c.progress + c.speed / segLength),
                  y := (curr.y : ℝ) + dy * (c.progress + c.speed / segLength) },
            score)
      | _, _ => none
    else some (c, score)

/-- The two fixed anchors come from the canvas size:
`start = (80, 80)` and `dest = (canvas.width - 80, canvas.height - 80)`. -/
structure Cfg where
  width : ℚ
  height : ℚ

def Cfg.start (_ : Cfg) : Pt := ⟨80, 80⟩
def Cfg.dest (c : Cfg) : Pt := ⟨c.width - 80, c.height - 80⟩

/-- The process-wide mutable state: drawn roads, the car, and the score. -/
structure GState where
  roads : List Road
  car : Car
  score : ℕ

/-- The state at page load. -/
def initState (cfg : Cfg) : GState := ⟨[], carInit cfg.start, 0⟩

/-- game.js `updateCar()` (one tick): rebuild the graph, recompute and store
the path, then run the motion body.  There is no segment-index clamp. -/
noncomputable def tickG (cfg : Cfg) (s : GState) : Option GState :=
  let path := findPath (buildGraphG cfg.start cfg.dest s.roads)
  let car := { s.car with path := path }
  (carMotion cfg.start car s.score).map (fun p => ⟨s.roads, p.1, p.2⟩)

/-- part_000 `updateCar()`: additionally resets `segIndex`/`progress`, but
only when `car.segIndex >= car.path.length` (not `path.length - 1`). -/
noncomputable def tickP (cfg : Cfg) (s : GState) : Option GState :=
  let path := findPath (buildGraphP cfg.start cfg.dest s.roads)
  let car0 := { s.car with path := path }
  let car :=
    match path with
    | some p =>
      if 1 < p.length ∧ p.length ≤ car0.segIndex then
        { car0 with segIndex := 0, progress := 0 }
      else car0
    | none => car0
  (carMotion cfg.start car s.score).map (fun p => ⟨s.roads, p.1, p.2⟩)

/-- The mouseup handler: append a road exactly when the drag length exceeds
5 (`Math.hypot(...) > 5`, embedded on squares). -/
def mouseUp (s : GState) (x1 y1 x2 y2 : ℚ) : GState :=
  if 25 < distSq ⟨x1, y1⟩ ⟨x2, y2⟩ then
    { s with roads := s.roads ++ [⟨x1, y1, x2, y2⟩] }
  else s

/-- An input event: one animation-frame tick, or one completed mouse drag. -/
inductive Ev where
  | tick : Ev
  | draw (x1 y1 x2 y2 : ℚ) : Ev

/-- Run a sequence of events under the game.js tick. -/
noncomputable def runG (cfg : Cfg) : List Ev → GState → Option GState
  | [], s => some s
  | Ev.tick :: evs, s => (tickG cfg s).bind (runG cfg evs)
  | Ev.draw a b c d :: evs, s => runG cfg evs (mouseUp s a b c d)

/-- Run a sequence of events under the part_000 tick. -/
noncomputable def runP (cfg : Cfg) : List Ev → GState → Option GState
  | [], s => some s
  | Ev.tick :: evs, s => (tickP cfg s).bind (runP cfg evs)
  | Ev.draw a b c d :: evs, s => runP cfg evs (mouseUp s a b c d)

/-- `n` consecutive ticks (game.js). -/
noncomputable def ticksG (cfg : Cfg) : ℕ → GState → Option GState
  | 0, s => some s
  | n + 1, s => (tickG cfg s).bind (ticksG cfg n)

/-- `n` consecutive ticks (part_000). -/
noncomputable def ticksP (cfg : Cfg) : ℕ → GState → Option GState
  | 0, s => some s
  | n + 1, s => (tickP cfg s).bind (ticksP cfg n)

/-! ## Specification-side relations on graphs -/

/-- `v` is recorded as a neighbor of `u` in the adjacency mapping. -/
def EdgeRel (adj : Adj) (u v : ℕ) : Prop := ∃ d, (v, d) ∈ nbrsOf adj u

/-- A walk from `u` to `v` presented as the full list of visited ids:
nonempty, starting at `u`, ending at `v`, with every consecutive pair
adjacent.  Its hop count is `l.length - 1`. -/
def IsPathList (adj : Adj) (u v : ℕ) (l : List ℕ) : Prop :=
  l.head? = some u ∧ l.getLast? = some v ∧ List.Chain' (EdgeRel adj) l

/-- Some sequence of edges connects `u` to `v`. -/
def ReachRel (adj : Adj) (u v : ℕ) : Prop := ∃ l, IsPathList adj u v l

/-- The set of hop counts of walks from `u` to `v`. -/
def hopSet (adj : Adj) (u v : ℕ) : Set ℕ :=
  {n | ∃ l, IsPathList adj u v l ∧ l.length = n + 1}

open Classical in
/-- Hop-count distance from `u` to `v` (`⊤` when unreachable). -/
noncomputable def hopDist (adj : Adj) (u v : ℕ) : ℕ∞ :=
  if _h : (hopSet adj u v).Nonempty then ((sInf (hopSet adj u v) : ℕ) : ℕ∞)
  else ⊤

/-- The ids recorded as visited. -/
def cfKeys (cf : CameFrom) : List ℕ := cf.map Prod.fst

/-- Hop distance of the queue's head (`⊤` for the empty queue): the BFS
frontier never dequeues below this level again. -/
noncomputable def qHeadDist (adj : Adj) (s : ℕ) (q : List ℕ) : ℕ∞ :=
  match q with
  | [] => ⊤
  | h :: _ => hopDist adj s h

/-- Structural property of `cameFrom`: the recorded predecessor of every
entry was inserted strictly earlier.  This is what makes the reconstruction
loop terminate and makes lookups insensitive to later insertions. -/
def ParentsEarlier (cf : CameFrom) : Prop :=
  ∀ c1 v op c2, cf = c1 ++ (v, op) :: c2 → ∀ p, op = some p → p ∈ cfKeys c1

/-- The loop invariant of the BFS `while` loop, tying the queue and the
`cameFrom` object to the graph-theoretic hop distance from `s`. -/
structure BfsInv (adj : Adj) (s dest : ℕ) (q : List ℕ) (cf : CameFrom) :
    Prop where
  base : ∃ tl, cf = (s, none) :: tl
  parents : ∀ c1 v op c2, cf = c1 ++ (v, op) :: c2 →
    (op = none → c1 = []) ∧
    ∀ p, op = some p → p ∈ cfKeys c1 ∧ EdgeRel adj p v
  nodup : (cfKeys cf).Nodup
  qsub : ∀ u ∈ q, u ∈ cfKeys cf
  closed : ∀ u ∈ cfKeys cf, u ∉ q → ∀ v, EdgeRel adj u v → v ∈ cfKeys cf
  destPending : dest ∈ cfKeys cf → dest ∈ q
  wspec : ∀ v ∈ cfKeys cf,
    IsPathList adj s v (walk cf.length cf v) ∧
      ((walk cf.length cf v).length : ℕ∞) = hopDist adj s v + 1
  sorted : List.Chain' (fun a b => hopDist adj s a ≤ hopDist adj s b) q
  spread : ∀ a ∈ q, ∀ b ∈ q, hopDist adj s b ≤ hopDist adj s a + 1
  levelDone : ∀ v, hopDist adj s v < qHeadDist adj s q →
    v ∈ cfKeys cf ∧ v ∉ q

/-- Termination measure of the BFS loop: unvisited potential ids plus queue
length; it strictly decreases at every iteration. -/
noncomputable def bfsMeasure (adj : Adj) (q : List ℕ) (cf : CameFrom) : ℕ :=
  ((nbrIds adj).toFinset \ (cfKeys cf).toFinset).card + q.length

/-! ## Association-list lemmas -/

theorem alistGet_append (a₁ a₂ : Adj) (k : ℕ) :
    alistGet (a₁ ++ a₂) k = (alistGet a₁ k).or (alistGet a₂ k) := by
  unfold alistGet
  rw [List.find?_append]
  cases List.find? (fun e => e.1 == k) a₁ <;> simp [Option.or]

theorem alistGet_single (k : ℕ) (l : NbrList) (a : ℕ) :
    alistGet [(k, l)] a = if a = k then some l else none := by
  unfold alistGet
  by_cases h : a = k
  · subst h; simp
  · have hb : (k == a) = false := by simp [Ne.symm h]
    simp [List.find?, hb, h]

theorem alistGet_adjPush (adj : Adj) (k : ℕ) (v : ℕ × ℚ) (a : ℕ) :
    alistGet (adjPush adj k v) a =
      (alistGet adj a).map (fun l => if a = k then l ++ [v] else l) := by
  unfold alistGet adjPush
  induction adj with
  | nil => simp
  | cons e tl ih =>
    by_cases hek : e.1 = k <;> by_cases hea : e.1 = a <;>
      simp_all [List.find?_cons]

theorem isSome_alistGet_adjPush (adj : Adj) (k : ℕ) (v : ℕ × ℚ) (a : ℕ) :
    (alistGet (adjPush adj k v) a).isSome = (alistGet adj a).isSome := by
  rw [alistGet_adjPush]
  cases alistGet adj a <;> rfl

theorem nbrsOf_adjPush (adj : Adj) (k : ℕ) (v : ℕ × ℚ) (a : ℕ) :
    nbrsOf (adjPush adj k v) a =
      nbrsOf adj a ++
        (if a = k ∧ (alistGet adj a).isSome then [v] else []) := by
  unfold nbrsOf
  rw [alistGet_adjPush]
  cases h : alistGet adj a <;> by_cases hak : a = k <;> simp [hak]

theorem alistGet_adjEnsure (adj : Adj) (k : ℕ) (a : ℕ) :
    alistGet (adjEnsure adj k) a =
      (alistGet adj a).or (if a = k then some [] else none) := by
  unfold adjEnsure
  cases hsome : (alistGet adj k).isSome
  · rw [if_neg (by simp [hsome]), alistGet_append, alistGet_single]
  · rw [if_pos (by simp [hsome])]
    by_cases hak : a = k
    · subst hak
      obtain ⟨l, hl⟩ := Option.isSome_iff_exists.mp hsome
      simp [hl, Option.or]
    · cases hh : alistGet adj a <;> simp [hak, Option.or]

theorem nbrsOf_adjEnsure (adj : Adj) (k : ℕ) (a : ℕ) :
    nbrsOf (adjEnsure adj k) a = nbrsOf adj a := by
  unfold nbrsOf
  rw [alistGet_adjEnsure]
  cases h : alistGet adj a <;> by_cases hak : a = k <;> simp [hak, Option.or]

theorem isSome_alistGet_adjEnsure (adj : Adj) (k : ℕ) (a : ℕ) :
    (alistGet (adjEnsure adj k) a).isSome =
      ((alistGet adj a).isSome || (a == k)) := by
  rw [alistGet_adjEnsure]
  cases h : alistGet adj a <;> by_cases hak : a = k <;> simp [hak, Option.or]

theorem mem_nbrsOf_adjPush (adj : Adj) (k : ℕ) (v : ℕ × ℚ) (a : ℕ)
    (p : ℕ × ℚ) :
    p ∈ nbrsOf (adjPush adj k v) a ↔
      p ∈ nbrsOf adj a ∨ (a = k ∧ (alistGet adj a).isSome ∧ p = v) := by
  rw [nbrsOf_adjPush]
  by_cases hak : a = k <;> by_cases hs : (alistGet adj a).isSome <;>
    simp [hak, hs]

theorem nbrsOf_append_empty (adj : Adj) (k : ℕ) (a : ℕ) :
    nbrsOf (adj ++ [(k, [])]) a = nbrsOf adj a := by
  unfold nbrsOf
  rw [alistGet_append, alistGet_single]
  cases alistGet adj a <;> by_cases hak : a = k <;> simp [hak, Option.or]

theorem isSome_alistGet_append_single (adj : Adj) (k : ℕ) (l : NbrList)
    (a : ℕ) :
    (alistGet (adj ++ [(k, l)]) a).isSome =
      ((alistGet adj a).isSome || (a == k)) := by
  rw [alistGet_append, alistGet_single]
  cases alistGet adj a <;> by_cases hak : a = k <;> simp [hak, Option.or]

/-! ## Builder invariants -/

theorem distSq_comm (p q : Pt) : distSq p q = distSq q p := by
  unfold distSq; ring

theorem distSq_nonneg (p q : Pt) : 0 ≤ distSq p q := by
  unfold distSq; positivity

theorem distSq_eq_zero_iff (p q : Pt) : distSq p q = 0 ↔ p = q := by
  unfold distSq
  constructor
  · intro h
    have h1 : (p.x - q.x) ^ 2 = 0 ∧ (p.y - q.y) ^ 2 = 0 := by
      constructor <;> nlinarith [sq_nonneg (p.x - q.x), sq_nonneg (p.y - q.y)]
    obtain ⟨hx, hy⟩ := h1
    have hx' : p.x = q.x := by nlinarith [sq_nonneg (p.x - q.x)]
    have hy' : p.y = q.y := by nlinarith [sq_nonneg (p.y - q.y)]
    cases p; cases q; simp_all
  · rintro rfl; ring

/-- Invariant of the node list: ids are the list positions (so `id` is
injective on it), and distinct nodes are at least the snap threshold
apart. -/
structure NodeInv (ns : List Node) : Prop where
  idsSeq : ns.map Node.id = List.range ns.length
  sep : ∀ a ∈ ns, ∀ b ∈ ns, a ≠ b → SNAP_THRESHOLD ^ 2 ≤ distSq a.pt b.pt

theorem NodeInv.nil_nodes : NodeInv [] := ⟨rfl, by simp⟩

theorem NodeInv.id_lt {ns : List Node} (h : NodeInv ns) {n : Node}
    (hn : n ∈ ns) : n.id < ns.length := by
  have : n.id ∈ ns.map Node.id := List.mem_map_of_mem _ hn
  rw [h.idsSeq] at this
  exact List.mem_range.mp this

theorem NodeInv.id_inj {ns : List Node} (h : NodeInv ns) {a b : Node}
    (ha : a ∈ ns) (hb : b ∈ ns) (hid : a.id = b.id) : a = b := by
  have hnd : (ns.map Node.id).Nodup := by
    rw [h.idsSeq]; exact List.nodup_range _
  exact List.inj_on_of_nodup_map hnd ha hb hid

/-- A failed merge scan means every existing node is at least the snap
threshold away from the candidate position. -/
theorem find?_none_far {x y : ℚ} {ns : List Node}
    (h : ns.find? (nearNode x y) = none) :
    ∀ a ∈ ns, SNAP_THRESHOLD ^ 2 ≤ distSq a.pt ⟨x, y⟩ := by
  intro a ha
  have := List.find?_eq_none.mp h a ha
  unfold nearNode at this
  simp only [decide_eq_true_eq] at this
  rw [distSq_comm]
  exact le_of_not_lt this

theorem NodeInv.gocn {ns : List Node} (h : NodeInv ns) (x y : ℚ) :
    NodeInv (getOrCreateNode x y ns).2 := by
  unfold getOrCreateNode
  cases hf : ns.find? (nearNode x y) with
  | some n => exact h
  | none =>
    refine ⟨?_, ?_⟩
    · simp only [List.map_append, h.idsSeq, List.length_append, List.map_cons,
        List.map_nil, List.length_cons, List.length_nil]
      rw [List.range_succ]
    · intro a ha b hb hab
      rcases List.mem_append.mp ha with ha' | ha' <;>
        rcases List.mem_append.mp hb with hb' | hb'
      · exact h.sep a ha' b hb' hab
      · have hb'' : b = ⟨ns.length, x, y⟩ := by simpa using hb'
        subst hb''
        exact find?_none_far hf a ha'
      · have ha'' : a = ⟨ns.length, x, y⟩ := by simpa using ha'
        subst ha''
        rw [distSq_comm]
        exact find?_none_far hf b hb'
      · have ha'' : a = ⟨ns.length, x, y⟩ := by simpa using ha'
        have hb'' : b = ⟨ns.length, x, y⟩ := by simpa using hb'
        exact absurd (ha''.trans hb''.symm) hab

theorem getOrCreateNode_snd_eq (x y : ℚ) (ns : List Node) :
    (getOrCreateNode x y ns).2 = ns ∨
      (getOrCreateNode x y ns).2 = ns ++ [⟨ns.length, x, y⟩] := by
  unfold getOrCreateNode
  cases hf : ns.find? (nearNode x y) <;> simp

theorem getOrCreateNode_fst_mem (x y : ℚ) (ns : List Node) :
    (getOrCreateNode x y ns).1 ∈ (getOrCreateNode x y ns).2 := by
  unfold getOrCreateNode
  cases hf : ns.find? (nearNode x y) with
  | some n => simpa using List.mem_of_find?_eq_some hf
  | none => simp

theorem getOrCreateNode_len_le (x y : ℚ) (ns : List Node) :
    ns.length ≤ (getOrCreateNode x y ns).2.length ∧
      (getOrCreateNode x y ns).2.length ≤ ns.length + 1 := by
  rcases getOrCreateNode_snd_eq x y ns with h | h <;> rw [h] <;> simp

/-- Invariant of the adjacency mapping relative to a bound `N` on node ids:
keys and recorded neighbors are valid ids, and every recorded neighbor pair
is mirrored with the same stored distance. -/
structure AdjInv (N : ℕ) (adj : Adj) : Prop where
  keysValid : ∀ k, (alistGet adj k).isSome → k < N
  nbrValid : ∀ a p, p ∈ nbrsOf adj a → p.1 < N
  symm : ∀ a p, p ∈ nbrsOf adj a → (a, p.2) ∈ nbrsOf adj p.1

theorem AdjInv.nil_adj (N : ℕ) : AdjInv N [] :=
  ⟨by intro k h; simp [alistGet] at h, by intro a p h; simp [nbrsOf, alistGet] at h,
    by intro a p h; simp [nbrsOf, alistGet] at h⟩

theorem AdjInv.mono {N N' : ℕ} {adj : Adj} (h : AdjInv N adj) (hle : N ≤ N') :
    AdjInv N' adj :=
  ⟨fun k hk => lt_of_lt_of_le (h.keysValid k hk) hle,
    fun a p hp => lt_of_lt_of_le (h.nbrValid a p hp) hle, h.symm⟩

theorem AdjInv.append_empty {N : ℕ} {adj : Adj} (h : AdjInv N adj) {k : ℕ}
    (hk : k < N) : AdjInv N (adj ++ [(k, [])]) := by
  refine ⟨?_, ?_, ?_⟩
  · intro a ha
    rw [isSome_alistGet_append_single] at ha
    rcases Bool.or_eq_true_iff.mp ha with ha' | ha'
    · exact h.keysValid a ha'
    · have : a = k := by simpa using ha'
      omega
  · intro a p hp
    rw [nbrsOf_append_empty] at hp
    exact h.nbrValid a p hp
  · intro a p hp
    rw [nbrsOf_append_empty] at hp ⊢
    exact h.symm a p hp

/-- Pushing the two mirrored neighbor records of one road preserves the
adjacency invariant, provided both endpoint ids are valid and have
entries. -/
theorem AdjInv.pushEdge {N : ℕ} {adj : Adj} (h : AdjInv N adj)
    {i j : ℕ} (d : ℚ) (hi : i < N) (hj : j < N)
    (hsi : (alistGet adj i).isSome) (hsj : (alistGet adj j).isSome) :
    AdjInv N (adjPush (adjPush adj i (j, d)) j (i, d)) := by
  have keys1 : ∀ a, (alistGet (adjPush adj i (j, d)) a).isSome
      = (alistGet adj a).isSome := fun a => isSome_alistGet_adjPush adj i (j, d) a
  refine ⟨?_, ?_, ?_⟩
  · intro k hk
    rw [isSome_alistGet_adjPush, keys1] at hk
    exact h.keysValid k hk
  · intro a p hp
    rw [mem_nbrsOf_adjPush] at hp
    rcases hp with hp | ⟨rfl, _, rfl⟩
    · rw [mem_nbrsOf_adjPush] at hp
      rcases hp with hp | ⟨rfl, _, rfl⟩
      · exact h.nbrValid a p hp
      · exact hj
    · exact hi
  · intro a p hp
    rw [mem_nbrsOf_adjPush, mem_nbrsOf_adjPush] at hp
    rw [mem_nbrsOf_adjPush, mem_nbrsOf_adjPush]
    rcases hp with (hp | ⟨rfl, _, rfl⟩) | ⟨rfl, _, rfl⟩
    · exact Or.inl (Or.inl (h.symm a p hp))
    · exact Or.inr ⟨rfl, by rw [keys1]; exact hsj, rfl⟩
    · exact Or.inl (Or.inr ⟨rfl, hsi, rfl⟩)

theorem AdjInv.ensure {N : ℕ} {adj : Adj} (h : AdjInv N adj) {k : ℕ}
    (hk : k < N) : AdjInv N (adjEnsure adj k) := by
  unfold adjEnsure
  split
  · exact h
  · exact h.append_empty hk

theorem isSome_of_mem_nbrsOf {adj : Adj} {a : ℕ} {p : ℕ × ℚ}
    (h : p ∈ nbrsOf adj a) : (alistGet adj a).isSome := by
  unfold nbrsOf at h
  cases hh : alistGet adj a
  · rw [hh] at h; simp at h
  · rfl

theorem find?_id_of_nodup {ns : List Node} (hnd : (ns.map Node.id).Nodup)
    {n : Node} (hn : n ∈ ns) :
    ns.find? (fun m => m.id == n.id) = some n := by
  induction ns with
  | nil => cases hn
  | cons a tl ih =>
    rw [List.map_cons, List.nodup_cons] at hnd
    rcases List.mem_cons.mp hn with rfl | hn'
    · simp [List.find?_cons]
    · have hne : (a.id == n.id) = false := by
        have hmem : n.id ∈ tl.map Node.id := List.mem_map_of_mem _ hn'
        have : a.id ≠ n.id := fun he => hnd.1 (he ▸ hmem)
        simpa using this
      simp only [List.find?_cons, hne]
      exact ih hnd.2 hn'

/-! ## Combined builder invariants -/

/-- Invariant carried through the game.js `roads.forEach` fold: well-formed
node list and adjacency, and an adjacency entry for every node. -/
def InvG (st : List Node × Adj) : Prop :=
  NodeInv st.1 ∧ AdjInv st.1.length st.2 ∧
    ∀ n ∈ st.1, (alistGet st.2 n.id).isSome

/-- Invariant carried through the part_000 fold (no all-keys clause: nodes
away from every road have no adjacency entry there). -/
def InvP (st : List Node × Adj) : Prop :=
  NodeInv st.1 ∧ AdjInv st.1.length st.2

theorem getOrCreateNodeG_eq (x y : ℚ) (ns : List Node) (adj : Adj) :
    (getOrCreateNodeG x y ns adj).1 = (getOrCreateNode x y ns).1 ∧
    (getOrCreateNodeG x y ns adj).2.1 = (getOrCreateNode x y ns).2 ∧
    ((getOrCreateNodeG x y ns adj).2.2 = adj ∧
        (getOrCreateNode x y ns).2 = ns ∨
      (getOrCreateNodeG x y ns adj).2.2 = adj ++ [(ns.length, [])] ∧
        (getOrCreateNode x y ns).2 = ns ++ [⟨ns.length, x, y⟩]) := by
  unfold getOrCreateNodeG getOrCreateNode
  cases hf : ns.find? (nearNode x y) <;> simp

theorem getOrCreateNode_mem_mono {x y : ℚ} {ns : List Node} {n : Node}
    (h : n ∈ ns) : n ∈ (getOrCreateNode x y ns).2 := by
  rcases getOrCreateNode_snd_eq x y ns with he | he <;> rw [he]
  · exact h
  · exact List.mem_append_left _ h

theorem InvG.gocn_both {ns : List Node} {adj : Adj} (h : InvG (ns, adj))
    (x y : ℚ) :
    InvG ((getOrCreateNodeG x y ns adj).2.1, (getOrCreateNodeG x y ns adj).2.2) ∧
      (getOrCreateNodeG x y ns adj).1 ∈ (getOrCreateNodeG x y ns adj).2.1 ∧
      ns.length ≤ (getOrCreateNodeG x y ns adj).2.1.length := by
  obtain ⟨hN, hA, hK⟩ := h
  obtain ⟨h1, h2, hcase⟩ := getOrCreateNodeG_eq x y ns adj
  have hmem : (getOrCreateNodeG x y ns adj).1 ∈ (getOrCreateNodeG x y ns adj).2.1 := by
    rw [h1, h2]; exact getOrCreateNode_fst_mem x y ns
  have hNi : NodeInv (getOrCreateNodeG x y ns adj).2.1 := by
    rw [h2]; exact hN.gocn x y
  have hlen : ns.length ≤ (getOrCreateNodeG x y ns adj).2.1.length := by
    rw [h2]; exact (getOrCreateNode_len_le x y ns).1
  rcases hcase with ⟨ha, hn⟩ | ⟨ha, hn⟩
  · refine ⟨⟨hNi, ?_, ?_⟩, hmem, hlen⟩
    · rw [ha]; exact hA.mono hlen
    · intro m hm
      rw [ha]
      rw [h2, hn] at hm
      exact hK m hm
  · have hk' : ns.length < (getOrCreateNodeG x y ns adj).2.1.length := by
      rw [h2, hn]; simp
    refine ⟨⟨hNi, ?_, ?_⟩, hmem, hlen⟩
    · rw [ha]
      exact (hA.mono hlen).append_empty hk'
    · intro m hm
      rw [ha, isSome_alistGet_append_single]
      rw [h2, hn] at hm
      rcases List.mem_append.mp hm with hm' | hm'
      · rw [hK m hm']; rfl
      · have : m = ⟨ns.length, x, y⟩ := by simpa using hm'
        subst this
        simp

theorem InvG.addRoadG_pres {st : List Node × Adj} (h : InvG st) (r : Road) :
    InvG (addRoadG st r) := by
  obtain ⟨ns, adj⟩ := st
  obtain ⟨hI1, hm1, hl1⟩ := InvG.gocn_both h r.x1 r.y1
  obtain ⟨hI2, hm2, hl2⟩ := InvG.gocn_both hI1 r.x2 r.y2
  obtain ⟨hN2, hA2, hK2⟩ := hI2
  have hm1' :
      (getOrCreateNodeG r.x1 r.y1 ns adj).1 ∈
        (getOrCreateNodeG r.x2 r.y2 (getOrCreateNodeG r.x1 r.y1 ns adj).2.1
          (getOrCreateNodeG r.x1 r.y1 ns adj).2.2).2.1 := by
    obtain ⟨_, e2, _⟩ := getOrCreateNodeG_eq r.x2 r.y2
      (getOrCreateNodeG r.x1 r.y1 ns adj).2.1
      (getOrCreateNodeG r.x1 r.y1 ns adj).2.2
    rw [e2]
    exact getOrCreateNode_mem_mono hm1
  unfold InvG
  simp only [addRoadG]
  refine ⟨hN2, ?_, ?_⟩
  · exact AdjInv.pushEdge hA2 _ (hN2.id_lt hm1') (hN2.id_lt hm2)
      (hK2 _ hm1') (hK2 _ hm2)
  · intro m hm
    rw [isSome_alistGet_adjPush, isSome_alistGet_adjPush]
    exact hK2 m hm

theorem getOrCreateNodeG_len (x y : ℚ) (ns : List Node) (adj : Adj) :
    ns.length ≤ (getOrCreateNodeG x y ns adj).2.1.length ∧
      (getOrCreateNodeG x y ns adj).2.1.length ≤ ns.length + 1 := by
  obtain ⟨_, e2, _⟩ := getOrCreateNodeG_eq x y ns adj
  rw [e2]
  exact getOrCreateNode_len_le x y ns

theorem addRoadG_len (st : List Node × Adj) (r : Road) :
    st.1.length ≤ (addRoadG st r).1.length ∧
      (addRoadG st r).1.length ≤ st.1.length + 2 := by
  obtain ⟨ns, adj⟩ := st
  have h1 := getOrCreateNodeG_len r.x1 r.y1 ns adj
  have h2 := getOrCreateNodeG_len r.x2 r.y2
    (getOrCreateNodeG r.x1 r.y1 ns adj).2.1
    (getOrCreateNodeG r.x1 r.y1 ns adj).2.2
  simp only [addRoadG]
  constructor
  · exact le_trans h1.1 h2.1
  · have := h2.2
    have := h1.2
    omega

theorem InvP.addRoadP_pres {st : List Node × Adj} (h : InvP st) (r : Road) :
    InvP (addRoadP st r) := by
  obtain ⟨ns, adj⟩ := st
  obtain ⟨hN, hA⟩ := h
  have hN1 := hN.gocn r.x1 r.y1
  have hN2 := hN1.gocn r.x2 r.y2
  have hm1 :
      (getOrCreateNode r.x1 r.y1 ns).1 ∈
        (getOrCreateNode r.x2 r.y2 (getOrCreateNode r.x1 r.y1 ns).2).2 :=
    getOrCreateNode_mem_mono (getOrCreateNode_fst_mem r.x1 r.y1 ns)
  have hm2 :=
    getOrCreateNode_fst_mem r.x2 r.y2 (getOrCreateNode r.x1 r.y1 ns).2
  have hl : ns.length ≤
      (getOrCreateNode r.x2 r.y2 (getOrCreateNode r.x1 r.y1 ns).2).2.length :=
    le_trans (getOrCreateNode_len_le r.x1 r.y1 ns).1
      (getOrCreateNode_len_le r.x2 r.y2 _).1
  have hi := hN2.id_lt hm1
  have hj := hN2.id_lt hm2
  unfold InvP
  simp only [addRoadP, addEdge]
  refine ⟨hN2, ?_⟩
  have hAe : AdjInv
      (getOrCreateNode r.x2 r.y2 (getOrCreateNode r.x1 r.y1 ns).2).2.length
      (adjEnsure (adjEnsure adj (getOrCreateNode r.x1 r.y1 ns).1.id)
        (getOrCreateNode r.x2 r.y2 (getOrCreateNode r.x1 r.y1 ns).2).1.id) :=
    ((hA.mono hl).ensure hi).ensure hj
  refine AdjInv.pushEdge hAe _ hi hj ?_ ?_
  · rw [isSome_alistGet_adjEnsure, isSome_alistGet_adjEnsure]
    simp
  · rw [isSome_alistGet_adjEnsure]
    simp

theorem foldl_inv {α β : Type} {P : β → Prop} {f : β → α → β}
    (hf : ∀ st a, P st → P (f st a)) :
    ∀ (l : List α) (st : β), P st → P (List.foldl f st l) := by
  intro l
  induction l with
  | nil => intro st h; exact h
  | cons a tl ih => intro st h; exact ih _ (hf st a h)

theorem addRoadG_mem_mono {st : List Node × Adj} {r : Road} {n : Node}
    (h : n ∈ st.1) : n ∈ (addRoadG st r).1 := by
  obtain ⟨ns, adj⟩ := st
  simp only [addRoadG]
  obtain ⟨_, e2, _⟩ := getOrCreateNodeG_eq r.x2 r.y2
    (getOrCreateNodeG r.x1 r.y1 ns adj).2.1
    (getOrCreateNodeG r.x1 r.y1 ns adj).2.2
  rw [e2]
  refine getOrCreateNode_mem_mono ?_
  obtain ⟨_, e2', _⟩ := getOrCreateNodeG_eq r.x1 r.y1 ns adj
  rw [e2']
  exact getOrCreateNode_mem_mono h

theorem addRoadP_mem_mono {st : List Node × Adj} {r : Road} {n : Node}
    (h : n ∈ st.1) : n ∈ (addRoadP st r).1 := by
  obtain ⟨ns, adj⟩ := st
  simp only [addRoadP]
  exact getOrCreateNode_mem_mono (getOrCreateNode_mem_mono h)

theorem foldl_mem_mono {f : (List Node × Adj) → Road → (List Node × Adj)}
    (hf : ∀ (st : List Node × Adj) (r : Road) (n : Node),
      n ∈ st.1 → n ∈ (f st r).1) :
    ∀ (rs : List Road) (st : List Node × Adj) (n : Node),
      n ∈ st.1 → n ∈ (List.foldl f st rs).1 := by
  intro rs
  induction rs with
  | nil => intro st n h; exact h
  | cons r tl ih => intro st n h; exact ih _ n (hf st r n h)

theorem foldl_addRoadG_len (rs : List Road) (st : List Node × Adj) :
    (List.foldl addRoadG st rs).1.length ≤ st.1.length + 2 * rs.length := by
  induction rs generalizing st with
  | nil => simp
  | cons r tl ih =>
    have h1 := (addRoadG_len st r).2
    have h2 := ih (addRoadG st r)
    simp only [List.foldl_cons, List.length_cons]
    omega

theorem addRoadP_len (st : List Node × Adj) (r : Road) :
    st.1.length ≤ (addRoadP st r).1.length ∧
      (addRoadP st r).1.length ≤ st.1.length + 2 := by
  obtain ⟨ns, adj⟩ := st
  have h1 := getOrCreateNode_len_le r.x1 r.y1 ns
  have h2 := getOrCreateNode_len_le r.x2 r.y2 (getOrCreateNode r.x1 r.y1 ns).2
  simp only [addRoadP]
  omega

theorem foldl_addRoadP_len (rs : List Road) (st : List Node × Adj) :
    (List.foldl addRoadP st rs).1.length ≤ st.1.length + 2 * rs.length := by
  induction rs generalizing st with
  | nil => simp
  | cons r tl ih =>
    have h1 := (addRoadP_len st r).2
    have h2 := ih (addRoadP st r)
    simp only [List.foldl_cons, List.length_cons]
    omega

/-- buildGraphG: the output satisfies the combined invariant, and both
anchor nodes are members of the node list. -/
theorem buildGraphG_inv (s d : Pt) (rs : List Road) :
    InvG ((buildGraphG s d rs).nodes, (buildGraphG s d rs).adj) ∧
      (buildGraphG s d rs).startNode ∈ (buildGraphG s d rs).nodes ∧
      (buildGraphG s d rs).destNode ∈ (buildGraphG s d rs).nodes := by
  have h0 : InvG ([], []) :=
    ⟨NodeInv.nil_nodes, AdjInv.nil_adj 0, by intro n hn; cases hn⟩
  obtain ⟨hI1, hm1, _⟩ := InvG.gocn_both h0 s.x s.y
  obtain ⟨hI2, hm2, _⟩ := InvG.gocn_both hI1 d.x d.y
  have hIf : InvG (List.foldl addRoadG
      ((getOrCreateNodeG d.x d.y (getOrCreateNodeG s.x s.y [] []).2.1
          (getOrCreateNodeG s.x s.y [] []).2.2).2.1,
        (getOrCreateNodeG d.x d.y (getOrCreateNodeG s.x s.y [] []).2.1
          (getOrCreateNodeG s.x s.y [] []).2.2).2.2) rs) :=
    foldl_inv (fun st r h => h.addRoadG_pres r) rs _ hI2
  have hmem1 : (getOrCreateNodeG s.x s.y [] []).1 ∈
      (getOrCreateNodeG d.x d.y (getOrCreateNodeG s.x s.y [] []).2.1
        (getOrCreateNodeG s.x s.y [] []).2.2).2.1 := by
    obtain ⟨_, e2, _⟩ := getOrCreateNodeG_eq d.x d.y
      (getOrCreateNodeG s.x s.y [] []).2.1 (getOrCreateNodeG s.x s.y [] []).2.2
    rw [e2]
    exact getOrCreateNode_mem_mono hm1
  constructor
  · simpa only [buildGraphG] using hIf
  constructor
  · simp only [buildGraphG]
    exact foldl_mem_mono (fun st r n h => addRoadG_mem_mono h) rs _ _ hmem1
  · simp only [buildGraphG]
    exact foldl_mem_mono (fun st r n h => addRoadG_mem_mono h) rs _ _ hm2

/-- buildGraphP: the output satisfies the (weaker) part_000 invariant, and
both anchor nodes are members of the node list. -/
theorem buildGraphP_inv (s d : Pt) (rs : List Road) :
    InvP ((buildGraphP s d rs).nodes, (buildGraphP s d rs).adj) ∧
      (buildGraphP s d rs).startNode ∈ (buildGraphP s d rs).nodes ∧
      (buildGraphP s d rs).destNode ∈ (buildGraphP s d rs).nodes := by
  have hN1 := NodeInv.nil_nodes.gocn s.x s.y
  have hN2 := hN1.gocn d.x d.y
  have hI2 : InvP ((getOrCreateNode d.x d.y (getOrCreateNode s.x s.y []).2).2,
      ([] : Adj)) :=
    ⟨hN2, AdjInv.nil_adj _⟩
  have hIf : InvP (List.foldl addRoadP
      ((getOrCreateNode d.x d.y (getOrCreateNode s.x s.y []).2).2, []) rs) :=
    foldl_inv (fun st r h => h.addRoadP_pres r) rs _ hI2
  have hm1 : (getOrCreateNode s.x s.y []).1 ∈
      (getOrCreateNode d.x d.y (getOrCreateNode s.x s.y []).2).2 :=
    getOrCreateNode_mem_mono (getOrCreateNode_fst_mem s.x s.y [])
  have hm2 := getOrCreateNode_fst_mem d.x d.y (getOrCreateNode s.x s.y []).2
  refine ⟨by simpa only [buildGraphP] using hIf, ?_, ?_⟩
  · simp only [buildGraphP]
    exact foldl_mem_mono (fun st r n h => addRoadP_mem_mono h) rs _ _ hm1
  · simp only [buildGraphP]
    exact foldl_mem_mono (fun st r n h => addRoadP_mem_mono h) rs _ _ hm2

/-- C8: for every road collection (and any anchor positions), the number of
nodes produced by the Graph Builder — in both variants — is at most
`2 × (number of roads) + 2`: the two anchor registrations create at most one
node each, and each road's two endpoint resolutions create at most one node
each. -/
theorem claim_C8_node_count_bound (s d : Pt) (rs : List Road) :
    (buildGraphG s d rs).nodes.length ≤ 2 * rs.length + 2 ∧
      (buildGraphP s d rs).nodes.length ≤ 2 * rs.length + 2 := by
  constructor
  · have hf := foldl_addRoadG_len rs
      ((getOrCreateNodeG d.x d.y (getOrCreateNodeG s.x s.y [] []).2.1
          (getOrCreateNodeG s.x s.y [] []).2.2).2.1,
        (getOrCreateNodeG d.x d.y (getOrCreateNodeG s.x s.y [] []).2.1
          (getOrCreateNodeG s.x s.y [] []).2.2).2.2)
    have h1 := getOrCreateNodeG_len s.x s.y [] []
    have h2 := getOrCreateNodeG_len d.x d.y (getOrCreateNodeG s.x s.y [] []).2.1
      (getOrCreateNodeG s.x s.y [] []).2.2
    simp only [buildGraphG]
    simp only [List.length_nil] at h1
    dsimp only at hf ⊢
    omega
  · have hf := foldl_addRoadP_len rs
      ((getOrCreateNode d.x d.y (getOrCreateNode s.x s.y []).2).2, [])
    have h1 := getOrCreateNode_len_le s.x s.y []
    have h2 := getOrCreateNode_len_le d.x d.y (getOrCreateNode s.x s.y []).2
    simp only [buildGraphP]
    simp only [List.length_nil] at h1
    dsimp only at hf ⊢
    omega

/-- C7: in every graph either builder produces, the adjacency mapping is
symmetric — whenever `(b, d)` is recorded among `a`'s neighbors, `(a, d)` is
recorded among `b`'s neighbors with the same stored distance value.  (The
embedding stores the square of the source's `Math.hypot` distance; both
directions of an edge are pushed with the identical value, so the statement
transfers verbatim to the square root.) -/
theorem claim_C7_adjacency_symmetric (s d : Pt) (rs : List Road) :
    (∀ a b dd, (b, dd) ∈ nbrsOf (buildGraphG s d rs).adj a →
      (a, dd) ∈ nbrsOf (buildGraphG s d rs).adj b) ∧
    (∀ a b dd, (b, dd) ∈ nbrsOf (buildGraphP s d rs).adj a →
      (a, dd) ∈ nbrsOf (buildGraphP s d rs).adj b) := by
  constructor
  · intro a b dd h
    exact (buildGraphG_inv s d rs).1.2.1.symm a (b, dd) h
  · intro a b dd h
    exact (buildGraphP_inv s d rs).1.2.symm a (b, dd) h

/-- Witness for C7: in the concrete one-road graph, node 2's recorded
neighbor entry `(0, 100)` is obtained by symmetry from node 0's entry
`(2, 100)`. -/
theorem claim_C7_adjacency_symmetric_witness :
    ((0 : ℕ), (100 : ℚ)) ∈
      nbrsOf (buildGraphG ⟨80, 80⟩ ⟨80, 110⟩ [⟨80, 80, 80, 90⟩]).adj 2 := by
  refine (claim_C7_adjacency_symmetric ⟨80, 80⟩ ⟨80, 110⟩
    [⟨80, 80, 80, 90⟩]).1 0 2 100 ?_
  norm_num [buildGraphG, getOrCreateNodeG, addRoadG, adjPush, nearNode, distSq,
    Node.pt, SNAP_THRESHOLD, nbrsOf, alistGet]

/-- C9, amended: in the game.js builder every node of the graph (anchors
included) has an adjacency entry, created empty at node creation.  In the
part_000 builder an entry exists exactly where `addEdge` put one: both
endpoints of every recorded neighbor pair have entries, but an anchor with
no incident road has none (see the counterexample theorem). -/
theorem claim_C9_amended (s d : Pt) (rs : List Road) :
    (∀ n ∈ (buildGraphG s d rs).nodes,
      (alistGet (buildGraphG s d rs).adj n.id).isSome) ∧
    (∀ a p, p ∈ nbrsOf (buildGraphP s d rs).adj a →
      (alistGet (buildGraphP s d rs).adj a).isSome ∧
      (alistGet (buildGraphP s d rs).adj p.1).isSome) := by
  constructor
  · exact (buildGraphG_inv s d rs).1.2.2
  · intro a p h
    refine ⟨isSome_of_mem_nbrsOf h, ?_⟩
    exact isSome_of_mem_nbrsOf ((buildGraphP_inv s d rs).1.2.symm a p h)

/-- Witness for C9 (amended): concrete instances of both conjuncts — the
isolated destination anchor has an (empty) entry in the game.js graph, and
both endpoints of the single road have entries in the part_000 graph. -/
theorem claim_C9_amended_witness :
    (alistGet (buildGraphG ⟨80, 80⟩ ⟨80, 110⟩ [⟨80, 80, 80, 90⟩]).adj 1).isSome ∧
    ((alistGet (buildGraphP ⟨80, 80⟩ ⟨80, 110⟩ [⟨80, 80, 80, 90⟩]).adj 0).isSome ∧
      (alistGet (buildGraphP ⟨80, 80⟩ ⟨80, 110⟩ [⟨80, 80, 80, 90⟩]).adj 2).isSome) := by
  constructor
  · refine (claim_C9_amended ⟨80, 80⟩ ⟨80, 110⟩ [⟨80, 80, 80, 90⟩]).1
      ⟨1, 80, 110⟩ ?_
    norm_num [buildGraphG, getOrCreateNodeG, addRoadG, adjPush, nearNode,
      distSq, Node.pt, SNAP_THRESHOLD]
  · refine (claim_C9_amended ⟨80, 80⟩ ⟨80, 110⟩ [⟨80, 80, 80, 90⟩]).2
      0 (2, 100) ?_
    norm_num [buildGraphP, getOrCreateNode, addRoadP, addEdge, adjEnsure,
      adjPush, alistGet, nearNode, distSq, Node.pt, SNAP_THRESHOLD, nbrsOf]

/-- C9 counterexample: with zero roads, the part_000 builder leaves the
start anchor (node 0, which is in the node list) without any adjacency
entry — refuting the claim that every anchor has a (possibly empty)
adjacency entry in every built graph.  (`findPath` compensates by reading
`adj[current] || []`.) -/
theorem claim_C9_counterexample :
    (buildGraphP ⟨80, 80⟩ ⟨520, 320⟩ []).startNode = ⟨0, 80, 80⟩ ∧
    ⟨0, 80, 80⟩ ∈ (buildGraphP ⟨80, 80⟩ ⟨520, 320⟩ []).nodes ∧
    alistGet (buildGraphP ⟨80, 80⟩ ⟨520, 320⟩ []).adj 0 = none := by
  norm_num [buildGraphP, getOrCreateNode, nearNode, distSq, Node.pt,
    SNAP_THRESHOLD, alistGet]

/-! ## Hop-distance lemmas -/

theorem IsPathList.ne_nil {adj : Adj} {u v : ℕ} {l : List ℕ}
    (h : IsPathList adj u v l) : l ≠ [] := by
  intro he
  rw [he] at h
  simp [IsPathList] at h

theorem IsPathList.one_le_length {adj : Adj} {u v : ℕ} {l : List ℕ}
    (h : IsPathList adj u v l) : 1 ≤ l.length := by
  cases l with
  | nil => exact absurd rfl h.ne_nil
  | cons a tl => simp

theorem hopDist_add_one_le {adj : Adj} {u v : ℕ} {l : List ℕ}
    (h : IsPathList adj u v l) :
    hopDist adj u v + 1 ≤ (l.length : ℕ∞) := by
  have hlen := h.one_le_length
  have hmem : l.length - 1 ∈ hopSet adj u v := ⟨l, h, by omega⟩
  have hne : (hopSet adj u v).Nonempty := ⟨l.length - 1, hmem⟩
  rw [hopDist, dif_pos hne]
  have hle : sInf (hopSet adj u v) ≤ l.length - 1 := Nat.sInf_le hmem
  have : sInf (hopSet adj u v) + 1 ≤ l.length := by omega
  exact_mod_cast this

theorem hopDist_exists_path {adj : Adj} {u v : ℕ}
    (h : hopDist adj u v ≠ ⊤) :
    ∃ l, IsPathList adj u v l ∧
      (l.length : ℕ∞) = hopDist adj u v + 1 := by
  by_cases hne : (hopSet adj u v).Nonempty
  · obtain ⟨l, hl, hlen⟩ := Nat.sInf_mem hne
    refine ⟨l, hl, ?_⟩
    rw [hopDist, dif_pos hne]
    exact_mod_cast hlen
  · rw [hopDist, dif_neg hne] at h
    exact absurd rfl h

theorem hopDist_lt_top_iff {adj : Adj} {u v : ℕ} :
    hopDist adj u v < ⊤ ↔ ReachRel adj u v := by
  constructor
  · intro h
    obtain ⟨l, hl, _⟩ := hopDist_exists_path (ne_top_of_lt h)
    exact ⟨l, hl⟩
  · rintro ⟨l, hl⟩
    have hlen := hl.one_le_length
    have hne : (hopSet adj u v).Nonempty := ⟨l.length - 1, l, hl, by omega⟩
    rw [hopDist, dif_pos hne]
    exact WithTop.coe_lt_top _

theorem hopDist_self (adj : Adj) (s : ℕ) : hopDist adj s s = 0 := by
  have h : IsPathList adj s s [s] := ⟨rfl, rfl, List.chain'_singleton s⟩
  have h0 : 0 ∈ hopSet adj s s := ⟨[s], h, rfl⟩
  rw [hopDist, dif_pos ⟨0, h0⟩]
  have : sInf (hopSet adj s s) = 0 := Nat.sInf_eq_zero.mpr (Or.inl h0)
  rw [this]
  rfl

theorem hopDist_eq_zero {adj : Adj} {s v : ℕ} (h : hopDist adj s v = 0) :
    v = s := by
  obtain ⟨l, hl, hlen⟩ := hopDist_exists_path (by rw [h]; exact ENat.zero_ne_top)
  rw [h, zero_add] at hlen
  have : l.length = 1 := by exact_mod_cast hlen
  obtain ⟨a, ha⟩ := List.length_eq_one.mp this
  rw [ha] at hl
  obtain ⟨h1, h2, _⟩ := hl
  simp at h1 h2
  rw [← h1, ← h2]

theorem path_snoc {adj : Adj} {s u w : ℕ} {l : List ℕ}
    (h : IsPathList adj s u l) (he : EdgeRel adj u w) :
    IsPathList adj s w (l ++ [w]) := by
  obtain ⟨h1, h2, h3⟩ := h
  refine ⟨?_, ?_, ?_⟩
  · cases l with
    | nil => simp at h1
    | cons a tl => simpa using h1
  · simp
  · rw [List.chain'_append]
    refine ⟨h3, List.chain'_singleton w, ?_⟩
    intro x hx y hy
    simp at hy
    rw [h2] at hx
    simp at hx
    rw [← hx, ← hy]
    exact he

theorem hopDist_edge_le {adj : Adj} {s u w : ℕ} (he : EdgeRel adj u w) :
    hopDist adj s w ≤ hopDist adj s u + 1 := by
  by_cases hu : hopDist adj s u = ⊤
  · rw [hu]
    simp
  · obtain ⟨l, hl, hlen⟩ := hopDist_exists_path hu
    have hw := hopDist_add_one_le (path_snoc hl he)
    rw [List.length_append] at hw
    have hcast : ((l.length + 1 : ℕ) : ℕ∞) = hopDist adj s u + 1 + 1 := by
      push_cast
      rw [hlen]
    rw [List.length_singleton] at hw
    rw [hcast] at hw
    exact (WithTop.add_le_add_iff_right (WithTop.one_ne_top)).mp hw

theorem path_unsnoc {adj : Adj} {s v : ℕ} {l : List ℕ}
    (h : IsPathList adj s v l) (h2 : 2 ≤ l.length) :
    ∃ l' p, l = l' ++ [v] ∧ IsPathList adj s p l' ∧ EdgeRel adj p v := by
  obtain ⟨h1, hlast, hch⟩ := h
  have hne : l ≠ [] := by intro he; rw [he] at h2; simp at h2
  have hsplit : l = l.dropLast ++ [l.getLast hne] := (List.dropLast_append_getLast hne).symm
  have hvlast : l.getLast hne = v := by
    have := List.getLast?_eq_getLast l hne
    rw [hlast] at this
    exact (Option.some_injective _ this.symm)
  have hdne : l.dropLast ≠ [] := by
    intro he
    have : l.length = 1 := by
      have hd := List.length_dropLast l
      rw [he] at hd
      simp at hd
      omega
    omega
  refine ⟨l.dropLast, l.dropLast.getLast hdne, by rw [← hvlast]; exact hsplit, ⟨?_, ?_, ?_⟩, ?_⟩
  · rw [hsplit] at h1
    cases hd : l.dropLast with
    | nil => exact absurd hd hdne
    | cons a tl =>
      rw [hd] at h1
      simpa using h1
  · exact List.getLast?_eq_getLast _ hdne
  · rw [hsplit] at hch
    exact (List.chain'_append.mp hch).1
  · rw [hsplit] at hch
    have hlink := (List.chain'_append.mp hch).2.2
    have hstep := hlink (l.dropLast.getLast hdne)
      (List.getLast?_eq_getLast _ hdne) (l.getLast hne) rfl
    rw [← hvlast]
    exact hstep

theorem hopDist_pred {adj : Adj} {s v : ℕ} {n : ℕ}
    (h : hopDist adj s v = ((n + 1 : ℕ) : ℕ∞)) :
    ∃ p, EdgeRel adj p v ∧ hopDist adj s p ≤ (n : ℕ∞) := by
  obtain ⟨l, hl, hlen⟩ :=
    hopDist_exists_path (by rw [h]; exact WithTop.coe_ne_top)
  rw [h] at hlen
  have hlen' : l.length = n + 2 := by exact_mod_cast hlen
  obtain ⟨l', p, hsp, hl', he⟩ := path_unsnoc hl (by omega)
  refine ⟨p, he, ?_⟩
  have h1 := hopDist_add_one_le hl'
  have hl'len : l'.length = n + 1 := by
    have := congrArg List.length hsp
    simp at this
    omega
  rw [hl'len] at h1
  have hc : ((n + 1 : ℕ) : ℕ∞) = (n : ℕ∞) + 1 := by push_cast; ring
  rw [hc] at h1
  exact (WithTop.add_le_add_iff_right WithTop.one_ne_top).mp h1

theorem chain'_le_head {α : Type} (f : α → ℕ∞) :
    ∀ (t : List α) (h : α), List.Chain' (fun a b => f a ≤ f b) (h :: t) →
      ∀ x ∈ h :: t, f h ≤ f x := by
  intro t
  induction t with
  | nil =>
    intro h _ x hx
    simp at hx
    rw [hx]
  | cons b t ih =>
    intro h hc x hx
    rcases List.mem_cons.mp hx with rfl | hx'
    · exact le_refl _
    · have hc' := List.chain'_cons.mp hc
      exact le_trans hc'.1 (ih b hc'.2 x hx')

theorem reach_mem_closed {adj : Adj} {K : List ℕ}
    (hcl : ∀ u ∈ K, ∀ v, EdgeRel adj u v → v ∈ K) :
    ∀ (l : List ℕ) (u v : ℕ), u ∈ K → IsPathList adj u v l → v ∈ K := by
  intro l
  induction l with
  | nil => intro u v _ h; exact absurd rfl h.ne_nil
  | cons a t ih =>
    intro u v hu h
    obtain ⟨h1, h2, h3⟩ := h
    have ha : a = u := by simpa using h1
    subst ha
    cases t with
    | nil =>
      have hva : a = v := by simpa using h2
      rw [← hva]
      exact hu
    | cons b t2 =>
      have hedge : EdgeRel adj a b := (List.chain'_cons.mp h3).1
      refine ih b v (hcl a hu b hedge) ⟨rfl, ?_, (List.chain'_cons.mp h3).2⟩
      simpa using h2

/-! ## BFS loop: scanning and reconstruction lemmas -/

theorem cfKeys_append (c1 c2 : CameFrom) :
    cfKeys (c1 ++ c2) = cfKeys c1 ++ cfKeys c2 := by
  simp [cfKeys]

theorem cfGet_append (c1 c2 : CameFrom) (k : ℕ) :
    cfGet (c1 ++ c2) k = (cfGet c1 k).or (cfGet c2 k) := by
  unfold cfGet
  rw [List.find?_append]
  cases List.find? (fun e => e.1 == k) c1 <;> simp [Option.or]

theorem cfMem_iff_keys {cf : CameFrom} {k : ℕ} :
    cfMem cf k = true ↔ k ∈ cfKeys cf := by
  unfold cfMem cfGet cfKeys
  induction cf with
  | nil => simp
  | cons e tl ih =>
    by_cases h : e.1 = k
    · simp [List.find?_cons, h]
    · have hb : (e.1 == k) = false := by simpa using h
      simp only [List.find?_cons, hb, List.map_cons, List.mem_cons]
      rw [ih]
      constructor
      · intro hh
        exact Or.inr hh
      · rintro (hh | hh)
        · exact absurd hh.symm h
        · exact hh

theorem cfGet_none_of_not_mem {cf : CameFrom} {k : ℕ} (h : k ∉ cfKeys cf) :
    cfGet cf k = none := by
  cases hh : cfGet cf k with
  | none => rfl
  | some op =>
    have : cfMem cf k = true := by unfold cfMem; rw [hh]; rfl
    exact absurd (cfMem_iff_keys.mp this) h

theorem cfGet_append_fresh {cf : CameFrom} {k : ℕ} (h : k ∉ cfKeys cf)
    (ext : CameFrom) : cfGet (cf ++ ext) k = cfGet ext k := by
  rw [cfGet_append, cfGet_none_of_not_mem h]
  cases cfGet ext k <;> simp [Option.or]

theorem cfGet_append_left {cf : CameFrom} {k : ℕ} {op : Option ℕ}
    (h : cfGet cf k = some op) (ext : CameFrom) :
    cfGet (cf ++ ext) k = some op := by
  rw [cfGet_append, h]
  rfl

theorem cfGet_of_mem_nodup {cf : CameFrom} (hnd : (cfKeys cf).Nodup)
    {v : ℕ} {op : Option ℕ} (h : (v, op) ∈ cf) : cfGet cf v = some op := by
  induction cf with
  | nil => cases h
  | cons e tl ih =>
    rw [cfKeys, List.map_cons, List.nodup_cons] at hnd
    rcases List.mem_cons.mp h with rfl | h'
    · simp [cfGet, List.find?_cons]
    · have hne : (e.1 == v) = false := by
        have hv : v ∈ cfKeys tl := by
          unfold cfKeys
          exact List.mem_map_of_mem _ h'
        have : e.1 ≠ v := fun he => hnd.1 (he ▸ hv)
        simpa using this
      unfold cfGet
      simp only [List.find?_cons, hne]
      exact ih hnd.2 h'

theorem scanNbrs_spec (cur : ℕ) :
    ∀ (nbrs : NbrList) (cf : CameFrom) (q : List ℕ),
      ∃ new : List ℕ,
        (scanNbrs cur (cf, q) nbrs).1 = cf ++ new.map (fun v => (v, some cur)) ∧
        (scanNbrs cur (cf, q) nbrs).2 = q ++ new ∧
        new.Nodup ∧
        (∀ v ∈ new, (∃ d, (v, d) ∈ nbrs) ∧ v ∉ cfKeys cf) ∧
        (∀ p ∈ nbrs, p.1 ∈ cfKeys cf ∨ p.1 ∈ new) := by
  intro nbrs
  induction nbrs with
  | nil =>
    intro cf q
    refine ⟨[], by simp [scanNbrs], by simp [scanNbrs], by simp, by simp, by simp⟩
  | cons p tl ih =>
    intro cf q
    by_cases hmem : cfMem cf p.1
    · obtain ⟨new, h1, h2, h3, h4, h5⟩ := ih cf q
      have hred : scanNbrs cur (cf, q) (p :: tl) = scanNbrs cur (cf, q) tl := by
        simp only [scanNbrs, List.foldl_cons, hmem, if_true]
      refine ⟨new, by rw [hred]; exact h1, by rw [hred]; exact h2, h3, ?_, ?_⟩
      · intro v hv
        obtain ⟨⟨d, hd⟩, hnk⟩ := h4 v hv
        exact ⟨⟨d, List.mem_cons_of_mem _ hd⟩, hnk⟩
      · intro x hx
        rcases List.mem_cons.mp hx with rfl | hx'
        · exact Or.inl (cfMem_iff_keys.mp hmem)
        · exact h5 x hx'
    · obtain ⟨new, h1, h2, h3, h4, h5⟩ := ih (cf ++ [(p.1, some cur)]) (q ++ [p.1])
      have hred : scanNbrs cur (cf, q) (p :: tl) =
          scanNbrs cur (cf ++ [(p.1, some cur)], q ++ [p.1]) tl := by
        simp only [scanNbrs, List.foldl_cons, hmem]
        rfl
      have hkeys : cfKeys (cf ++ [(p.1, some cur)]) = cfKeys cf ++ [p.1] := by
        rw [cfKeys_append]; rfl
      refine ⟨p.1 :: new, ?_, ?_, ?_, ?_, ?_⟩
      · rw [hred, h1, List.map_cons, List.append_assoc]
        rfl
      · rw [hred, h2, List.append_assoc]
        rfl
      · refine List.nodup_cons.mpr ⟨?_, h3⟩
        intro hc
        have := (h4 p.1 hc).2
        rw [hkeys] at this
        exact this (List.mem_append_right _ (by simp))
      · intro v hv
        rcases List.mem_cons.mp hv with rfl | hv'
        · exact ⟨⟨p.2, by simp⟩, fun hc => hmem (cfMem_iff_keys.mpr hc)⟩
        · obtain ⟨⟨d, hd⟩, hnk⟩ := h4 v hv'
          refine ⟨⟨d, List.mem_cons_of_mem _ hd⟩, fun hc => ?_⟩
          exact hnk (by rw [hkeys]; exact List.mem_append_left _ hc)
      · intro x hx
        rcases List.mem_cons.mp hx with rfl | hx'
        · exact Or.inr (by simp)
        · rcases h5 x hx' with hk | hn
          · rw [hkeys] at hk
            rcases List.mem_append.mp hk with hk' | hk'
            · exact Or.inl hk'
            · exact Or.inr (by simp at hk'; simp [hk'])
          · exact Or.inr (List.mem_cons_of_mem _ hn)

theorem walk_extend {cf : CameFrom}
    (hpar : ParentsEarlier cf) (hnd : (cfKeys cf).Nodup)
    {ext : CameFrom} :
    ∀ (i : ℕ) (c1 : CameFrom) (v : ℕ) (op : Option ℕ) (c2 : CameFrom),
      cf = c1 ++ (v, op) :: c2 → c1.length = i →
      ∀ f, i < f → walk f (cf ++ ext) v = walk f cf v := by
  intro i
  induction i using Nat.strong_induction_on with
  | _ i IH =>
    intro c1 v op c2 hcf hlen f hf
    have hvmem : (v, op) ∈ cf := by
      rw [hcf]; exact List.mem_append_right _ (by simp)
    have hget : cfGet cf v = some op := cfGet_of_mem_nodup hnd hvmem
    have hget' : cfGet (cf ++ ext) v = some op := cfGet_append_left hget ext
    cases f with
    | zero => omega
    | succ f' =>
      cases op with
      | none => simp only [walk, hget, hget']
      | some p =>
        simp only [walk, hget, hget']
        have hp := hpar c1 v (some p) c2 hcf p rfl
        obtain ⟨pr, hpr, hpfst⟩ := List.mem_map.mp hp
        obtain ⟨d1, d2, hd⟩ := List.append_of_mem hpr
        have hpr' : pr = (p, pr.2) := by
          obtain ⟨a, b⟩ := pr
          simp only at hpfst
          rw [hpfst]
        have hcf' : cf = d1 ++ (p, pr.2) :: (d2 ++ (v, some p) :: c2) := by
          rw [hcf, hd, ← hpr']
          simp [List.append_assoc]
        have hlt : d1.length < i := by
          have hc1 : c1.length = d1.length + d2.length + 1 := by
            rw [hd]; simp; omega
          omega
        rw [IH d1.length hlt d1 p pr.2 _ hcf' rfl f' (by omega)]

theorem walk_spec {adj : Adj} {s : ℕ} {cf : CameFrom}
    (hbase : ∃ tl, cf = (s, none) :: tl)
    (hpar : ∀ c1 v op c2, cf = c1 ++ (v, op) :: c2 →
      (op = none → c1 = []) ∧
        ∀ p, op = some p → p ∈ cfKeys c1 ∧ EdgeRel adj p v)
    (hnd : (cfKeys cf).Nodup) :
    ∀ (i : ℕ) (c1 : CameFrom) (v : ℕ) (op : Option ℕ) (c2 : CameFrom),
      cf = c1 ++ (v, op) :: c2 → c1.length = i →
      ∀ f, i < f →
        IsPathList adj s v (walk f cf v) ∧
        (∀ x ∈ walk f cf v, x ∈ cfKeys (c1 ++ [(v, op)])) ∧
        (walk f cf v).Nodup ∧
        (∀ g, i < g → walk g cf v = walk f cf v) := by
  intro i
  induction i using Nat.strong_induction_on with
  | _ i IH =>
    intro c1 v op c2 hcf hlen f hf
    have hvmem : (v, op) ∈ cf := by
      rw [hcf]; exact List.mem_append_right _ (by simp)
    have hget : cfGet cf v = some op := cfGet_of_mem_nodup hnd hvmem
    cases f with
    | zero => omega
    | succ f' =>
      cases op with
      | none =>
        have hc1 := (hpar c1 v none c2 hcf).1 rfl
        have hvs : v = s := by
          obtain ⟨tl, htl⟩ := hbase
          rw [hc1] at hcf
          rw [htl] at hcf
          simp at hcf
          exact hcf.1.symm
        have hwalk : walk (f' + 1) cf v = [v] := by
          simp only [walk, hget]
        refine ⟨?_, ?_, ?_, ?_⟩
        · rw [hwalk, hvs]
          exact ⟨rfl, rfl, List.chain'_singleton s⟩
        · intro x hx
          rw [hwalk] at hx
          simp at hx
          rw [hx]
          simp [cfKeys]
        · rw [hwalk]
          simp
        · intro g hg
          cases g with
          | zero => omega
          | succ g' => simp only [walk, hget]
      | some p =>
        obtain ⟨hpk, hedge⟩ := (hpar c1 v (some p) c2 hcf).2 p rfl
        obtain ⟨pr, hpr, hpfst⟩ := List.mem_map.mp hpk
        obtain ⟨d1, d2, hd⟩ := List.append_of_mem hpr
        have hpr' : pr = (p, pr.2) := by
          obtain ⟨a, b⟩ := pr
          simp only at hpfst
          rw [hpfst]
        have hcf' : cf = d1 ++ (p, pr.2) :: (d2 ++ (v, some p) :: c2) := by
          rw [hcf, hd, ← hpr']
          simp [List.append_assoc]
        have hlt : d1.length < i := by
          have hc1 : c1.length = d1.length + d2.length + 1 := by
            rw [hd]; simp; omega
          omega
        obtain ⟨hpath, helem, hnodup, hstable⟩ :=
          IH d1.length hlt d1 p pr.2 _ hcf' rfl f' (by omega)
        have hwalk : walk (f' + 1) cf v = walk f' cf p ++ [v] := by
          simp only [walk, hget]
        have hkeyscf : cfKeys cf = cfKeys c1 ++ v :: cfKeys c2 := by
          rw [hcf, cfKeys_append]
          rfl
        have hvnotc1 : v ∉ cfKeys c1 := by
          rw [hkeyscf] at hnd
          have hdisj := (List.nodup_append.mp hnd).2.2
          intro hvc
          exact hdisj hvc (List.mem_cons_self v _)
        have hsubc1 : ∀ x ∈ walk f' cf p, x ∈ cfKeys c1 := by
          intro x hx'
          have hxk := helem x hx'
          rw [cfKeys_append] at hxk
          rcases List.mem_append.mp hxk with h' | h'
          · rw [hd, cfKeys_append]
            exact List.mem_append_left _ h'
          · have hxp : x = p := by simpa [cfKeys] using h'
            rw [hxp]
            exact hpk
        refine ⟨?_, ?_, ?_, ?_⟩
        · rw [hwalk]
          exact path_snoc hpath hedge
        · intro x hx
          rw [hwalk] at hx
          rw [cfKeys_append]
          rcases List.mem_append.mp hx with hx' | hx'
          · exact List.mem_append_left _ (hsubc1 x hx')
          · have : x = v := by simpa using hx'
            rw [this]
            refine List.mem_append_right _ ?_
            simp [cfKeys]
        · rw [hwalk, List.nodup_append]
          refine ⟨hnodup, List.nodup_singleton v, ?_⟩
          intro a ha hav
          have hav' : a = v := by simpa using hav
          subst hav'
          exact hvnotc1 (hsubc1 a ha)
        · intro g hg
          cases g with
          | zero => omega
          | succ g' =>
            simp only [walk, hget]
            rw [hstable g' (by omega), hstable f' (by omega)]

theorem mem_cfKeys_decomp {cf : CameFrom} {v : ℕ} (h : v ∈ cfKeys cf) :
    ∃ c1 op c2, cf = c1 ++ (v, op) :: c2 := by
  obtain ⟨pr, hpr, hfst⟩ := List.mem_map.mp h
  obtain ⟨c1, c2, hc⟩ := List.append_of_mem hpr
  have hpr' : pr = (v, pr.2) := by
    obtain ⟨a, b⟩ := pr
    simp only at hfst
    rw [hfst]
  exact ⟨c1, pr.2, c2, by rw [hc, ← hpr']⟩

theorem mem_nbrIds_of_mem_nbrsOf {adj : Adj} {a : ℕ} {p : ℕ × ℚ}
    (h : p ∈ nbrsOf adj a) : p.1 ∈ nbrIds adj := by
  unfold nbrsOf at h
  cases hh : alistGet adj a with
  | none => rw [hh] at h; simp at h
  | some l =>
    rw [hh] at h
    simp only [Option.getD_some] at h
    unfold alistGet at hh
    cases hf : adj.find? (fun e => e.1 == a) with
    | none => rw [hf] at hh; simp at hh
    | some e =>
      rw [hf] at hh
      simp at hh
      have he : e ∈ adj := List.mem_of_find?_eq_some hf
      unfold nbrIds
      refine List.mem_flatMap.mpr ⟨e, he, ?_⟩
      rw [hh]
      exact List.mem_map_of_mem _ h

theorem cfGet_map_parent {cur : ℕ} :
    ∀ (new : List ℕ) (w : ℕ), w ∈ new →
      cfGet (new.map (fun v => (v, some cur))) w = some (some cur) := by
  intro new
  induction new with
  | nil => intro w hw; cases hw
  | cons a tl ih =>
    intro w hw
    by_cases haw : a = w
    · subst haw
      simp [cfGet, List.find?_cons]
    · have hb : (a == w) = false := by simpa using haw
      have hw' : w ∈ tl := by
        rcases List.mem_cons.mp hw with h' | h'
        · exact absurd h'.symm haw
        · exact h'
      unfold cfGet at ih ⊢
      simp only [List.map_cons, List.find?_cons, hb]
      exact ih w hw'

theorem chain'_const {α : Type} (f : α → ℕ∞) (c : ℕ∞) :
    ∀ (l : List α), (∀ x ∈ l, f x = c) →
      List.Chain' (fun a b => f a ≤ f b) l := by
  intro l
  induction l with
  | nil => intro _; exact List.chain'_nil
  | cons a tl ih =>
    intro hall
    cases tl with
    | nil => exact List.chain'_singleton a
    | cons b t2 =>
      refine List.chain'_cons.mpr ⟨?_, ih ?_⟩
      · rw [hall a (by simp), hall b (by simp)]
      · intro x hx
        exact hall x (List.mem_cons_of_mem _ hx)

theorem BfsInv.parentsEarlier {adj : Adj} {s dest : ℕ} {q : List ℕ}
    {cf : CameFrom} (inv : BfsInv adj s dest q cf) : ParentsEarlier cf :=
  fun c1 v op c2 h p hp => ((inv.parents c1 v op c2 h).2 p hp).1

theorem BfsInv.s_mem {adj : Adj} {s dest : ℕ} {q : List ℕ} {cf : CameFrom}
    (inv : BfsInv adj s dest q cf) : s ∈ cfKeys cf := by
  obtain ⟨tl, htl⟩ := inv.base
  rw [htl]
  simp [cfKeys]

theorem BfsInv.hopFin {adj : Adj} {s dest : ℕ} {q : List ℕ} {cf : CameFrom}
    (inv : BfsInv adj s dest q cf) :
    ∀ v ∈ cfKeys cf, hopDist adj s v ≠ ⊤ := by
  intro v hv ht
  have h2 := (inv.wspec v hv).2
  rw [ht] at h2
  simp at h2

/-- Membership in the freshly appended `cameFrom` segment: every entry added
by one scan records `cur` as the predecessor. -/
theorem mem_ext_parent {cur : ℕ} {new : List ℕ} {v : ℕ} {op : Option ℕ}
    (h : (v, op) ∈ new.map (fun x => (x, some cur))) :
    op = some cur ∧ v ∈ new := by
  obtain ⟨w, hwnew, hweq⟩ := List.mem_map.mp h
  have h1 : w = v := congrArg Prod.fst hweq
  have h2 : some cur = op := congrArg Prod.snd hweq
  exact ⟨h2.symm, h1 ▸ hwnew⟩

/-- One iteration of the BFS `while` loop (dequeuing a non-destination id)
preserves the loop invariant and decreases the termination measure by
exactly one. -/
theorem bfs_step_inv {adj : Adj} {s dest cur : ℕ} {rest : List ℕ}
    {cf : CameFrom} (inv : BfsInv adj s dest (cur :: rest) cf)
    (hne : cur ≠ dest) :
    BfsInv adj s dest (scanNbrs cur (cf, rest) (nbrsOf adj cur)).2
      (scanNbrs cur (cf, rest) (nbrsOf adj cur)).1 ∧
    bfsMeasure adj (scanNbrs cur (cf, rest) (nbrsOf adj cur)).2
        (scanNbrs cur (cf, rest) (nbrsOf adj cur)).1 + 1 =
      bfsMeasure adj (cur :: rest) cf := by
  obtain ⟨new, hcf', hq', hnodupN, hnewprop, hcover⟩ :=
    scanNbrs_spec cur (nbrsOf adj cur) cf rest
  rw [hcf', hq']
  have hcurk : cur ∈ cfKeys cf := inv.qsub cur (by simp)
  have hcurfin : hopDist adj s cur ≠ ⊤ := inv.hopFin cur hcurk
  have hkeys' :
      cfKeys (cf ++ new.map (fun v => (v, some cur))) = cfKeys cf ++ new := by
    rw [cfKeys_append]
    congr 1
    unfold cfKeys
    rw [List.map_map]
    exact List.map_id new
  have hnewedge : ∀ w ∈ new, EdgeRel adj cur w := by
    intro w hw
    obtain ⟨⟨d, hd⟩, _⟩ := hnewprop w hw
    exact ⟨d, hd⟩
  have hnewfresh : ∀ w ∈ new, w ∉ cfKeys cf := fun w hw => (hnewprop w hw).2
  have hnew_nbr : ∀ w ∈ new, w ∈ nbrIds adj := by
    intro w hw
    obtain ⟨⟨d, hd⟩, _⟩ := hnewprop w hw
    exact mem_nbrIds_of_mem_nbrsOf hd
  have hheadle : ∀ a ∈ cur :: rest, hopDist adj s cur ≤ hopDist adj s a :=
    chain'_le_head (hopDist adj s) rest cur inv.sorted
  have hnewdist : ∀ w ∈ new, hopDist adj s w = hopDist adj s cur + 1 := by
    intro w hw
    have hle : hopDist adj s w ≤ hopDist adj s cur + 1 :=
      hopDist_edge_le (hnewedge w hw)
    have hnotle : ¬ hopDist adj s w ≤ hopDist adj s cur := by
      intro hcle
      have hwfin : hopDist adj s w ≠ ⊤ := by
        intro ht
        rw [ht] at hcle
        exact hcurfin (top_le_iff.mp hcle)
      obtain ⟨n, hn⟩ := Option.ne_none_iff_exists.mp hwfin
      have hn' : hopDist adj s w = (n : ℕ∞) := hn.symm
      cases n with
      | zero =>
        have hws : w = s := hopDist_eq_zero (by rw [hn']; rfl)
        exact hnewfresh w hw (hws ▸ inv.s_mem)
      | succ m =>
        obtain ⟨p, hpe, hple⟩ := hopDist_pred hn'
        have hplt : hopDist adj s p < qHeadDist adj s (cur :: rest) := by
          show hopDist adj s p < hopDist adj s cur
          calc hopDist adj s p ≤ (m : ℕ∞) := hple
            _ < ((m + 1 : ℕ) : ℕ∞) := by exact_mod_cast Nat.lt_succ_self m
            _ = hopDist adj s w := hn'.symm
            _ ≤ hopDist adj s cur := hcle
        obtain ⟨hpk, hpq⟩ := inv.levelDone p hplt
        exact hnewfresh w hw (inv.closed p hpk hpq w hpe)
    have hlt : hopDist adj s cur < hopDist adj s w := lt_of_not_le hnotle
    exact le_antisymm hle ((ENat.add_one_le_iff hcurfin).mpr hlt)
  have hclosed' : ∀ u ∈ cfKeys cf ++ new, u ∉ rest ++ new →
      ∀ v, EdgeRel adj u v → v ∈ cfKeys cf ++ new := by
    intro u hu huq v hev
    rcases List.mem_append.mp hu with huk | hun
    · by_cases hucur : u = cur
      · subst hucur
        obtain ⟨d, hd⟩ := hev
        rcases hcover (v, d) hd with h' | h'
        · exact List.mem_append_left _ h'
        · exact List.mem_append_right _ h'
      · have hunq : u ∉ cur :: rest := by
          intro hu'
          rcases List.mem_cons.mp hu' with h' | h'
          · exact hucur h'
          · exact huq (List.mem_append_left _ h')
        exact List.mem_append_left _ (inv.closed u huk hunq v hev)
    · exact absurd (List.mem_append_right rest hun) huq
  have hsorted' : List.Chain'
      (fun a b => hopDist adj s a ≤ hopDist adj s b) (rest ++ new) := by
    rw [List.chain'_append]
    refine ⟨inv.sorted.tail, ?_, ?_⟩
    · exact chain'_const (hopDist adj s) (hopDist adj s cur + 1) new
        (fun w hw => hnewdist w hw)
    · intro a ha w hw
      have haq : a ∈ rest := List.mem_of_mem_getLast? ha
      have hwq : w ∈ new := List.mem_of_mem_head? hw
      rw [hnewdist w hwq]
      exact inv.spread cur (by simp) a (List.mem_cons_of_mem _ haq)
  refine ⟨⟨?_, ?_, ?_, ?_, ?_, ?_, ?_, ?_, ?_, ?_⟩, ?_⟩
  -- base
  · obtain ⟨tl, htl⟩ := inv.base
    exact ⟨tl ++ new.map (fun v => (v, some cur)), by rw [htl]; rfl⟩
  -- parents
  · intro c1 v op c2 hdec
    have hmain : ((v, op) ∈ new.map (fun x => (x, some cur)) ∧
        cur ∈ cfKeys c1) ∨ (∃ c2', cf = c1 ++ (v, op) :: c2') := by
      rcases List.append_eq_append_iff.mp hdec with ⟨a', ha1, ha2⟩ | ⟨c', hc1, hc2⟩
      · refine Or.inl ⟨by rw [ha2]; exact List.mem_append_right _ (by simp), ?_⟩
        rw [ha1, cfKeys_append]
        exact List.mem_append_left _ hcurk
      · cases c' with
        | nil =>
          rw [List.append_nil] at hc1
          rw [List.nil_append] at hc2
          refine Or.inl ⟨?_, ?_⟩
          · rw [← hc2]
            exact List.mem_cons_self _ _
          · rw [← hc1]
            exact hcurk
        | cons e c'' =>
          rw [List.cons_append] at hc2
          have he1 : (v, op) = e := (List.cons.injEq _ _ _ _).mp hc2 |>.1
          exact Or.inr ⟨c'', by rw [hc1, ← he1]⟩
    rcases hmain with ⟨hm, hcc⟩ | ⟨c2', hdec'⟩
    · obtain ⟨hop, hvnew⟩ := mem_ext_parent hm
      constructor
      · intro h0
        rw [hop] at h0
        cases h0
      · intro p hp
        rw [hop] at hp
        injection hp with hcp
        subst hcp
        exact ⟨hcc, hnewedge v hvnew⟩
    · exact inv.parents c1 v op c2' hdec'
  -- nodup
  · rw [hkeys', List.nodup_append]
    exact ⟨inv.nodup, hnodupN, fun a ha han => hnewfresh a han ha⟩
  -- qsub
  · intro u hu
    rw [hkeys']
    rcases List.mem_append.mp hu with h' | h'
    · exact List.mem_append_left _ (inv.qsub u (List.mem_cons_of_mem _ h'))
    · exact List.mem_append_right _ h'
  -- closed
  · intro u hu huq v hev
    rw [hkeys'] at hu ⊢
    exact hclosed' u hu huq v hev
  -- destPending
  · intro hd
    rw [hkeys'] at hd
    rcases List.mem_append.mp hd with h' | h'
    · have := inv.destPending h'
      rcases List.mem_cons.mp this with h'' | h''
      · exact absurd h''.symm hne
      · exact List.mem_append_left _ h''
    · exact List.mem_append_right _ h'
  -- wspec
  · intro v hv
    rw [hkeys'] at hv
    have hLeq : (cf ++ new.map (fun x => (x, some cur))).length =
        cf.length + new.length := by simp
    rcases List.mem_append.mp hv with hvk | hvn
    · obtain ⟨c1, op, c2, hdec⟩ := mem_cfKeys_decomp hvk
      have hidx : c1.length < cf.length := by
        rw [hdec, List.length_append, List.length_cons]
        omega
      have hidx' : c1.length <
          (cf ++ new.map (fun x => (x, some cur))).length := by
        rw [hLeq]
        omega
      have hw1 : walk (cf ++ new.map (fun x => (x, some cur))).length
          (cf ++ new.map (fun x => (x, some cur))) v =
          walk (cf ++ new.map (fun x => (x, some cur))).length cf v :=
        walk_extend inv.parentsEarlier inv.nodup c1.length c1 v op c2
          hdec rfl _ hidx'
      have hw2 := (walk_spec inv.base inv.parents inv.nodup c1.length c1 v op
        c2 hdec rfl cf.length hidx).2.2.2 _ hidx'
      rw [hw1, hw2]
      exact inv.wspec v hvk
    · have hnn : 1 ≤ new.length := by
        cases hnl : new with
        | nil => rw [hnl] at hvn; cases hvn
        | cons a b => simp
      obtain ⟨cidx, copp, c2', hdecc⟩ := mem_cfKeys_decomp hcurk
      have hidxc : cidx.length < cf.length := by
        rw [hdecc, List.length_append, List.length_cons]
        omega
      have hfuel : cidx.length < cf.length + new.length - 1 := by omega
      have hget' : cfGet (cf ++ new.map (fun x => (x, some cur))) v =
          some (some cur) := by
        rw [cfGet_append_fresh (hnewfresh v hvn)]
        exact cfGet_map_parent new v hvn
      have hunf : walk (cf.length + new.length)
          (cf ++ new.map (fun x => (x, some cur))) v =
          walk (cf.length + new.length - 1)
            (cf ++ new.map (fun x => (x, some cur))) cur ++ [v] := by
        obtain ⟨M, hM⟩ : ∃ M, cf.length + new.length = M + 1 :=
          ⟨cf.length + new.length - 1, by omega⟩
        rw [hM]
        simp only [walk, hget']
        rw [Nat.add_sub_cancel]
      have hw1 : walk (cf.length + new.length - 1)
          (cf ++ new.map (fun x => (x, some cur))) cur =
          walk (cf.length + new.length - 1) cf cur :=
        walk_extend inv.parentsEarlier inv.nodup cidx.length cidx cur
          copp c2' hdecc rfl (cf.length + new.length - 1) hfuel
      have hw2 := (walk_spec inv.base inv.parents inv.nodup cidx.length cidx
        cur copp c2' hdecc rfl cf.length hidxc).2.2.2
        (cf.length + new.length - 1) hfuel
      have hold := inv.wspec cur hcurk
      rw [hLeq, hunf, hw1, hw2]
      constructor
      · exact path_snoc hold.1 (hnewedge v hvn)
      · rw [List.length_append, List.length_singleton]
        push_cast
        rw [hold.2, hnewdist v hvn]
  -- sorted
  · exact hsorted'
  -- spread
  · intro a ha b hb
    rcases List.mem_append.mp ha with ha' | ha' <;>
      rcases List.mem_append.mp hb with hb' | hb'
    · exact inv.spread a (List.mem_cons_of_mem _ ha') b
        (List.mem_cons_of_mem _ hb')
    · rw [hnewdist b hb']
      exact add_le_add_right (hheadle a (List.mem_cons_of_mem _ ha')) 1
    · calc hopDist adj s b ≤ hopDist adj s cur + 1 :=
          inv.spread cur (by simp) b (List.mem_cons_of_mem _ hb')
        _ = hopDist adj s a := (hnewdist a ha').symm
        _ ≤ hopDist adj s a + 1 := self_le_add_right _ _
    · rw [hnewdist a ha', hnewdist b hb']
      exact self_le_add_right _ _
  -- levelDone
  · intro v hvlt
    have hnotq : v ∉ rest ++ new := by
      intro hvq
      cases hrn : rest ++ new with
      | nil =>
        rw [hrn] at hvq
        cases hvq
      | cons h t =>
        rw [hrn] at hvq hvlt
        have hh := chain'_le_head (hopDist adj s) t h
          (by rw [← hrn]; exact hsorted') v hvq
        exact absurd hvlt (not_lt_of_le hh)
    refine ⟨?_, hnotq⟩
    rw [hkeys']
    cases hrn : rest ++ new with
    | nil =>
      obtain ⟨hr0, hn0⟩ := List.append_eq_nil.mp hrn
      have hvfin : hopDist adj s v ≠ ⊤ := by
        intro ht
        rw [hrn, ht] at hvlt
        exact absurd hvlt (lt_irrefl ⊤)
      obtain ⟨n, hn⟩ := Option.ne_none_iff_exists.mp hvfin
      have hn' : hopDist adj s v = (n : ℕ∞) := hn.symm
      clear hvlt hnotq hvfin hn
      induction n using Nat.strong_induction_on generalizing v with
      | _ n IH =>
        cases n with
        | zero =>
          have hvs : v = s := hopDist_eq_zero (by rw [hn']; rfl)
          exact List.mem_append_left _ (hvs ▸ inv.s_mem)
        | succ m =>
          obtain ⟨p, hpe, hple⟩ := hopDist_pred hn'
          have hpfin : hopDist adj s p ≠ ⊤ := by
            intro ht
            rw [ht] at hple
            exact absurd (top_le_iff.mp hple) (by simp)
          obtain ⟨k, hk⟩ := Option.ne_none_iff_exists.mp hpfin
          have hk' : hopDist adj s p = (k : ℕ∞) := hk.symm
          have hklt : k < m + 1 := by
            rw [hk'] at hple
            have h1 : k ≤ m := by exact_mod_cast hple
            omega
          have hpk := IH k hklt p hk'
          have hpq : p ∉ rest ++ new := by
            rw [hrn]
            simp
          exact hclosed' p hpk hpq v hpe
    | cons h t =>
      rw [hrn] at hvlt
      have hhd : qHeadDist adj s (h :: t) = hopDist adj s h := rfl
      rw [hhd] at hvlt
      have hhle : hopDist adj s h ≤ hopDist adj s cur + 1 := by
        have hhq : h ∈ rest ++ new := by
          rw [hrn]
          simp
        rcases List.mem_append.mp hhq with h' | h'
        · exact inv.spread cur (by simp) h (List.mem_cons_of_mem _ h')
        · exact le_of_eq (hnewdist h h')
      have hvle : hopDist adj s v ≤ hopDist adj s cur :=
        (ENat.lt_add_one_iff hcurfin).mp (lt_of_lt_of_le hvlt hhle)
      rcases lt_or_eq_of_le hvle with hvlt' | hveq
      · have hld := inv.levelDone v (by exact hvlt')
        exact List.mem_append_left _ hld.1
      · by_cases hvs : v = s
        · exact List.mem_append_left _ (hvs ▸ inv.s_mem)
        · have hvfin : hopDist adj s v ≠ ⊤ := by
            intro ht
            rw [ht] at hveq
            exact hcurfin hveq.symm
          obtain ⟨n, hn⟩ := Option.ne_none_iff_exists.mp hvfin
          have hn' : hopDist adj s v = (n : ℕ∞) := hn.symm
          cases n with
          | zero => exact absurd (hopDist_eq_zero (by rw [hn']; rfl)) hvs
          | succ m =>
            obtain ⟨p, hpe, hple⟩ := hopDist_pred hn'
            have hplt : hopDist adj s p < hopDist adj s cur := by
              calc hopDist adj s p ≤ (m : ℕ∞) := hple
                _ < ((m + 1 : ℕ) : ℕ∞) := by exact_mod_cast Nat.lt_succ_self m
                _ = hopDist adj s v := hn'.symm
                _ ≤ hopDist adj s cur := hvle
            obtain ⟨hpk, hpq⟩ := inv.levelDone p hplt
            exact List.mem_append_left _ (inv.closed p hpk hpq v hpe)
  -- measure
  · unfold bfsMeasure
    rw [hkeys', List.toFinset_append]
    have hsub : new.toFinset ⊆
        (nbrIds adj).toFinset \ (cfKeys cf).toFinset := by
      intro w hw
      rw [List.mem_toFinset] at hw
      rw [Finset.mem_sdiff, List.mem_toFinset, List.mem_toFinset]
      exact ⟨hnew_nbr w hw, hnewfresh w hw⟩
    have hform : (nbrIds adj).toFinset \
        ((cfKeys cf).toFinset ∪ new.toFinset) =
        ((nbrIds adj).toFinset \ (cfKeys cf).toFinset) \ new.toFinset := by
      ext x
      simp only [Finset.mem_sdiff, Finset.mem_union]
      tauto
    rw [hform, Finset.card_sdiff hsub]
    have hcard : new.toFinset.card = new.length :=
      List.toFinset_card_of_nodup hnodupN
    have hlecard := Finset.card_le_card hsub
    rw [hcard] at hlecard ⊢
    simp only [List.length_append, List.length_cons]
    omega

/-- The BFS loop state just after `cameFrom[startNode.id] = null` and
`queue = [startNode.id]` satisfies the invariant. -/
theorem bfsInv_init (adj : Adj) (s dest : ℕ) :
    BfsInv adj s dest [s] [(s, none)] := by
  have hkeys : cfKeys [(s, (none : Option ℕ))] = [s] := rfl
  refine ⟨⟨[], rfl⟩, ?_, ?_, ?_, ?_, ?_, ?_, ?_, ?_, ?_⟩
  · intro c1 v op c2 hdec
    have hc : c1 = [] ∧ (v, op) = (s, none) ∧ c2 = [] := by
      cases c1 with
      | nil =>
        rw [List.nil_append] at hdec
        have h1 := (List.cons.injEq _ _ _ _).mp hdec
        exact ⟨rfl, h1.1.symm, h1.2.symm⟩
      | cons a t =>
        rw [List.cons_append] at hdec
        have h1 := (List.cons.injEq _ _ _ _).mp hdec
        exact absurd h1.2.symm (List.append_ne_nil_of_right_ne_nil t (by simp))
    obtain ⟨hc1, hvo, _⟩ := hc
    have hop : op = none := congrArg Prod.snd hvo
    constructor
    · intro _
      exact hc1
    · intro p hp
      rw [hop] at hp
      cases hp
  · rw [hkeys]
    exact List.nodup_singleton s
  · intro u hu
    rw [hkeys]
    exact hu
  · intro u hu huq v he
    rw [hkeys] at hu
    exact absurd hu huq
  · intro hd
    rw [hkeys] at hd
    exact hd
  · intro v hv
    rw [hkeys] at hv
    have hvs : v = s := by simpa using hv
    subst hvs
    have hw : walk (List.length [(v, (none : Option ℕ))]) [(v, none)] v = [v] := by
      simp [walk, cfGet, List.find?]
    rw [hw]
    refine ⟨⟨rfl, rfl, List.chain'_singleton v⟩, ?_⟩
    rw [hopDist_self]
    rfl
  · exact List.chain'_singleton s
  · intro a ha b hb
    have ha' : a = s := by simpa using ha
    have hb' : b = s := by simpa using hb
    rw [ha', hb']
    exact self_le_add_right _ _
  · intro v hv
    have : qHeadDist adj s [s] = hopDist adj s s := rfl
    rw [this, hopDist_self] at hv
    exact absurd hv (by simp)

/-- Full correctness of the BFS `while` loop, by induction on the fuel:
a returned id sequence is a duplicate-free walk from start to destination of
minimal hop count, and `null` is returned only when the destination is not
reachable. -/
theorem bfsLoop_spec {adj : Adj} {s dest : ℕ} :
    ∀ (fuel : ℕ) (q : List ℕ) (cf : CameFrom),
      BfsInv adj s dest q cf →
      bfsMeasure adj q cf < fuel →
      (∀ ids, bfsLoop adj dest fuel q cf = some ids →
        IsPathList adj s dest ids ∧ ids.Nodup ∧
        (ids.length : ℕ∞) = hopDist adj s dest + 1) ∧
      (bfsLoop adj dest fuel q cf = none → ¬ ReachRel adj s dest) := by
  intro fuel
  induction fuel with
  | zero =>
    intro q cf _ hm
    exact absurd hm (Nat.not_lt_zero _)
  | succ f IH =>
    intro q cf inv hm
    cases q with
    | nil =>
      constructor
      · intro ids hids
        simp [bfsLoop] at hids
      · intro _
        rintro ⟨l, hl⟩
        have hclosed : ∀ u ∈ cfKeys cf, ∀ v, EdgeRel adj u v →
            v ∈ cfKeys cf :=
          fun u hu v he => inv.closed u hu (by simp) v he
        have hdk : dest ∈ cfKeys cf :=
          reach_mem_closed hclosed l s dest inv.s_mem hl
        have := inv.destPending hdk
        cases this
    | cons cur rest =>
      by_cases hcd : cur = dest
      · subst hcd
        have hret : bfsLoop adj cur (f + 1) (cur :: rest) cf =
            some (walk cf.length cf cur) := by
          simp [bfsLoop]
        constructor
        · intro ids hids
          rw [hret] at hids
          have hids' : ids = walk cf.length cf cur :=
            (Option.some_injective _ hids).symm
          have hck : cur ∈ cfKeys cf := inv.qsub cur (by simp)
          have hws := inv.wspec cur hck
          obtain ⟨c1, op, c2, hdec⟩ := mem_cfKeys_decomp hck
          have hidx : c1.length < cf.length := by
            rw [hdec, List.length_append, List.length_cons]
            omega
          have hspec := walk_spec inv.base inv.parents inv.nodup c1.length c1
            cur op c2 hdec rfl cf.length hidx
          rw [hids']
          exact ⟨hws.1, hspec.2.2.1, hws.2⟩
        · intro hnone
          rw [hret] at hnone
          cases hnone
      · have hred : bfsLoop adj dest (f + 1) (cur :: rest) cf =
            bfsLoop adj dest f (scanNbrs cur (cf, rest) (nbrsOf adj cur)).2
              (scanNbrs cur (cf, rest) (nbrsOf adj cur)).1 := by
          simp [bfsLoop, hcd]
        obtain ⟨inv', hms⟩ := bfs_step_inv inv hcd
        have hm' : bfsMeasure adj (scanNbrs cur (cf, rest) (nbrsOf adj cur)).2
            (scanNbrs cur (cf, rest) (nbrsOf adj cur)).1 < f := by
          omega
        rw [hred]
        exact IH _ _ inv' hm'

/-- The fuel chosen by `findPathIds` strictly dominates the initial
measure. -/
theorem bfsFuel_ok (adj : Adj) (s : ℕ) :
    bfsMeasure adj [s] [(s, none)] < bfsFuel adj := by
  unfold bfsMeasure bfsFuel
  have h1 : ((nbrIds adj).toFinset \ (cfKeys [(s, none)]).toFinset).card ≤
      (nbrIds adj).toFinset.card :=
    Finset.card_le_card (Finset.sdiff_subset)
  have h2 : (nbrIds adj).toFinset.card ≤ (nbrIds adj).length :=
    List.toFinset_card_le _
  simp only [List.length_cons, List.length_nil]
  omega

/-- Correctness of `findPath` at the level of node ids. -/
theorem findPathIds_spec (g : Graph) :
    (∀ ids, findPathIds g = some ids →
      IsPathList g.adj g.startNode.id g.destNode.id ids ∧ ids.Nodup ∧
      (ids.length : ℕ∞) =
        hopDist g.adj g.startNode.id g.destNode.id + 1) ∧
    (findPathIds g = none →
      ¬ ReachRel g.adj g.startNode.id g.destNode.id) := by
  unfold findPathIds
  exact bfsLoop_spec (bfsFuel g.adj) [g.startNode.id] [(g.startNode.id, none)]
    (bfsInv_init g.adj g.startNode.id g.destNode.id)
    (bfsFuel_ok g.adj g.startNode.id)

/-- Every id on a walk starting from a valid id is a valid id. -/
theorem pathlist_ids_lt {adj : Adj} {N : ℕ} (hA : AdjInv N adj) :
    ∀ (l : List ℕ) (s dest : ℕ), s < N → IsPathList adj s dest l →
      ∀ x ∈ l, x < N := by
  intro l
  induction l with
  | nil => intro s dest _ h; exact absurd rfl h.ne_nil
  | cons a t ih =>
    intro s dest hs h x hx
    obtain ⟨h1, h2, h3⟩ := h
    have ha : a = s := by simpa using h1
    subst ha
    rcases List.mem_cons.mp hx with rfl | hx'
    · exact hs
    · cases t with
      | nil => cases hx'
      | cons b t2 =>
        have hedge : EdgeRel adj a b := (List.chain'_cons.mp h3).1
        obtain ⟨d, hd⟩ := hedge
        have hb : b < N := hA.nbrValid a (b, d) hd
        refine ih b dest hb ⟨rfl, ?_, (List.chain'_cons.mp h3).2⟩ x hx'
        simpa using h2

/-- On a well-formed node list, looking a valid id up by
`nodes.find(n => n.id === i)` succeeds and returns the unique node with that
id. -/
theorem nodes_find_id {ns : List Node} (hN : NodeInv ns) {i : ℕ}
    (hi : i < ns.length) :
    ∃ n : Node, ns.find? (fun m => m.id == i) = some n ∧ n.id = i ∧ n ∈ ns := by
  have hmem : i ∈ ns.map Node.id := by
    rw [hN.idsSeq]
    exact List.mem_range.mpr hi
  obtain ⟨n, hn, hnid⟩ := List.mem_map.mp hmem
  have hnd : (ns.map Node.id).Nodup := by
    rw [hN.idsSeq]
    exact List.nodup_range _
  refine ⟨n, ?_, hnid, hn⟩
  have hfind := find?_id_of_nodup hnd hn
  rw [hnid] at hfind
  exact hfind

theorem chain'_map_id {adj : Adj} (f : ℕ → Node) :
    ∀ (ids : List ℕ), (∀ x ∈ ids, (f x).id = x) →
      List.Chain' (EdgeRel adj) ids →
      List.Chain' (fun a b => EdgeRel adj a.id b.id) (ids.map f) := by
  intro ids
  induction ids with
  | nil => intro _ _; exact List.chain'_nil
  | cons a t ih =>
    intro hid hch
    cases t with
    | nil => exact List.chain'_singleton _
    | cons b t2 =>
      rw [List.map_cons, List.map_cons, List.chain'_cons]
      refine ⟨?_, ?_⟩
      · rw [hid a (by simp), hid b (by simp)]
        exact (List.chain'_cons.mp hch).1
      · rw [← List.map_cons]
        exact ih (fun x hx => hid x (List.mem_cons_of_mem _ hx))
          (List.chain'_cons.mp hch).2

theorem chain'_strengthen {α : Type} {R S : α → α → Prop} :
    ∀ l : List α, List.Chain' R l →
      (∀ a ∈ l, ∀ b ∈ l, R a b → S a b) → List.Chain' S l := by
  intro l
  induction l with
  | nil => intro _ _; exact List.chain'_nil
  | cons a t ih =>
    intro hch hstr
    cases t with
    | nil => exact List.chain'_singleton _
    | cons b t2 =>
      rw [List.chain'_cons] at hch ⊢
      refine ⟨hstr a (by simp) b (by simp) hch.1, ?_⟩
      exact ih hch.2 (fun x hx y hy hr =>
        hstr x (List.mem_cons_of_mem _ hx) y (List.mem_cons_of_mem _ hy) hr)

/-- Full correctness of `findPath` at the level of node objects, for any
graph satisfying the builder invariants: a returned path runs from the
start node to the destination node along recorded adjacencies with minimal
hop count and no repeated node, and `null` is returned exactly when the
destination is unreachable. -/
theorem findPath_spec {g : Graph} (hN : NodeInv g.nodes)
    (hA : AdjInv g.nodes.length g.adj)
    (hs : g.startNode ∈ g.nodes) (hd : g.destNode ∈ g.nodes) :
    (∀ path, findPath g = some path →
      path.head? = some g.startNode ∧
      path.getLast? = some g.destNode ∧
      List.Chain' (fun a b => EdgeRel g.adj a.id b.id) path ∧
      path.Nodup ∧
      (∀ n ∈ path, n ∈ g.nodes) ∧
      (∀ l, IsPathList g.adj g.startNode.id g.destNode.id l →
        path.length ≤ l.length)) ∧
    (findPath g = none ↔
      ¬ ReachRel g.adj g.startNode.id g.destNode.id) := by
  obtain ⟨hsome, hnone⟩ := findPathIds_spec g
  constructor
  · intro path hpath
    unfold findPath at hpath
    cases hids : findPathIds g with
    | none =>
      rw [hids] at hpath
      cases hpath
    | some ids =>
      rw [hids] at hpath
      obtain ⟨hpl, hidnodup, hlen⟩ := hsome ids hids
      have hpe : path =
          ids.map (fun i => ((g.nodes.find? (fun n => n.id == i)).getD
            ⟨i, 0, 0⟩)) := by
        have := hpath
        simp only [Option.map] at this
        exact (Option.some_injective _ this).symm
      have hvalid : ∀ x ∈ ids, x < g.nodes.length :=
        pathlist_ids_lt hA ids g.startNode.id g.destNode.id (hN.id_lt hs) hpl
      have hfid : ∀ x ∈ ids,
          ((g.nodes.find? (fun n => n.id == x)).getD ⟨x, 0, 0⟩).id = x ∧
          ((g.nodes.find? (fun n => n.id == x)).getD ⟨x, 0, 0⟩) ∈ g.nodes := by
        intro x hx
        obtain ⟨n, hfind, hnid, hnmem⟩ := nodes_find_id hN (hvalid x hx)
        rw [hfind]
        exact ⟨hnid, hnmem⟩
      obtain ⟨hh, hl, hch⟩ := hpl
      have hsid : g.startNode.id ∈ ids := by
        cases hidc : ids with
        | nil => rw [hidc] at hh; cases hh
        | cons a t =>
          rw [hidc] at hh
          have : a = g.startNode.id := by simpa using hh
          rw [← this]
          simp
      have hdid : g.destNode.id ∈ ids := by
        have := List.mem_of_mem_getLast? (by rw [hl] : ids.getLast? = some g.destNode.id)
        exact this
      refine ⟨?_, ?_, ?_, ?_, ?_, ?_⟩
      · rw [hpe, List.head?_map, hh]
        simp only [Option.map]
        congr 1
        exact hN.id_inj (hfid _ hsid).2 hs ((hfid _ hsid).1.trans rfl)
      · rw [hpe, List.getLast?_map, hl]
        simp only [Option.map]
        congr 1
        exact hN.id_inj (hfid _ hdid).2 hd ((hfid _ hdid).1.trans rfl)
      · rw [hpe]
        exact chain'_map_id _ ids (fun x hx => (hfid x hx).1) hch
      · rw [hpe]
        refine List.Nodup.map_on ?_ hidnodup
        intro x hx y hy hxy
        have h1 := (hfid x hx).1
        have h2 := (hfid y hy).1
        rw [← h1, ← h2, hxy]
      · intro n hn
        rw [hpe] at hn
        obtain ⟨x, hx, hfx⟩ := List.mem_map.mp hn
        rw [← hfx]
        exact (hfid x hx).2
      · intro l hlwalk
        have h1 := hopDist_add_one_le hlwalk
        rw [← hlen] at h1
        have h2 : ids.length ≤ l.length := by exact_mod_cast h1
        rw [hpe, List.length_map]
        exact h2
  · constructor
    · intro hfp
      have hidsn : findPathIds g = none := by
        unfold findPath at hfp
        cases hids : findPathIds g with
        | none => rfl
        | some ids =>
          rw [hids] at hfp
          cases hfp
      exact hnone hidsn
    · intro hnr
      unfold findPath
      cases hids : findPathIds g with
      | none => rfl
      | some ids =>
        obtain ⟨hpl, _, _⟩ := hsome ids hids
        exact absurd ⟨ids, hpl⟩ hnr

/-- C4: for every graph produced by either Graph Builder, `findPath` returns
an ordered node sequence whose first element is the start node and whose
last element is the destination node, in which every consecutive pair is
recorded as adjacent, and whose hop count is minimal among all id walks from
start to destination in the graph; and it returns the explicit no-path
result (`null`) exactly when no sequence of edges connects them. -/
theorem claim_C4_findPath_correct (s d : Pt) (rs : List Road) :
    ((∀ path, findPath (buildGraphG s d rs) = some path →
      path.head? = some (buildGraphG s d rs).startNode ∧
      path.getLast? = some (buildGraphG s d rs).destNode ∧
      List.Chain' (fun a b => EdgeRel (buildGraphG s d rs).adj a.id b.id)
        path ∧
      (∀ l, IsPathList (buildGraphG s d rs).adj
          (buildGraphG s d rs).startNode.id
          (buildGraphG s d rs).destNode.id l →
        path.length ≤ l.length)) ∧
    (findPath (buildGraphG s d rs) = none ↔
      ¬ ReachRel (buildGraphG s d rs).adj (buildGraphG s d rs).startNode.id
        (buildGraphG s d rs).destNode.id)) ∧
    ((∀ path, findPath (buildGraphP s d rs) = some path →
      path.head? = some (buildGraphP s d rs).startNode ∧
      path.getLast? = some (buildGraphP s d rs).destNode ∧
      List.Chain' (fun a b => EdgeRel (buildGraphP s d rs).adj a.id b.id)
        path ∧
      (∀ l, IsPathList (buildGraphP s d rs).adj
          (buildGraphP s d rs).startNode.id
          (buildGraphP s d rs).destNode.id l →
        path.length ≤ l.length)) ∧
    (findPath (buildGraphP s d rs) = none ↔
      ¬ ReachRel (buildGraphP s d rs).adj (buildGraphP s d rs).startNode.id
        (buildGraphP s d rs).destNode.id)) := by
  obtain ⟨⟨hNg, hAg, _⟩, hsg, hdg⟩ := buildGraphG_inv s d rs
  obtain ⟨⟨hNp, hAp⟩, hsp, hdp⟩ := buildGraphP_inv s d rs
  obtain ⟨hg1, hg2⟩ := findPath_spec hNg hAg hsg hdg
  obtain ⟨hp1, hp2⟩ := findPath_spec hNp hAp hsp hdp
  refine ⟨⟨?_, hg2⟩, ⟨?_, hp2⟩⟩
  · intro path hpath
    obtain ⟨h1, h2, h3, _, _, h6⟩ := hg1 path hpath
    exact ⟨h1, h2, h3, h6⟩
  · intro path hpath
    obtain ⟨h1, h2, h3, _, _, h6⟩ := hp1 path hpath
    exact ⟨h1, h2, h3, h6⟩

/-- Witness for C4: on the concrete one-road map the returned path starts at
the start node, and on a concrete empty map the no-path result certifies
unreachability. -/
theorem claim_C4_findPath_correct_witness :
    ([⟨0, 80, 80⟩, ⟨1, 80, 110⟩] : List Node).head? =
      some (buildGraphG ⟨80, 80⟩ ⟨80, 110⟩ [⟨80, 80, 80, 110⟩]).startNode ∧
    ¬ ReachRel (buildGraphG ⟨80, 80⟩ ⟨520, 320⟩ []).adj
      (buildGraphG ⟨80, 80⟩ ⟨520, 320⟩ []).startNode.id
      (buildGraphG ⟨80, 80⟩ ⟨520, 320⟩ []).destNode.id := by
  constructor
  · exact ((claim_C4_findPath_correct ⟨80, 80⟩ ⟨80, 110⟩
      [⟨80, 80, 80, 110⟩]).1.1 [⟨0, 80, 80⟩, ⟨1, 80, 110⟩] (by
        norm_num [buildGraphG, getOrCreateNodeG, addRoadG, adjPush, nearNode,
          distSq, Node.pt, SNAP_THRESHOLD, findPath, findPathIds, bfsLoop,
          bfsFuel, nbrIds, nbrsOf, alistGet, scanNbrs, cfMem, cfGet, walk])).1
  · exact (claim_C4_findPath_correct ⟨80, 80⟩ ⟨520, 320⟩ []).1.2.mp (by
      norm_num [buildGraphG, getOrCreateNodeG, nearNode, distSq, Node.pt,
        SNAP_THRESHOLD, findPath, findPathIds, bfsLoop, bfsFuel, nbrIds,
        nbrsOf, alistGet, scanNbrs, cfMem, cfGet, walk])

/-- A tick taken while the freshly computed path is `null` stores the null
path and otherwise leaves the car and score untouched (game.js). -/
theorem tickG_nopath {cfg : Cfg} {st : GState}
    (h : findPath (buildGraphG cfg.start cfg.dest st.roads) = none) :
    tickG cfg st =
      some ⟨st.roads, { st.car with path := none }, st.score⟩ := by
  unfold tickG
  rw [h]
  rfl

/-- A tick taken while the freshly computed path is `null` stores the null
path and otherwise leaves the car and score untouched (part_000). -/
theorem tickP_nopath {cfg : Cfg} {st : GState}
    (h : findPath (buildGraphP cfg.start cfg.dest st.roads) = none) :
    tickP cfg st =
      some ⟨st.roads, { st.car with path := none }, st.score⟩ := by
  unfold tickP
  rw [h]
  rfl

theorem ticksG_nopath (cfg : Cfg) (roads : List Road)
    (h : findPath (buildGraphG cfg.start cfg.dest roads) = none) :
    ∀ (n : ℕ) (st : GState), st.roads = roads →
      ∃ st', ticksG cfg n st = some st' ∧ st'.roads = roads ∧
        st'.car.x = st.car.x ∧ st'.car.y = st.car.y ∧
        st'.score = st.score := by
  intro n
  induction n with
  | zero =>
    intro st hst
    exact ⟨st, rfl, hst, rfl, rfl, rfl⟩
  | succ m ih =>
    intro st hst
    have h1 : tickG cfg st =
        some ⟨st.roads, { st.car with path := none }, st.score⟩ :=
      tickG_nopath (by rw [hst]; exact h)
    obtain ⟨st', hrun, hr, hx, hy, hsc⟩ :=
      ih ⟨st.roads, { st.car with path := none }, st.score⟩ hst
    refine ⟨st', ?_, hr, hx, hy, hsc⟩
    show (tickG cfg st).bind (ticksG cfg m) = some st'
    rw [h1]
    exact hrun

theorem ticksP_nopath (cfg : Cfg) (roads : List Road)
    (h : findPath (buildGraphP cfg.start cfg.dest roads) = none) :
    ∀ (n : ℕ) (st : GState), st.roads = roads →
      ∃ st', ticksP cfg n st = some st' ∧ st'.roads = roads ∧
        st'.car.x = st.car.x ∧ st'.car.y = st.car.y ∧
        st'.score = st.score := by
  intro n
  induction n with
  | zero =>
    intro st hst
    exact ⟨st, rfl, hst, rfl, rfl, rfl⟩
  | succ m ih =>
    intro st hst
    have h1 : tickP cfg st =
        some ⟨st.roads, { st.car with path := none }, st.score⟩ :=
      tickP_nopath (by rw [hst]; exact h)
    obtain ⟨st', hrun, hr, hx, hy, hsc⟩ :=
      ih ⟨st.roads, { st.car with path := none }, st.score⟩ hst
    refine ⟨st', ?_, hr, hx, hy, hsc⟩
    show (tickP cfg st).bind (ticksP cfg m) = some st'
    rw [h1]
    exact hrun

/-- C5: whenever no edge path connects the two anchors, `findPath` returns
the explicit no-path result, and any number of subsequent ticks leaves the
vehicle at its position with the score unchanged — for both program
variants. -/
theorem claim_C5_no_path_idle (cfg : Cfg) (roads : List Road) :
    (¬ ReachRel (buildGraphG cfg.start cfg.dest roads).adj
        (buildGraphG cfg.start cfg.dest roads).startNode.id
        (buildGraphG cfg.start cfg.dest roads).destNode.id →
      findPath (buildGraphG cfg.start cfg.dest roads) = none ∧
      ∀ (st : GState), st.roads = roads → ∀ n : ℕ,
        ∃ st', ticksG cfg n st = some st' ∧ st'.car.x = st.car.x ∧
          st'.car.y = st.car.y ∧ st'.score = st.score) ∧
    (¬ ReachRel (buildGraphP cfg.start cfg.dest roads).adj
        (buildGraphP cfg.start cfg.dest roads).startNode.id
        (buildGraphP cfg.start cfg.dest roads).destNode.id →
      findPath (buildGraphP cfg.start cfg.dest roads) = none ∧
      ∀ (st : GState), st.roads = roads → ∀ n : ℕ,
        ∃ st', ticksP cfg n st = some st' ∧ st'.car.x = st.car.x ∧
          st'.car.y = st.car.y ∧ st'.score = st.score) := by
  obtain ⟨⟨hNg, hAg, _⟩, hsg, hdg⟩ := buildGraphG_inv cfg.start cfg.dest roads
  obtain ⟨⟨hNp, hAp⟩, hsp, hdp⟩ := buildGraphP_inv cfg.start cfg.dest roads
  constructor
  · intro hnr
    have hfp : findPath (buildGraphG cfg.start cfg.dest roads) = none :=
      (findPath_spec hNg hAg hsg hdg).2.mpr hnr
    refine ⟨hfp, ?_⟩
    intro st hst n
    obtain ⟨st', hrun, _, hx, hy, hsc⟩ := ticksG_nopath cfg roads hfp n st hst
    exact ⟨st', hrun, hx, hy, hsc⟩
  · intro hnr
    have hfp : findPath (buildGraphP cfg.start cfg.dest roads) = none :=
      (findPath_spec hNp hAp hsp hdp).2.mpr hnr
    refine ⟨hfp, ?_⟩
    intro st hst n
    obtain ⟨st', hrun, _, hx, hy, hsc⟩ := ticksP_nopath cfg roads hfp n st hst
    exact ⟨st', hrun, hx, hy, hsc⟩

/-- No walk can leave a vertex with an empty neighbor list. -/
theorem not_reach_of_no_edges {adj : Adj} {s d : ℕ} (hne : s ≠ d)
    (h : nbrsOf adj s = []) : ¬ ReachRel adj s d := by
  rintro ⟨l, h1, h2, h3⟩
  cases l with
  | nil => cases h1
  | cons a t =>
    have ha : a = s := by simpa using h1
    subst ha
    cases t with
    | nil =>
      have : a = d := by simpa using h2
      exact hne (this ▸ rfl)
    | cons b t2 =>
      obtain ⟨dd, hdd⟩ := (List.chain'_cons.mp h3).1
      rw [h] at hdd
      cases hdd

/-- Witness for C5, on the empty road map with distant anchors. -/
theorem claim_C5_no_path_idle_witness :
    findPath (buildGraphG (Cfg.mk 600 400).start (Cfg.mk 600 400).dest []) =
      none ∧
    ∃ st', ticksG ⟨600, 400⟩ 3 (initState ⟨600, 400⟩) = some st' ∧
      st'.car.x = (initState ⟨600, 400⟩).car.x ∧
      st'.car.y = (initState ⟨600, 400⟩).car.y ∧
      st'.score = (initState ⟨600, 400⟩).score := by
  have hnr : ¬ ReachRel (buildGraphG (Cfg.mk 600 400).start
      (Cfg.mk 600 400).dest []).adj
      (buildGraphG (Cfg.mk 600 400).start (Cfg.mk 600 400).dest []).startNode.id
      (buildGraphG (Cfg.mk 600 400).start (Cfg.mk 600 400).dest []).destNode.id := by
    have hids : (buildGraphG (Cfg.mk 600 400).start (Cfg.mk 600 400).dest
        []).startNode.id = 0 ∧
        (buildGraphG (Cfg.mk 600 400).start (Cfg.mk 600 400).dest
          []).destNode.id = 1 ∧
        nbrsOf (buildGraphG (Cfg.mk 600 400).start (Cfg.mk 600 400).dest
          []).adj 0 = [] := by
      norm_num [buildGraphG, getOrCreateNodeG, nearNode, distSq, Node.pt,
        SNAP_THRESHOLD, Cfg.start, Cfg.dest, nbrsOf, alistGet]
    rw [hids.1, hids.2.1]
    exact not_reach_of_no_edges (by omega) hids.2.2
  obtain ⟨hfp, hticks⟩ :=
    (claim_C5_no_path_idle ⟨600, 400⟩ []).1 hnr
  exact ⟨hfp, hticks (initState ⟨600, 400⟩) rfl 3⟩

/-- C10: any two distinct nodes produced by the node merger (in one build,
either variant) are at squared distance at least `SNAP_THRESHOLD² = 100`,
and consecutive nodes of any returned path have distinct positions — their
squared separation is at least the squared snap threshold, so no path
segment between them has zero length. -/
theorem claim_C10_distinct_nodes_far_apart (s d : Pt) (rs : List Road) :
    ((∀ a ∈ (buildGraphG s d rs).nodes, ∀ b ∈ (buildGraphG s d rs).nodes,
      a ≠ b → SNAP_THRESHOLD ^ 2 ≤ distSq a.pt b.pt) ∧
    ∀ path, findPath (buildGraphG s d rs) = some path →
      List.Chain' (fun a b => a.pt ≠ b.pt ∧
        SNAP_THRESHOLD ^ 2 ≤ distSq a.pt b.pt) path) ∧
    ((∀ a ∈ (buildGraphP s d rs).nodes, ∀ b ∈ (buildGraphP s d rs).nodes,
      a ≠ b → SNAP_THRESHOLD ^ 2 ≤ distSq a.pt b.pt) ∧
    ∀ path, findPath (buildGraphP s d rs) = some path →
      List.Chain' (fun a b => a.pt ≠ b.pt ∧
        SNAP_THRESHOLD ^ 2 ≤ distSq a.pt b.pt) path) := by
  obtain ⟨⟨hNg, hAg, _⟩, hsg, hdg⟩ := buildGraphG_inv s d rs
  obtain ⟨⟨hNp, hAp⟩, hsp, hdp⟩ := buildGraphP_inv s d rs
  have hmk : ∀ (g : Graph), NodeInv g.nodes →
      (∀ path, (∀ n ∈ path, n ∈ g.nodes) → path.Nodup →
        List.Chain' (fun a b => a.pt ≠ b.pt ∧
          SNAP_THRESHOLD ^ 2 ≤ distSq a.pt b.pt) path) := by
    intro g hN path hmem hnd
    have hch : List.Chain' (fun a b => a ≠ b) path := hnd.chain'
    refine chain'_strengthen path hch ?_
    intro a ha b hb hab
    have hsep := hN.sep a (hmem a ha) b (hmem b hb) hab
    refine ⟨?_, hsep⟩
    intro hpt
    rw [hpt] at hsep
    rw [(distSq_eq_zero_iff b.pt b.pt).mpr rfl] at hsep
    norm_num [SNAP_THRESHOLD] at hsep
  obtain ⟨hg1, _⟩ := findPath_spec hNg hAg hsg hdg
  obtain ⟨hp1, _⟩ := findPath_spec hNp hAp hsp hdp
  refine ⟨⟨hNg.sep, ?_⟩, ⟨hNp.sep, ?_⟩⟩
  · intro path hpath
    obtain ⟨_, _, _, hnd, hmem, _⟩ := hg1 path hpath
    exact hmk _ hNg path hmem hnd
  · intro path hpath
    obtain ⟨_, _, _, hnd, hmem, _⟩ := hp1 path hpath
    exact hmk _ hNp path hmem hnd

/-- Witness for C10: the two distinct nodes of a concrete graph are at least
the snap threshold apart. -/
theorem claim_C10_distinct_nodes_far_apart_witness :
    SNAP_THRESHOLD ^ 2 ≤ distSq (Node.pt ⟨0, 80, 80⟩) (Node.pt ⟨1, 80, 110⟩) := by
  refine (claim_C10_distinct_nodes_far_apart ⟨80, 80⟩ ⟨80, 110⟩
    [⟨80, 80, 80, 110⟩]).1.1 ⟨0, 80, 80⟩ ?_ ⟨1, 80, 110⟩ ?_ (by decide)
  · norm_num [buildGraphG, getOrCreateNodeG, addRoadG, adjPush, nearNode,
      distSq, Node.pt, SNAP_THRESHOLD]
  · norm_num [buildGraphG, getOrCreateNodeG, addRoadG, adjPush, nearNode,
      distSq, Node.pt, SNAP_THRESHOLD]

/-! ## Motion-model lemmas -/

/-- A single-node stored path makes the motion body a no-op (the
`path.length > 1` test fails). -/
theorem carMotion_single (start : Pt) (c : Car) (score : ℕ) (n : Node)
    (h : c.path = some [n]) : carMotion start c score = some (c, score) := by
  unfold carMotion
  rw [h]
  norm_num

/-- When both anchors merge into one node, `findPath` on the empty road map
returns the single-node path `[startNode]` (game.js builder). -/
theorem findPath_mergedG (cfg : Cfg)
    (h : distSq cfg.start cfg.dest < SNAP_THRESHOLD ^ 2) :
    findPath (buildGraphG cfg.start cfg.dest []) =
      some [⟨0, cfg.start.x, cfg.start.y⟩] := by
  have hnear : nearNode cfg.dest.x cfg.dest.y ⟨0, cfg.start.x, cfg.start.y⟩ =
      true := by
    unfold nearNode
    rw [decide_eq_true_eq]
    have : Node.pt ⟨0, cfg.start.x, cfg.start.y⟩ = cfg.start := rfl
    rw [this, distSq_comm]
    exact h
  simp [buildGraphG, getOrCreateNodeG, List.find?, hnear, findPath,
    findPathIds, bfsLoop, bfsFuel, nbrIds, walk, cfGet]

/-- Same for the part_000 builder. -/
theorem findPath_mergedP (cfg : Cfg)
    (h : distSq cfg.start cfg.dest < SNAP_THRESHOLD ^ 2) :
    findPath (buildGraphP cfg.start cfg.dest []) =
      some [⟨0, cfg.start.x, cfg.start.y⟩] := by
  have hnear : nearNode cfg.dest.x cfg.dest.y ⟨0, cfg.start.x, cfg.start.y⟩ =
      true := by
    unfold nearNode
    rw [decide_eq_true_eq]
    have : Node.pt ⟨0, cfg.start.x, cfg.start.y⟩ = cfg.start := rfl
    rw [this, distSq_comm]
    exact h
  simp [buildGraphP, getOrCreateNode, List.find?, hnear, findPath,
    findPathIds, bfsLoop, bfsFuel, nbrIds, walk, cfGet]

/-- A tick whose freshly computed path is the single-node path stores that
path and changes nothing else (game.js). -/
theorem tickG_single (cfg : Cfg) (st : GState) {n : Node}
    (h : findPath (buildGraphG cfg.start cfg.dest st.roads) = some [n]) :
    tickG cfg st =
      some ⟨st.roads, { st.car with path := some [n] }, st.score⟩ := by
  unfold tickG
  rw [h]
  dsimp only
  rw [carMotion_single cfg.start _ st.score n rfl]
  rfl

/-- Same for part_000 (whose clamp guard is inactive on a length-1 path). -/
theorem tickP_single (cfg : Cfg) (st : GState) {n : Node}
    (h : findPath (buildGraphP cfg.start cfg.dest st.roads) = some [n]) :
    tickP cfg st =
      some ⟨st.roads, { st.car with path := some [n] }, st.score⟩ := by
  unfold tickP
  rw [h]
  dsimp only
  have hguard : ¬ (1 < ([n] : List Node).length ∧
      ([n] : List Node).length ≤ ({ st.car with path := some [n] } : Car).segIndex) := by
    intro hc
    simp at hc
  rw [if_neg hguard]
  rw [carMotion_single cfg.start _ st.score n rfl]
  rfl

/-- C1, counterexample: with coincident anchors (canvas 160×160 puts the
destination at the start) and no roads, `findPath` does return a single-node
path, but the next tick does not register an arrival: the score stays 0 and
the vehicle does not move — refuting the claim that the score increments by
one on the next tick. -/
theorem claim_C1_counterexample :
    (findPath (buildGraphG (Cfg.mk 160 160).start (Cfg.mk 160 160).dest
      [])).map List.length = some 1 ∧
    ∃ st', tickG ⟨160, 160⟩ (initState ⟨160, 160⟩) = some st' ∧
      st'.score = 0 ∧ st'.car.x = 80 ∧ st'.car.y = 80 := by
  have hmerge : distSq (Cfg.mk 160 160).start (Cfg.mk 160 160).dest <
      SNAP_THRESHOLD ^ 2 := by
    norm_num [Cfg.start, Cfg.dest, distSq, SNAP_THRESHOLD]
  have hfp := findPath_mergedG ⟨160, 160⟩ hmerge
  refine ⟨by rw [hfp]; rfl, ?_⟩
  have htick := tickG_single ⟨160, 160⟩ (initState ⟨160, 160⟩)
    (by rw [show (initState (Cfg.mk 160 160)).roads = [] from rfl]; exact hfp)
  refine ⟨_, htick, rfl, ?_, ?_⟩ <;>
    norm_num [initState, carInit, Cfg.start]

/-- C1, amended: if the origin and destination anchors coincide (distance
below the snap threshold) and no roads are drawn, `findPath` returns a
single-node path, and on the next tick the Motion Model treats it as
idle (`path.length > 1` fails): the vehicle does not move and the score is
unchanged — no arrival is registered.  This holds for both variants. -/
theorem claim_C1_amended (cfg : Cfg)
    (h : distSq cfg.start cfg.dest < SNAP_THRESHOLD ^ 2) :
    (findPath (buildGraphG cfg.start cfg.dest []) =
      some [⟨0, cfg.start.x, cfg.start.y⟩] ∧
    ∀ st : GState, st.roads = [] → ∃ st', tickG cfg st = some st' ∧
      st'.car.x = st.car.x ∧ st'.car.y = st.car.y ∧
      st'.car.segIndex = st.car.segIndex ∧ st'.score = st.score) ∧
    (findPath (buildGraphP cfg.start cfg.dest []) =
      some [⟨0, cfg.start.x, cfg.start.y⟩] ∧
    ∀ st : GState, st.roads = [] → ∃ st', tickP cfg st = some st' ∧
      st'.car.x = st.car.x ∧ st'.car.y = st.car.y ∧
      st'.car.segIndex = st.car.segIndex ∧ st'.score = st.score) := by
  constructor
  · refine ⟨findPath_mergedG cfg h, ?_⟩
    intro st hst
    have htick := tickG_single cfg st
      (by rw [hst]; exact findPath_mergedG cfg h)
    exact ⟨_, htick, rfl, rfl, rfl, rfl⟩
  · refine ⟨findPath_mergedP cfg h, ?_⟩
    intro st hst
    have htick := tickP_single cfg st
      (by rw [hst]; exact findPath_mergedP cfg h)
    exact ⟨_, htick, rfl, rfl, rfl, rfl⟩

/-- Witness for the amended C1, at the concrete 160×160 canvas. -/
theorem claim_C1_amended_witness :
    findPath (buildGraphG (Cfg.mk 160 160).start (Cfg.mk 160 160).dest []) =
      some [⟨0, 80, 80⟩] ∧
    ∃ st', tickP ⟨160, 160⟩ (initState ⟨160, 160⟩) = some st' ∧
      st'.score = 0 := by
  have hmerge : distSq (Cfg.mk 160 160).start (Cfg.mk 160 160).dest <
      SNAP_THRESHOLD ^ 2 := by
    norm_num [Cfg.start, Cfg.dest, distSq, SNAP_THRESHOLD]
  obtain ⟨⟨hg1, _⟩, ⟨_, hp2⟩⟩ := claim_C1_amended ⟨160, 160⟩ hmerge
  refine ⟨?_, ?_⟩
  · rw [hg1]
    norm_num [Cfg.start]
  · obtain ⟨st', htick, _, _, _, hsc⟩ := hp2 (initState ⟨160, 160⟩) rfl
    exact ⟨st', htick, hsc⟩

/-- Separated points are at least the snap threshold apart in Euclidean
distance. -/
theorem dist_ge_of_distSq {p q : Pt} (h : SNAP_THRESHOLD ^ 2 ≤ distSq p q) :
    (10 : ℝ) ≤ dist p q := by
  unfold dist
  have h100 : (100 : ℝ) ≤ ((distSq p q : ℚ) : ℝ) := by
    have h' : (100 : ℚ) ≤ distSq p q := by
      have : SNAP_THRESHOLD ^ 2 = (100 : ℚ) := by norm_num [SNAP_THRESHOLD]
      rw [this] at h
      exact h
    exact_mod_cast h'
  have hnn : (0 : ℝ) ≤ ((distSq p q : ℚ) : ℝ) := le_trans (by norm_num) h100
  nlinarith [Real.sq_sqrt hnn, Real.sqrt_nonneg ((distSq p q : ℚ) : ℝ)]

theorem dist_pos_of_sep {p q : Pt} (h : SNAP_THRESHOLD ^ 2 ≤ distSq p q) :
    0 < dist p q :=
  lt_of_lt_of_le (by norm_num) (dist_ge_of_distSq h)

/-- On the map with a single road joining the two (separated) anchors, both
builders produce the two-anchor graph and `findPath` returns the two-node
path. -/
theorem findPath_direct (cfg : Cfg)
    (hsep : SNAP_THRESHOLD ^ 2 ≤ distSq cfg.start cfg.dest) :
    findPath (buildGraphG cfg.start cfg.dest
        [⟨cfg.start.x, cfg.start.y, cfg.dest.x, cfg.dest.y⟩]) =
      some [⟨0, cfg.start.x, cfg.start.y⟩, ⟨1, cfg.dest.x, cfg.dest.y⟩] := by
  have hfar : nearNode cfg.dest.x cfg.dest.y ⟨0, cfg.start.x, cfg.start.y⟩ =
      false := by
    unfold nearNode
    rw [decide_eq_false_iff_not]
    have he : Node.pt ⟨0, cfg.start.x, cfg.start.y⟩ = cfg.start := rfl
    rw [he, distSq_comm]
    exact not_lt.mpr hsep
  have hs0 : nearNode cfg.start.x cfg.start.y ⟨0, cfg.start.x, cfg.start.y⟩ =
      true := by
    unfold nearNode
    rw [decide_eq_true_eq]
    have he : Node.pt ⟨0, cfg.start.x, cfg.start.y⟩ = cfg.start := rfl
    rw [he, (distSq_eq_zero_iff cfg.start cfg.start).mpr rfl]
    norm_num [SNAP_THRESHOLD]
  have hd1 : nearNode cfg.dest.x cfg.dest.y ⟨1, cfg.dest.x, cfg.dest.y⟩ =
      true := by
    unfold nearNode
    rw [decide_eq_true_eq]
    have he : Node.pt ⟨1, cfg.dest.x, cfg.dest.y⟩ = cfg.dest := rfl
    rw [he, (distSq_eq_zero_iff cfg.dest cfg.dest).mpr rfl]
    norm_num [SNAP_THRESHOLD]
  simp [buildGraphG, getOrCreateNodeG, addRoadG, adjPush, List.find?, hfar,
    hs0, hd1, findPath, findPathIds, bfsLoop, bfsFuel, nbrIds, nbrsOf,
    alistGet, scanNbrs, cfMem, cfGet, walk]

/-- The motion body on a two-node path, still-travelling case: progress
advances by `speed / segLength` and the position is interpolated. -/
theorem carMotion_pair_move (start : Pt) (c : Car) (score : ℕ)
    (n0 n1 : Node) (hpath : c.path = some [n0, n1]) (hseg : c.segIndex = 0)
    (hL : Real.sqrt ((distSq n0.pt n1.pt : ℚ) : ℝ) ≠ 0)
    (hlt : c.progress +
      c.speed / Real.sqrt ((distSq n0.pt n1.pt : ℚ) : ℝ) < 1) :
    carMotion start c score =
      some ({ c with
        progress := c.progress +
          c.speed / Real.sqrt ((distSq n0.pt n1.pt : ℚ) : ℝ),
        x := (n0.x : ℝ) + ((n1.x : ℝ) - (n0.x : ℝ)) *
          (c.progress + c.speed / Real.sqrt ((distSq n0.pt n1.pt : ℚ) : ℝ)),
        y := (n0.y : ℝ) + ((n1.y : ℝ) - (n0.y : ℝ)) *
          (c.progress +
            c.speed / Real.sqrt ((distSq n0.pt n1.pt : ℚ) : ℝ)) }, score) := by
  unfold carMotion
  rw [hpath, hseg]
  dsimp only
  have h2 : (1 : ℕ) < ([n0, n1] : List Node).length := by norm_num
  rw [if_pos h2]
  dsimp only [List.get?]
  rw [if_neg (fun hc => hL hc.1)]
  have hcond : ¬ (1 ≤ c.progress +
      c.speed / Real.sqrt ((distSq n0.pt n1.pt : ℚ) : ℝ) ∨
      Real.sqrt ((distSq n0.pt n1.pt : ℚ) : ℝ) = 0) := by
    rintro (hc | hc)
    · exact absurd hlt (not_lt_of_le hc)
    · exact hL hc
  rw [if_neg hcond]

/-- The motion body on a two-node path, arrival case: the score increments
and the car resets. -/
theorem carMotion_pair_arrive (start : Pt) (c : Car) (score : ℕ)
    (n0 n1 : Node) (hpath : c.path = some [n0, n1]) (hseg : c.segIndex = 0)
    (hL : Real.sqrt ((distSq n0.pt n1.pt : ℚ) : ℝ) ≠ 0)
    (hge : 1 ≤ c.progress +
      c.speed / Real.sqrt ((distSq n0.pt n1.pt : ℚ) : ℝ)) :
    carMotion start c score = some (resetCar c start, score + 1) := by
  unfold carMotion
  rw [hpath, hseg]
  dsimp only
  have h2 : (1 : ℕ) < ([n0, n1] : List Node).length := by norm_num
  rw [if_pos h2]
  dsimp only [List.get?]
  rw [if_neg (fun hc => hL hc.1)]
  rw [if_pos (Or.inl hge)]
  have h11 : ([n0, n1] : List Node).length - 1 ≤ 0 + 1 := by norm_num
  rw [if_pos h11]

/-- On the map with a single road joining the two (separated) anchors, the
part_000 builder also yields the two-node path. -/
theorem findPath_directP (cfg : Cfg)
    (hsep : SNAP_THRESHOLD ^ 2 ≤ distSq cfg.start cfg.dest) :
    findPath (buildGraphP cfg.start cfg.dest
        [⟨cfg.start.x, cfg.start.y, cfg.dest.x, cfg.dest.y⟩]) =
      some [⟨0, cfg.start.x, cfg.start.y⟩, ⟨1, cfg.dest.x, cfg.dest.y⟩] := by
  have hfar : nearNode cfg.dest.x cfg.dest.y ⟨0, cfg.start.x, cfg.start.y⟩ =
      false := by
    unfold nearNode
    rw [decide_eq_false_iff_not]
    have he : Node.pt ⟨0, cfg.start.x, cfg.start.y⟩ = cfg.start := rfl
    rw [he, distSq_comm]
    exact not_lt.mpr hsep
  have hs0 : nearNode cfg.start.x cfg.start.y ⟨0, cfg.start.x, cfg.start.y⟩ =
      true := by
    unfold nearNode
    rw [decide_eq_true_eq]
    have he : Node.pt ⟨0, cfg.start.x, cfg.start.y⟩ = cfg.start := rfl
    rw [he, (distSq_eq_zero_iff cfg.start cfg.start).mpr rfl]
    norm_num [SNAP_THRESHOLD]
  have hd1 : nearNode cfg.dest.x cfg.dest.y ⟨1, cfg.dest.x, cfg.dest.y⟩ =
      true := by
    unfold nearNode
    rw [decide_eq_true_eq]
    have he : Node.pt ⟨1, cfg.dest.x, cfg.dest.y⟩ = cfg.dest := rfl
    rw [he, (distSq_eq_zero_iff cfg.dest cfg.dest).mpr rfl]
    norm_num [SNAP_THRESHOLD]
  simp [buildGraphP, getOrCreateNode, addRoadP, addEdge, adjEnsure, adjPush,
    List.find?, hfar, hs0, hd1, findPath, findPathIds, bfsLoop, bfsFuel,
    nbrIds, nbrsOf, alistGet, scanNbrs, cfMem, cfGet, walk]

/-- A game.js tick on the single-direct-road map, still-travelling case. -/
theorem tickG_direct_move (cfg : Cfg) (s : ℝ)
    (hsep : SNAP_THRESHOLD ^ 2 ≤ distSq cfg.start cfg.dest)
    (c : Car) (score : ℕ) (hseg : c.segIndex = 0) (hspd : c.speed = s)
    (hlt : c.progress + s / dist cfg.start cfg.dest < 1) :
    tickG cfg ⟨[⟨cfg.start.x, cfg.start.y, cfg.dest.x, cfg.dest.y⟩], c, score⟩ =
      some ⟨[⟨cfg.start.x, cfg.start.y, cfg.dest.x, cfg.dest.y⟩],
        ⟨(cfg.start.x : ℝ) + ((cfg.dest.x : ℝ) - (cfg.start.x : ℝ)) *
            (c.progress + s / dist cfg.start cfg.dest),
         (cfg.start.y : ℝ) + ((cfg.dest.y : ℝ) - (cfg.start.y : ℝ)) *
            (c.progress + s / dist cfg.start cfg.dest),
         s, some [⟨0, cfg.start.x, cfg.start.y⟩, ⟨1, cfg.dest.x, cfg.dest.y⟩],
         0, c.progress + s / dist cfg.start cfg.dest⟩, score⟩ := by
  obtain ⟨cx, cy, cs, cp, ci, cpr⟩ := c
  dsimp only at hseg hspd hlt ⊢
  subst hseg hspd
  have hfp := findPath_direct cfg hsep
  have hLne : Real.sqrt ((distSq
      (Node.pt ⟨0, cfg.start.x, cfg.start.y⟩)
      (Node.pt ⟨1, cfg.dest.x, cfg.dest.y⟩) : ℚ) : ℝ) ≠ 0 :=
    ne_of_gt (dist_pos_of_sep hsep)
  simp only [tickG, hfp]
  rw [carMotion_pair_move cfg.start
    ⟨cx, cy, cs, some [⟨0, cfg.start.x, cfg.start.y⟩,
      ⟨1, cfg.dest.x, cfg.dest.y⟩], 0, cpr⟩ score
    ⟨0, cfg.start.x, cfg.start.y⟩ ⟨1, cfg.dest.x, cfg.dest.y⟩ rfl rfl
    hLne hlt]
  rfl

/-- A game.js tick on the single-direct-road map, arrival case. -/
theorem tickG_direct_arrive (cfg : Cfg) (s : ℝ)
    (hsep : SNAP_THRESHOLD ^ 2 ≤ distSq cfg.start cfg.dest)
    (c : Car) (score : ℕ) (hseg : c.segIndex = 0) (hspd : c.speed = s)
    (hge : 1 ≤ c.progress + s / dist cfg.start cfg.dest) :
    tickG cfg ⟨[⟨cfg.start.x, cfg.start.y, cfg.dest.x, cfg.dest.y⟩], c, score⟩ =
      some ⟨[⟨cfg.start.x, cfg.start.y, cfg.dest.x, cfg.dest.y⟩],
        ⟨(cfg.start.x : ℝ), (cfg.start.y : ℝ),
         s, some [⟨0, cfg.start.x, cfg.start.y⟩, ⟨1, cfg.dest.x, cfg.dest.y⟩],
         0, 0⟩, score + 1⟩ := by
  obtain ⟨cx, cy, cs, cp, ci, cpr⟩ := c
  dsimp only at hseg hspd hge ⊢
  subst hseg hspd
  have hfp := findPath_direct cfg hsep
  have hLne : Real.sqrt ((distSq
      (Node.pt ⟨0, cfg.start.x, cfg.start.y⟩)
      (Node.pt ⟨1, cfg.dest.x, cfg.dest.y⟩) : ℚ) : ℝ) ≠ 0 :=
    ne_of_gt (dist_pos_of_sep hsep)
  simp only [tickG, hfp]
  rw [carMotion_pair_arrive cfg.start
    ⟨cx, cy, cs, some [⟨0, cfg.start.x, cfg.start.y⟩,
      ⟨1, cfg.dest.x, cfg.dest.y⟩], 0, cpr⟩ score
    ⟨0, cfg.start.x, cfg.start.y⟩ ⟨1, cfg.dest.x, cfg.dest.y⟩ rfl rfl
    hLne hge]
  rfl

/-- A part_000 tick on the single-direct-road map, still-travelling case
(the segment-index clamp does not fire at `segIndex = 0`). -/
theorem tickP_direct_move (cfg : Cfg) (s : ℝ)
    (hsep : SNAP_THRESHOLD ^ 2 ≤ distSq cfg.start cfg.dest)
    (c : Car) (score : ℕ) (hseg : c.segIndex = 0) (hspd : c.speed = s)
    (hlt : c.progress + s / dist cfg.start cfg.dest < 1) :
    tickP cfg ⟨[⟨cfg.start.x, cfg.start.y, cfg.dest.x, cfg.dest.y⟩], c, score⟩ =
      some ⟨[⟨cfg.start.x, cfg.start.y, cfg.dest.x, cfg.dest.y⟩],
        ⟨(cfg.start.x : ℝ) + ((cfg.dest.x : ℝ) - (cfg.start.x : ℝ)) *
            (c.progress + s / dist cfg.start cfg.dest),
         (cfg.start.y : ℝ) + ((cfg.dest.y : ℝ) - (cfg.start.y : ℝ)) *
            (c.progress + s / dist cfg.start cfg.dest),
         s, some [⟨0, cfg.start.x, cfg.start.y⟩, ⟨1, cfg.dest.x, cfg.dest.y⟩],
         0, c.progress + s / dist cfg.start cfg.dest⟩, score⟩ := by
  obtain ⟨cx, cy, cs, cp, ci, cpr⟩ := c
  dsimp only at hseg hspd hlt ⊢
  subst hseg hspd
  have hfp := findPath_directP cfg hsep
  have hLne : Real.sqrt ((distSq
      (Node.pt ⟨0, cfg.start.x, cfg.start.y⟩)
      (Node.pt ⟨1, cfg.dest.x, cfg.dest.y⟩) : ℚ) : ℝ) ≠ 0 :=
    ne_of_gt (dist_pos_of_sep hsep)
  simp only [tickP, hfp]
  rw [if_neg (show ¬ (1 < ([⟨0, cfg.start.x, cfg.start.y⟩,
      ⟨1, cfg.dest.x, cfg.dest.y⟩] : List Node).length ∧
      ([⟨0, cfg.start.x, cfg.start.y⟩,
      ⟨1, cfg.dest.x, cfg.dest.y⟩] : List Node).length ≤ 0) by norm_num)]
  rw [carMotion_pair_move cfg.start
    ⟨cx, cy, cs, some [⟨0, cfg.start.x, cfg.start.y⟩,
      ⟨1, cfg.dest.x, cfg.dest.y⟩], 0, cpr⟩ score
    ⟨0, cfg.start.x, cfg.start.y⟩ ⟨1, cfg.dest.x, cfg.dest.y⟩ rfl rfl
    hLne hlt]
  rfl

/-- A part_000 tick on the single-direct-road map, arrival case. -/
theorem tickP_direct_arrive (cfg : Cfg) (s : ℝ)
    (hsep : SNAP_THRESHOLD ^ 2 ≤ distSq cfg.start cfg.dest)
    (c : Car) (score : ℕ) (hseg : c.segIndex = 0) (hspd : c.speed = s)
    (hge : 1 ≤ c.progress + s / dist cfg.start cfg.dest) :
    tickP cfg ⟨[⟨cfg.start.x, cfg.start.y, cfg.dest.x, cfg.dest.y⟩], c, score⟩ =
      some ⟨[⟨cfg.start.x, cfg.start.y, cfg.dest.x, cfg.dest.y⟩],
        ⟨(cfg.start.x : ℝ), (cfg.start.y : ℝ),
         s, some [⟨0, cfg.start.x, cfg.start.y⟩, ⟨1, cfg.dest.x, cfg.dest.y⟩],
         0, 0⟩, score + 1⟩ := by
  obtain ⟨cx, cy, cs, cp, ci, cpr⟩ := c
  dsimp only at hseg hspd hge ⊢
  subst hseg hspd
  have hfp := findPath_directP cfg hsep
  have hLne : Real.sqrt ((distSq
      (Node.pt ⟨0, cfg.start.x, cfg.start.y⟩)
      (Node.pt ⟨1, cfg.dest.x, cfg.dest.y⟩) : ℚ) : ℝ) ≠ 0 :=
    ne_of_gt (dist_pos_of_sep hsep)
  simp only [tickP, hfp]
  rw [if_neg (show ¬ (1 < ([⟨0, cfg.start.x, cfg.start.y⟩,
      ⟨1, cfg.dest.x, cfg.dest.y⟩] : List Node).length ∧
      ([⟨0, cfg.start.x, cfg.start.y⟩,
      ⟨1, cfg.dest.x, cfg.dest.y⟩] : List Node).length ≤ 0) by norm_num)]
  rw [carMotion_pair_arrive cfg.start
    ⟨cx, cy, cs, some [⟨0, cfg.start.x, cfg.start.y⟩,
      ⟨1, cfg.dest.x, cfg.dest.y⟩], 0, cpr⟩ score
    ⟨0, cfg.start.x, cfg.start.y⟩ ⟨1, cfg.dest.x, cfg.dest.y⟩ rfl rfl
    hLne hge]
  rfl

/-- Iterated game.js ticks peel off at the back as well. -/
theorem ticksG_succ_right (cfg : Cfg) :
    ∀ (n : ℕ) (st : GState),
      ticksG cfg (n + 1) st = (ticksG cfg n st).bind (tickG cfg) := by
  intro n
  induction n with
  | zero =>
    intro st
    simp [ticksG]
  | succ m ih =>
    intro st
    show (tickG cfg st).bind (ticksG cfg (m + 1)) = _
    cases h : tickG cfg st with
    | none => simp [ticksG, h]
    | some st1 =>
      simp only [Option.some_bind]
      rw [ih st1]
      show _ = ((tickG cfg st).bind (ticksG cfg m)).bind (tickG cfg)
      rw [h, Option.some_bind]

/-- Iterated part_000 ticks peel off at the back as well. -/
theorem ticksP_succ_right (cfg : Cfg) :
    ∀ (n : ℕ) (st : GState),
      ticksP cfg (n + 1) st = (ticksP cfg n st).bind (tickP cfg) := by
  intro n
  induction n with
  | zero =>
    intro st
    simp [ticksP]
  | succ m ih =>
    intro st
    show (tickP cfg st).bind (ticksP cfg (m + 1)) = _
    cases h : tickP cfg st with
    | none => simp [ticksP, h]
    | some st1 =>
      simp only [Option.some_bind]
      rw [ih st1]
      show _ = ((tickP cfg st).bind (ticksP cfg m)).bind (tickP cfg)
      rw [h, Option.some_bind]

/-- Trajectory on the single-direct-road map, for any tick function whose
single-step behaviour matches the motion body (both variants qualify): for
`k` below `⌈L/s⌉` ticks the car's position is the linear interpolation
`start + (dest - start) * (k*s/L)` with progress `k*s/L` and score `0`, and
after exactly `⌈L/s⌉` ticks the car has arrived: score `1`, car reset. -/
theorem direct_trajectory (cfg : Cfg) (s : ℝ)
    (hsep : SNAP_THRESHOLD ^ 2 ≤ distSq cfg.start cfg.dest) (hs : 0 < s)
    (tick : GState → Option GState) (ticks : ℕ → GState → Option GState)
    (h0 : ∀ st, ticks 0 st = some st)
    (hsucc : ∀ (n : ℕ) (st : GState),
      ticks (n + 1) st = (ticks n st).bind tick)
    (hmove : ∀ (c : Car) (score : ℕ), c.segIndex = 0 → c.speed = s →
      c.progress + s / dist cfg.start cfg.dest < 1 →
      tick ⟨[⟨cfg.start.x, cfg.start.y, cfg.dest.x, cfg.dest.y⟩], c, score⟩ =
        some ⟨[⟨cfg.start.x, cfg.start.y, cfg.dest.x, cfg.dest.y⟩],
          ⟨(cfg.start.x : ℝ) + ((cfg.dest.x : ℝ) - (cfg.start.x : ℝ)) *
              (c.progress + s / dist cfg.start cfg.dest),
           (cfg.start.y : ℝ) + ((cfg.dest.y : ℝ) - (cfg.start.y : ℝ)) *
              (c.progress + s / dist cfg.start cfg.dest),
           s, some [⟨0, cfg.start.x, cfg.start.y⟩,
             ⟨1, cfg.dest.x, cfg.dest.y⟩],
           0, c.progress + s / dist cfg.start cfg.dest⟩, score⟩)
    (harr : ∀ (c : Car) (score : ℕ), c.segIndex = 0 → c.speed = s →
      1 ≤ c.progress + s / dist cfg.start cfg.dest →
      tick ⟨[⟨cfg.start.x, cfg.start.y, cfg.dest.x, cfg.dest.y⟩], c, score⟩ =
        some ⟨[⟨cfg.start.x, cfg.start.y, cfg.dest.x, cfg.dest.y⟩],
          ⟨(cfg.start.x : ℝ), (cfg.start.y : ℝ),
           s, some [⟨0, cfg.start.x, cfg.start.y⟩,
             ⟨1, cfg.dest.x, cfg.dest.y⟩],
           0, 0⟩, score + 1⟩) :
    (∀ k, k < ⌈dist cfg.start cfg.dest / s⌉₊ →
      ∃ p, ticks k ⟨[⟨cfg.start.x, cfg.start.y, cfg.dest.x, cfg.dest.y⟩],
          ⟨(cfg.start.x : ℝ), (cfg.start.y : ℝ), s, none, 0, 0⟩, 0⟩ =
        some ⟨[⟨cfg.start.x, cfg.start.y, cfg.dest.x, cfg.dest.y⟩],
          ⟨(cfg.start.x : ℝ) + ((cfg.dest.x : ℝ) - (cfg.start.x : ℝ)) *
              ((k : ℝ) * s / dist cfg.start cfg.dest),
           (cfg.start.y : ℝ) + ((cfg.dest.y : ℝ) - (cfg.start.y : ℝ)) *
              ((k : ℝ) * s / dist cfg.start cfg.dest),
           s, p, 0, (k : ℝ) * s / dist cfg.start cfg.dest⟩, 0⟩) ∧
    ticks ⌈dist cfg.start cfg.dest / s⌉₊
        ⟨[⟨cfg.start.x, cfg.start.y, cfg.dest.x, cfg.dest.y⟩],
          ⟨(cfg.start.x : ℝ), (cfg.start.y : ℝ), s, none, 0, 0⟩, 0⟩ =
      some ⟨[⟨cfg.start.x, cfg.start.y, cfg.dest.x, cfg.dest.y⟩],
        ⟨(cfg.start.x : ℝ), (cfg.start.y : ℝ),
         s, some [⟨0, cfg.start.x, cfg.start.y⟩, ⟨1, cfg.dest.x, cfg.dest.y⟩],
         0, 0⟩, 1⟩ := by
  have hL : 0 < dist cfg.start cfg.dest := dist_pos_of_sep hsep
  have aux : ∀ k, k < ⌈dist cfg.start cfg.dest / s⌉₊ →
      ∃ p, ticks k ⟨[⟨cfg.start.x, cfg.start.y, cfg.dest.x, cfg.dest.y⟩],
          ⟨(cfg.start.x : ℝ), (cfg.start.y : ℝ), s, none, 0, 0⟩, 0⟩ =
        some ⟨[⟨cfg.start.x, cfg.start.y, cfg.dest.x, cfg.dest.y⟩],
          ⟨(cfg.start.x : ℝ) + ((cfg.dest.x : ℝ) - (cfg.start.x : ℝ)) *
              ((k : ℝ) * s / dist cfg.start cfg.dest),
           (cfg.start.y : ℝ) + ((cfg.dest.y : ℝ) - (cfg.start.y : ℝ)) *
              ((k : ℝ) * s / dist cfg.start cfg.dest),
           s, p, 0, (k : ℝ) * s / dist cfg.start cfg.dest⟩, 0⟩ := by
    intro k
    induction k with
    | zero =>
      intro _
      refine ⟨none, ?_⟩
      rw [h0]
      norm_num
    | succ m ih =>
      intro hk
      obtain ⟨p, hp⟩ := ih (lt_trans (Nat.lt_succ_self m) hk)
      have h1 : ((m : ℝ) + 1) * s < dist cfg.start cfg.dest := by
        have h2 := Nat.lt_ceil.mp hk
        push_cast at h2
        exact (lt_div_iff₀ hs).mp h2
      have hlt : (m : ℝ) * s / dist cfg.start cfg.dest +
          s / dist cfg.start cfg.dest < 1 := by
        rw [div_add_div_same, div_lt_one hL]
        nlinarith [h1]
      have hprog : (m : ℝ) * s / dist cfg.start cfg.dest +
          s / dist cfg.start cfg.dest =
          ((m + 1 : ℕ) : ℝ) * s / dist cfg.start cfg.dest := by
        push_cast
        ring
      refine ⟨some [⟨0, cfg.start.x, cfg.start.y⟩,
        ⟨1, cfg.dest.x, cfg.dest.y⟩], ?_⟩
      rw [hsucc, hp, Option.some_bind,
        hmove ⟨(cfg.start.x : ℝ) + ((cfg.dest.x : ℝ) - (cfg.start.x : ℝ)) *
              ((m : ℝ) * s / dist cfg.start cfg.dest),
           (cfg.start.y : ℝ) + ((cfg.dest.y : ℝ) - (cfg.start.y : ℝ)) *
              ((m : ℝ) * s / dist cfg.start cfg.dest),
           s, p, 0, (m : ℝ) * s / dist cfg.start cfg.dest⟩ 0 rfl rfl hlt]
      rw [show ((⟨(cfg.start.x : ℝ) + ((cfg.dest.x : ℝ) - (cfg.start.x : ℝ)) *
              ((m : ℝ) * s / dist cfg.start cfg.dest),
           (cfg.start.y : ℝ) + ((cfg.dest.y : ℝ) - (cfg.start.y : ℝ)) *
              ((m : ℝ) * s / dist cfg.start cfg.dest),
           s, p, 0, (m : ℝ) * s / dist cfg.start cfg.dest⟩ : Car)).progress =
          (m : ℝ) * s / dist cfg.start cfg.dest from rfl, hprog]
  refine ⟨aux, ?_⟩
  have hKpos : 0 < ⌈dist cfg.start cfg.dest / s⌉₊ :=
    Nat.ceil_pos.mpr (div_pos hL hs)
  obtain ⟨p, hp⟩ := aux (⌈dist cfg.start cfg.dest / s⌉₊ - 1)
    (by omega)
  have hge : ((⌈dist cfg.start cfg.dest / s⌉₊ - 1 : ℕ) : ℝ) * s /
      dist cfg.start cfg.dest + s / dist cfg.start cfg.dest ≥ 1 := by
    have hle := Nat.le_ceil (dist cfg.start cfg.dest / s)
    have hLK : dist cfg.start cfg.dest ≤
        (⌈dist cfg.start cfg.dest / s⌉₊ : ℝ) * s := by
      rw [← div_le_iff₀ hs]
      exact hle
    have hcast : ((⌈dist cfg.start cfg.dest / s⌉₊ - 1 : ℕ) : ℝ) =
        (⌈dist cfg.start cfg.dest / s⌉₊ : ℝ) - 1 := by
      push_cast [hKpos]
      ring
    rw [hcast, div_add_div_same, ge_iff_le, le_div_iff₀ hL]
    nlinarith [hLK]
  have hKeq : ⌈dist cfg.start cfg.dest / s⌉₊ =
      (⌈dist cfg.start cfg.dest / s⌉₊ - 1) + 1 := by omega
  rw [hKeq, hsucc, hp, Option.some_bind,
    harr ⟨(cfg.start.x : ℝ) + ((cfg.dest.x : ℝ) - (cfg.start.x : ℝ)) *
        (((⌈dist cfg.start cfg.dest / s⌉₊ - 1 : ℕ) : ℝ) * s /
          dist cfg.start cfg.dest),
      (cfg.start.y : ℝ) + ((cfg.dest.y : ℝ) - (cfg.start.y : ℝ)) *
        (((⌈dist cfg.start cfg.dest / s⌉₊ - 1 : ℕ) : ℝ) * s /
          dist cfg.start cfg.dest),
      s, p, 0, ((⌈dist cfg.start cfg.dest / s⌉₊ - 1 : ℕ) : ℝ) * s /
        dist cfg.start cfg.dest⟩ 0 rfl rfl hge]

/-- C6: on the map whose single road joins the two (non-merging) anchors
directly — so the path is the two-node sequence start, dest — with road
length `L = dist start dest` and car speed `s > 0`, the car arrives after
exactly `⌈L / s⌉` ticks (score becomes 1 and the car resets to the start),
and after any `k < ⌈L / s⌉` ticks its position is the interpolation
`start + (dest - start) * (k*s/L)` (score still 0) — in both program
variants. -/
theorem claim_C6_two_node_travel (cfg : Cfg) (s : ℝ)
    (hsep : SNAP_THRESHOLD ^ 2 ≤ distSq cfg.start cfg.dest) (hs : 0 < s) :
    ((∀ k, k < ⌈dist cfg.start cfg.dest / s⌉₊ →
      ∃ p, ticksG cfg k ⟨[⟨cfg.start.x, cfg.start.y, cfg.dest.x, cfg.dest.y⟩],
          ⟨(cfg.start.x : ℝ), (cfg.start.y : ℝ), s, none, 0, 0⟩, 0⟩ =
        some ⟨[⟨cfg.start.x, cfg.start.y, cfg.dest.x, cfg.dest.y⟩],
          ⟨(cfg.start.x : ℝ) + ((cfg.dest.x : ℝ) - (cfg.start.x : ℝ)) *
              ((k : ℝ) * s / dist cfg.start cfg.dest),
           (cfg.start.y : ℝ) + ((cfg.dest.y : ℝ) - (cfg.start.y : ℝ)) *
              ((k : ℝ) * s / dist cfg.start cfg.dest),
           s, p, 0, (k : ℝ) * s / dist cfg.start cfg.dest⟩, 0⟩) ∧
    ticksG cfg ⌈dist cfg.start cfg.dest / s⌉₊
        ⟨[⟨cfg.start.x, cfg.start.y, cfg.dest.x, cfg.dest.y⟩],
          ⟨(cfg.start.x : ℝ), (cfg.start.y : ℝ), s, none, 0, 0⟩, 0⟩ =
      some ⟨[⟨cfg.start.x, cfg.start.y, cfg.dest.x, cfg.dest.y⟩],
        ⟨(cfg.start.x : ℝ), (cfg.start.y : ℝ),
         s, some [⟨0, cfg.start.x, cfg.start.y⟩, ⟨1, cfg.dest.x, cfg.dest.y⟩],
         0, 0⟩, 1⟩) ∧
    ((∀ k, k < ⌈dist cfg.start cfg.dest / s⌉₊ →
      ∃ p, ticksP cfg k ⟨[⟨cfg.start.x, cfg.start.y, cfg.dest.x, cfg.dest.y⟩],
          ⟨(cfg.start.x : ℝ), (cfg.start.y : ℝ), s, none, 0, 0⟩, 0⟩ =
        some ⟨[⟨cfg.start.x, cfg.start.y, cfg.dest.x, cfg.dest.y⟩],
          ⟨(cfg.start.x : ℝ) + ((cfg.dest.x : ℝ) - (cfg.start.x : ℝ)) *
              ((k : ℝ) * s / dist cfg.start cfg.dest),
           (cfg.start.y : ℝ) + ((cfg.dest.y : ℝ) - (cfg.start.y : ℝ)) *
              ((k : ℝ) * s / dist cfg.start cfg.dest),
           s, p, 0, (k : ℝ) * s / dist cfg.start cfg.dest⟩, 0⟩) ∧
    ticksP cfg ⌈dist cfg.start cfg.dest / s⌉₊
        ⟨[⟨cfg.start.x, cfg.start.y, cfg.dest.x, cfg.dest.y⟩],
          ⟨(cfg.start.x : ℝ), (cfg.start.y : ℝ), s, none, 0, 0⟩, 0⟩ =
      some ⟨[⟨cfg.start.x, cfg.start.y, cfg.dest.x, cfg.dest.y⟩],
        ⟨(cfg.start.x : ℝ), (cfg.start.y : ℝ),
         s, some [⟨0, cfg.start.x, cfg.start.y⟩, ⟨1, cfg.dest.x, cfg.dest.y⟩],
         0, 0⟩, 1⟩) := by
  constructor
  · exact direct_trajectory cfg s hsep hs (tickG cfg) (ticksG cfg)
      (fun st => rfl) (ticksG_succ_right cfg)
      (fun c score h1 h2 h3 => tickG_direct_move cfg s hsep c score h1 h2 h3)
      (fun c score h1 h2 h3 => tickG_direct_arrive cfg s hsep c score h1 h2 h3)
  · exact direct_trajectory cfg s hsep hs (tickP cfg) (ticksP cfg)
      (fun st => rfl) (ticksP_succ_right cfg)
      (fun c score h1 h2 h3 => tickP_direct_move cfg s hsep c score h1 h2 h3)
      (fun c score h1 h2 h3 => tickP_direct_arrive cfg s hsep c score h1 h2 h3)

/-- Witness for C6, on the 160×180 canvas (anchors (80,80) and (80,100),
road length 20, speed 2, so arrival is at tick `⌈20/2⌉ = 10`). -/
theorem claim_C6_two_node_travel_witness :
    SNAP_THRESHOLD ^ 2 ≤ distSq (Cfg.mk 160 180).start (Cfg.mk 160 180).dest ∧
    (0 : ℝ) < 2 ∧
    ticksG ⟨160, 180⟩ 10 ⟨[⟨80, 80, 80, 100⟩],
        ⟨(80 : ℝ), (80 : ℝ), 2, none, 0, 0⟩, 0⟩ =
      some ⟨[⟨80, 80, 80, 100⟩],
        ⟨(80 : ℝ), (80 : ℝ), 2, some [⟨0, 80, 80⟩, ⟨1, 80, 100⟩], 0, 0⟩, 1⟩ := by
  have hsep : SNAP_THRESHOLD ^ 2 ≤
      distSq (Cfg.mk 160 180).start (Cfg.mk 160 180).dest := by
    norm_num [Cfg.start, Cfg.dest, distSq, SNAP_THRESHOLD]
  refine ⟨hsep, by norm_num, ?_⟩
  have h := (claim_C6_two_node_travel ⟨160, 180⟩ 2 hsep (by norm_num)).1.2
  have hd : dist (Cfg.mk 160 180).start (Cfg.mk 160 180).dest = 20 := by
    unfold dist
    have h400 : ((distSq (Cfg.mk 160 180).start (Cfg.mk 160 180).dest :
        ℚ) : ℝ) = 20 ^ 2 := by
      norm_num [Cfg.start, Cfg.dest, distSq]
    rw [h400]
    exact Real.sqrt_sq (by norm_num)
  rw [hd] at h
  have hK : ⌈(20 : ℝ) / 2⌉₊ = 10 := by norm_num
  rw [hK] at h
  have hsx : (Cfg.mk 160 180).start.x = 80 := rfl
  have hsy : (Cfg.mk 160 180).start.y = 80 := rfl
  have hdx : (Cfg.mk 160 180).dest.x = 80 := by norm_num [Cfg.dest]
  have hdy : (Cfg.mk 160 180).dest.y = 100 := by norm_num [Cfg.dest]
  rw [hsx, hsy, hdx, hdy] at h
  have hc80 : ((80 : ℚ) : ℝ) = (80 : ℝ) := by norm_num
  rw [hc80] at h
  exact h

/-- C3: on a tick in which the car is travelling (stored path present with
more than one node, both segment endpoints in bounds) and the current
segment has zero length, the motion body treats the segment as immediately
complete — the segment index advances (or, on the last segment, an arrival
is registered and the car resets) — and the position it writes is the exact
finite coordinate pair of the current node (respectively of the start
anchor): no non-finite value reaches the position.  In the source this is
IEEE arithmetic rather than an explicit guard: `speed / 0` is `+Infinity`,
`Infinity >= 1` completes the segment, and the position is interpolated at
the reset progress `0`, so the infinity never reaches `car.x`/`car.y`. -/
theorem claim_C3_zero_length_guard (start : Pt) (c : Car) (score : ℕ)
    (path : List Node) (curr next : Node)
    (hpath : c.path = some path) (hlen : 1 < path.length)
    (hcur : path.get? c.segIndex = some curr)
    (hnext : path.get? (c.segIndex + 1) = some next)
    (hzero : distSq curr.pt next.pt = 0) (hspd : 0 < c.speed) :
    (path.length - 1 ≤ c.segIndex + 1 →
      carMotion start c score = some (resetCar c start, score + 1)) ∧
    (¬ path.length - 1 ≤ c.segIndex + 1 →
      carMotion start c score =
        some ({ c with
                segIndex := c.segIndex + 1,
                progress := 0,
                x := (curr.x : ℝ),
                y := (curr.y : ℝ) }, score)) := by
  have hsq : Real.sqrt ((distSq curr.pt next.pt : ℚ) : ℝ) = 0 := by
    rw [hzero]
    norm_num
  unfold carMotion
  rw [hpath]
  dsimp only
  rw [if_pos hlen, hcur, hnext]
  dsimp only
  rw [if_neg (fun hc => absurd hspd (not_lt_of_le hc.2))]
  rw [if_pos (Or.inr hsq)]
  constructor
  · intro hle
    rw [if_pos hle]
  · intro hnle
    rw [if_neg hnle]
    norm_num

/-- Witness for C3: a degenerate two-node path whose nodes share the
position (5,5); the segment completes immediately as an arrival. -/
theorem claim_C3_zero_length_guard_witness :
    distSq (Node.pt ⟨0, 5, 5⟩) (Node.pt ⟨1, 5, 5⟩) = 0 ∧
    carMotion ⟨0, 0⟩ ⟨5, 5, 2, some [⟨0, 5, 5⟩, ⟨1, 5, 5⟩], 0, 0⟩ 0 =
      some (resetCar ⟨5, 5, 2, some [⟨0, 5, 5⟩, ⟨1, 5, 5⟩], 0, 0⟩ ⟨0, 0⟩,
        0 + 1) := by
  constructor
  · norm_num [distSq, Node.pt]
  · exact (claim_C3_zero_length_guard ⟨0, 0⟩
      ⟨5, 5, 2, some [⟨0, 5, 5⟩, ⟨1, 5, 5⟩], 0, 0⟩ 0
      [⟨0, 5, 5⟩, ⟨1, 5, 5⟩] ⟨0, 5, 5⟩ ⟨1, 5, 5⟩ rfl (by norm_num)
      rfl rfl (by norm_num [distSq, Node.pt]) (by norm_num)).1
      (by norm_num)

/-- Evaluate the square root of a rational square. -/
theorem sqrt_ratCast_eq {q : ℚ} {r : ℝ} (h : (q : ℝ) = r ^ 2) (hr : 0 ≤ r) :
    Real.sqrt (q : ℝ) = r := by
  rw [h]
  exact Real.sqrt_sq hr

/-- game.js path on the 160×190 canvas with the two stacked roads. -/
theorem findPathG_stacked :
    findPath (buildGraphG (Cfg.mk 160 190).start (Cfg.mk 160 190).dest
        [⟨80, 80, 80, 90⟩, ⟨80, 90, 80, 110⟩]) =
      some [⟨0, 80, 80⟩, ⟨2, 80, 90⟩, ⟨1, 80, 110⟩] := by
  norm_num [Cfg.start, Cfg.dest, buildGraphG, getOrCreateNodeG, addRoadG,
    adjPush, nearNode, distSq, Node.pt, SNAP_THRESHOLD, findPath, findPathIds,
    bfsLoop, bfsFuel, nbrIds, nbrsOf, alistGet, scanNbrs, cfMem, cfGet, walk]

/-- game.js path after the direct road is added: the two-node shortcut. -/
theorem findPathG_shortcut :
    findPath (buildGraphG (Cfg.mk 160 190).start (Cfg.mk 160 190).dest
        [⟨80, 80, 80, 90⟩, ⟨80, 90, 80, 110⟩, ⟨80, 80, 80, 110⟩]) =
      some [⟨0, 80, 80⟩, ⟨1, 80, 110⟩] := by
  norm_num [Cfg.start, Cfg.dest, buildGraphG, getOrCreateNodeG, addRoadG,
    adjPush, nearNode, distSq, Node.pt, SNAP_THRESHOLD, findPath, findPathIds,
    bfsLoop, bfsFuel, nbrIds, nbrsOf, alistGet, scanNbrs, cfMem, cfGet, walk]

/-- part_000 path on the stacked roads. -/
theorem findPathP_stacked :
    findPath (buildGraphP (Cfg.mk 160 190).start (Cfg.mk 160 190).dest
        [⟨80, 80, 80, 90⟩, ⟨80, 90, 80, 110⟩]) =
      some [⟨0, 80, 80⟩, ⟨2, 80, 90⟩, ⟨1, 80, 110⟩] := by
  norm_num [Cfg.start, Cfg.dest, buildGraphP, getOrCreateNode, addRoadP,
    addEdge, adjEnsure, adjPush, nearNode, distSq, Node.pt, SNAP_THRESHOLD,
    findPath, findPathIds, bfsLoop, bfsFuel, nbrIds, nbrsOf, alistGet,
    scanNbrs, cfMem, cfGet, walk]

/-- part_000 path after the direct road is added. -/
theorem findPathP_shortcut :
    findPath (buildGraphP (Cfg.mk 160 190).start (Cfg.mk 160 190).dest
        [⟨80, 80, 80, 90⟩, ⟨80, 90, 80, 110⟩, ⟨80, 80, 80, 110⟩]) =
      some [⟨0, 80, 80⟩, ⟨1, 80, 110⟩] := by
  norm_num [Cfg.start, Cfg.dest, buildGraphP, getOrCreateNode, addRoadP,
    addEdge, adjEnsure, adjPush, nearNode, distSq, Node.pt, SNAP_THRESHOLD,
    findPath, findPathIds, bfsLoop, bfsFuel, nbrIds, nbrsOf, alistGet,
    scanNbrs, cfMem, cfGet, walk]

/-- Length of the crash trace's first path segment. -/
theorem sqrt_seg10 :
    Real.sqrt ((distSq (Node.pt ⟨0, 80, 80⟩) (Node.pt ⟨2, 80, 90⟩) : ℚ) : ℝ) =
      10 :=
  sqrt_ratCast_eq (by norm_num [distSq, Node.pt]) (by norm_num)

/-- C2: refuted.  On the 160×190 canvas (anchors (80,80) and (80,110)),
draw the road (80,80)–(80,90), then (80,90)–(80,110); five ticks later the
car has completed the first segment (`segIndex = 1`, progress `0`); then
draw the direct road (80,80)–(80,110).  The next tick recomputes the path
as the two-node shortcut, but neither variant resets `segIndex` (game.js
has no clamp at all; part_000's clamp only fires at `segIndex >=
path.length`, i.e. `1 >= 2`, which is false), so the motion body reads
`path[segIndex + 1] = path[2]` past the end of the two-node path and the
source throws a `TypeError` — the embedded run returns `none` for both
programs. -/
theorem claim_C2_segment_index_crash :
    runG ⟨160, 190⟩
      [Ev.draw 80 80 80 90, Ev.draw 80 90 80 110,
       Ev.tick, Ev.tick, Ev.tick, Ev.tick, Ev.tick,
       Ev.draw 80 80 80 110, Ev.tick]
      (initState ⟨160, 190⟩) = none ∧
    runP ⟨160, 190⟩
      [Ev.draw 80 80 80 90, Ev.draw 80 90 80 110,
       Ev.tick, Ev.tick, Ev.tick, Ev.tick, Ev.tick,
       Ev.draw 80 80 80 110, Ev.tick]
      (initState ⟨160, 190⟩) = none := by
  have hmu1 : mouseUp (initState ⟨160, 190⟩) 80 80 80 90 =
      ⟨[⟨80, 80, 80, 90⟩], ⟨80, 80, 2, none, 0, 0⟩, 0⟩ := by
    unfold mouseUp
    rw [if_pos (show (25 : ℚ) < distSq ⟨80, 80⟩ ⟨80, 90⟩ by
      norm_num [distSq])]
    norm_num [initState, carInit, Cfg.start]
  have hmu2 : mouseUp (⟨[⟨80, 80, 80, 90⟩], ⟨80, 80, 2, none, 0, 0⟩, 0⟩ :
      GState) 80 90 80 110 =
      ⟨[⟨80, 80, 80, 90⟩, ⟨80, 90, 80, 110⟩],
        ⟨80, 80, 2, none, 0, 0⟩, 0⟩ := by
    unfold mouseUp
    rw [if_pos (show (25 : ℚ) < distSq ⟨80, 90⟩ ⟨80, 110⟩ by
      norm_num [distSq])]
    norm_num
  have hmu3 : mouseUp (⟨[⟨80, 80, 80, 90⟩, ⟨80, 90, 80, 110⟩],
      ⟨80, 80, 2, some [⟨0, 80, 80⟩, ⟨2, 80, 90⟩, ⟨1, 80, 110⟩], 1, 0⟩, 0⟩ :
      GState) 80 80 80 110 =
      ⟨[⟨80, 80, 80, 90⟩, ⟨80, 90, 80, 110⟩, ⟨80, 80, 80, 110⟩],
        ⟨80, 80, 2, some [⟨0, 80, 80⟩, ⟨2, 80, 90⟩, ⟨1, 80, 110⟩], 1, 0⟩,
        0⟩ := by
    unfold mouseUp
    rw [if_pos (show (25 : ℚ) < distSq ⟨80, 80⟩ ⟨80, 110⟩ by
      norm_num [distSq])]
    norm_num
  constructor
  · have t1 : tickG ⟨160, 190⟩ ⟨[⟨80, 80, 80, 90⟩, ⟨80, 90, 80, 110⟩],
        ⟨80, 80, 2, none, 0, 0⟩, 0⟩ =
        some ⟨[⟨80, 80, 80, 90⟩, ⟨80, 90, 80, 110⟩],
          ⟨80, 82, 2, some [⟨0, 80, 80⟩, ⟨2, 80, 90⟩, ⟨1, 80, 110⟩],
            0, 1/5⟩, 0⟩ := by
      simp only [tickG, findPathG_stacked]
      unfold carMotion
      dsimp only
      rw [if_pos (show (1 : ℕ) < ([⟨0, 80, 80⟩, ⟨2, 80, 90⟩,
        ⟨1, 80, 110⟩] : List Node).length by norm_num)]
      rw [show ([⟨0, 80, 80⟩, ⟨2, 80, 90⟩,
            ⟨1, 80, 110⟩] : List Node).get? 0 = some ⟨0, 80, 80⟩ from rfl,
          show ([⟨0, 80, 80⟩, ⟨2, 80, 90⟩,
            ⟨1, 80, 110⟩] : List Node).get? (0 + 1) = some ⟨2, 80, 90⟩
            from rfl]
      dsimp only
      rw [sqrt_seg10]
      rw [if_neg (show ¬ ((10 : ℝ) = 0 ∧ (2 : ℝ) ≤ 0) by norm_num)]
      rw [if_neg (show ¬ (1 ≤ (0 : ℝ) + 2 / 10 ∨ (10 : ℝ) = 0) by norm_num)]
      norm_num
    have t2 : tickG ⟨160, 190⟩ ⟨[⟨80, 80, 80, 90⟩, ⟨80, 90, 80, 110⟩],
        ⟨80, 82, 2, some [⟨0, 80, 80⟩, ⟨2, 80, 90⟩, ⟨1, 80, 110⟩],
          0, 1/5⟩, 0⟩ =
        some ⟨[⟨80, 80, 80, 90⟩, ⟨80, 90, 80, 110⟩],
          ⟨80, 84, 2, some [⟨0, 80, 80⟩, ⟨2, 80, 90⟩, ⟨1, 80, 110⟩],
            0, 2/5⟩, 0⟩ := by
      simp only [tickG, findPathG_stacked]
      unfold carMotion
      dsimp only
      rw [if_pos (show (1 : ℕ) < ([⟨0, 80, 80⟩, ⟨2, 80, 90⟩,
        ⟨1, 80, 110⟩] : List Node).length by norm_num)]
      rw [show ([⟨0, 80, 80⟩, ⟨2, 80, 90⟩,
            ⟨1, 80, 110⟩] : List Node).get? 0 = some ⟨0, 80, 80⟩ from rfl,
          show ([⟨0, 80, 80⟩, ⟨2, 80, 90⟩,
            ⟨1, 80, 110⟩] : List Node).get? (0 + 1) = some ⟨2, 80, 90⟩
            from rfl]
      dsimp only
      rw [sqrt_seg10]
      rw [if_neg (show ¬ ((10 : ℝ) = 0 ∧ (2 : ℝ) ≤ 0) by norm_num)]
      rw [if_neg (show ¬ (1 ≤ (1 : ℝ)/5 + 2 / 10 ∨ (10 : ℝ) = 0) by
        norm_num)]
      norm_num
    have t3 : tickG ⟨160, 190⟩ ⟨[⟨80, 80, 80, 90⟩, ⟨80, 90, 80, 110⟩],
        ⟨80, 84, 2, some [⟨0, 80, 80⟩, ⟨2, 80, 90⟩, ⟨1, 80, 110⟩],
          0, 2/5⟩, 0⟩ =
        some ⟨[⟨80, 80, 80, 90⟩, ⟨80, 90, 80, 110⟩],
          ⟨80, 86, 2, some [⟨0, 80, 80⟩, ⟨2, 80, 90⟩, ⟨1, 80, 110⟩],
            0, 3/5⟩, 0⟩ := by
      simp only [tickG, findPathG_stacked]
      unfold carMotion
      dsimp only
      rw [if_pos (show (1 : ℕ) < ([⟨0, 80, 80⟩, ⟨2, 80, 90⟩,
        ⟨1, 80, 110⟩] : List Node).length by norm_num)]
      rw [show ([⟨0, 80, 80⟩, ⟨2, 80, 90⟩,
            ⟨1, 80, 110⟩] : List Node).get? 0 = some ⟨0, 80, 80⟩ from rfl,
          show ([⟨0, 80, 80⟩, ⟨2, 80, 90⟩,
            ⟨1, 80, 110⟩] : List Node).get? (0 + 1) = some ⟨2, 80, 90⟩
            from rfl]
      dsimp only
      rw [sqrt_seg10]
      rw [if_neg (show ¬ ((10 : ℝ) = 0 ∧ (2 : ℝ) ≤ 0) by norm_num)]
      rw [if_neg (show ¬ (1 ≤ (2 : ℝ)/5 + 2 / 10 ∨ (10 : ℝ) = 0) by
        norm_num)]
      norm_num
    have t4 : tickG ⟨160, 190⟩ ⟨[⟨80, 80, 80, 90⟩, ⟨80, 90, 80, 110⟩],
        ⟨80, 86, 2, some [⟨0, 80, 80⟩, ⟨2, 80, 90⟩, ⟨1, 80, 110⟩],
          0, 3/5⟩, 0⟩ =
        some ⟨[⟨80, 80, 80, 90⟩, ⟨80, 90, 80, 110⟩],
          ⟨80, 88, 2, some [⟨0, 80, 80⟩, ⟨2, 80, 90⟩, ⟨1, 80, 110⟩],
            0, 4/5⟩, 0⟩ := by
      simp only [tickG, findPathG_stacked]
      unfold carMotion
      dsimp only
      rw [if_pos (show (1 : ℕ) < ([⟨0, 80, 80⟩, ⟨2, 80, 90⟩,
        ⟨1, 80, 110⟩] : List Node).length by norm_num)]
      rw [show ([⟨0, 80, 80⟩, ⟨2, 80, 90⟩,
            ⟨1, 80, 110⟩] : List Node).get? 0 = some ⟨0, 80, 80⟩ from rfl,
          show ([⟨0, 80, 80⟩, ⟨2, 80, 90⟩,
            ⟨1, 80, 110⟩] : List Node).get? (0 + 1) = some ⟨2, 80, 90⟩
            from rfl]
      dsimp only
      rw [sqrt_seg10]
      rw [if_neg (show ¬ ((10 : ℝ) = 0 ∧ (2 : ℝ) ≤ 0) by norm_num)]
      rw [if_neg (show ¬ (1 ≤ (3 : ℝ)/5 + 2 / 10 ∨ (10 : ℝ) = 0) by
        norm_num)]
      norm_num
    have t5 : tickG ⟨160, 190⟩ ⟨[⟨80, 80, 80, 90⟩, ⟨80, 90, 80, 110⟩],
        ⟨80, 88, 2, some [⟨0, 80, 80⟩, ⟨2, 80, 90⟩, ⟨1, 80, 110⟩],
          0, 4/5⟩, 0⟩ =
        some ⟨[⟨80, 80, 80, 90⟩, ⟨80, 90, 80, 110⟩],
          ⟨80, 80, 2, some [⟨0, 80, 80⟩, ⟨2, 80, 90⟩, ⟨1, 80, 110⟩],
            1, 0⟩, 0⟩ := by
      simp only [tickG, findPathG_stacked]
      unfold carMotion
      dsimp only
      rw [if_pos (show (1 : ℕ) < ([⟨0, 80, 80⟩, ⟨2, 80, 90⟩,
        ⟨1, 80, 110⟩] : List Node).length by norm_num)]
      rw [show ([⟨0, 80, 80⟩, ⟨2, 80, 90⟩,
            ⟨1, 80, 110⟩] : List Node).get? 0 = some ⟨0, 80, 80⟩ from rfl,
          show ([⟨0, 80, 80⟩, ⟨2, 80, 90⟩,
            ⟨1, 80, 110⟩] : List Node).get? (0 + 1) = some ⟨2, 80, 90⟩
            from rfl]
      dsimp only
      rw [sqrt_seg10]
      rw [if_neg (show ¬ ((10 : ℝ) = 0 ∧ (2 : ℝ) ≤ 0) by norm_num)]
      rw [if_pos (Or.inl (show (1 : ℝ) ≤ 4/5 + 2 / 10 by norm_num))]
      rw [if_neg (show ¬ (([⟨0, 80, 80⟩, ⟨2, 80, 90⟩,
        ⟨1, 80, 110⟩] : List Node).length - 1 ≤ 0 + 1) by norm_num)]
      norm_num
    have t6 : tickG ⟨160, 190⟩
        ⟨[⟨80, 80, 80, 90⟩, ⟨80, 90, 80, 110⟩, ⟨80, 80, 80, 110⟩],
          ⟨80, 80, 2, some [⟨0, 80, 80⟩, ⟨2, 80, 90⟩, ⟨1, 80, 110⟩],
            1, 0⟩, 0⟩ = none := by
      simp only [tickG, findPathG_shortcut]
      unfold carMotion
      dsimp only
      rw [if_pos (show (1 : ℕ) < ([⟨0, 80, 80⟩,
        ⟨1, 80, 110⟩] : List Node).length by norm_num)]
      rw [show ([⟨0, 80, 80⟩, ⟨1, 80, 110⟩] : List Node).get? 1 =
            some ⟨1, 80, 110⟩ from rfl,
          show ([⟨0, 80, 80⟩, ⟨1, 80, 110⟩] : List Node).get? (1 + 1) =
            none from rfl]
      rfl
    show runG _ _ _ = none
    simp only [runG]
    rw [hmu1, hmu2, t1, Option.some_bind, t2, Option.some_bind, t3,
      Option.some_bind, t4, Option.some_bind, t5, Option.some_bind,
      hmu3, t6]
    rfl
  · have t1 : tickP ⟨160, 190⟩ ⟨[⟨80, 80, 80, 90⟩, ⟨80, 90, 80, 110⟩],
        ⟨80, 80, 2, none, 0, 0⟩, 0⟩ =
        some ⟨[⟨80, 80, 80, 90⟩, ⟨80, 90, 80, 110⟩],
          ⟨80, 82, 2, some [⟨0, 80, 80⟩, ⟨2, 80, 90⟩, ⟨1, 80, 110⟩],
            0, 1/5⟩, 0⟩ := by
      simp only [tickP, findPathP_stacked]
      rw [if_neg (show ¬ ((1 : ℕ) < ([⟨0, 80, 80⟩, ⟨2, 80, 90⟩,
        ⟨1, 80, 110⟩] : List Node).length ∧ ([⟨0, 80, 80⟩, ⟨2, 80, 90⟩,
        ⟨1, 80, 110⟩] : List Node).length ≤ 0) by norm_num)]
      unfold carMotion
      dsimp only
      rw [if_pos (show (1 : ℕ) < ([⟨0, 80, 80⟩, ⟨2, 80, 90⟩,
        ⟨1, 80, 110⟩] : List Node).length by norm_num)]
      rw [show ([⟨0, 80, 80⟩, ⟨2, 80, 90⟩,
            ⟨1, 80, 110⟩] : List Node).get? 0 = some ⟨0, 80, 80⟩ from rfl,
          show ([⟨0, 80, 80⟩, ⟨2, 80, 90⟩,
            ⟨1, 80, 110⟩] : List Node).get? (0 + 1) = some ⟨2, 80, 90⟩
            from rfl]
      dsimp only
      rw [sqrt_seg10]
      rw [if_neg (show ¬ ((10 : ℝ) = 0 ∧ (2 : ℝ) ≤ 0) by norm_num)]
      rw [if_neg (show ¬ (1 ≤ (0 : ℝ) + 2 / 10 ∨ (10 : ℝ) = 0) by norm_num)]
      norm_num
    have t2 : tickP ⟨160, 190⟩ ⟨[⟨80, 80, 80, 90⟩, ⟨80, 90, 80, 110⟩],
        ⟨80, 82, 2, some [⟨0, 80, 80⟩, ⟨2, 80, 90⟩, ⟨1, 80, 110⟩],
          0, 1/5⟩, 0⟩ =
        some ⟨[⟨80, 80, 80, 90⟩, ⟨80, 90, 80, 110⟩],
          ⟨80, 84, 2, some [⟨0, 80, 80⟩, ⟨2, 80, 90⟩, ⟨1, 80, 110⟩],
            0, 2/5⟩, 0⟩ := by
      simp only [tickP, findPathP_stacked]
      rw [if_neg (show ¬ ((1 : ℕ) < ([⟨0, 80, 80⟩, ⟨2, 80, 90⟩,
        ⟨1, 80, 110⟩] : List Node).length ∧ ([⟨0, 80, 80⟩, ⟨2, 80, 90⟩,
        ⟨1, 80, 110⟩] : List Node).length ≤ 0) by norm_num)]
      unfold carMotion
      dsimp only
      rw [if_pos (show (1 : ℕ) < ([⟨0, 80, 80⟩, ⟨2, 80, 90⟩,
        ⟨1, 80, 110⟩] : List Node).length by norm_num)]
      rw [show ([⟨0, 80, 80⟩, ⟨2, 80, 90⟩,
            ⟨1, 80, 110⟩] : List Node).get? 0 = some ⟨0, 80, 80⟩ from rfl,
          show ([⟨0, 80, 80⟩, ⟨2, 80, 90⟩,
            ⟨1, 80, 110⟩] : List Node).get? (0 + 1) = some ⟨2, 80, 90⟩
            from rfl]
      dsimp only
      rw [sqrt_seg10]
      rw [if_neg (show ¬ ((10 : ℝ) = 0 ∧ (2 : ℝ) ≤ 0) by norm_num)]
      rw [if_neg (show ¬ (1 ≤ (1 : ℝ)/5 + 2 / 10 ∨ (10 : ℝ) = 0) by
        norm_num)]
      norm_num
    have t3 : tickP ⟨160, 190⟩ ⟨[⟨80, 80, 80, 90⟩, ⟨80, 90, 80, 110⟩],
        ⟨80, 84, 2, some [⟨0, 80, 80⟩, ⟨2, 80, 90⟩, ⟨1, 80, 110⟩],
          0, 2/5⟩, 0⟩ =
        some ⟨[⟨80, 80, 80, 90⟩, ⟨80, 90, 80, 110⟩],
          ⟨80, 86, 2, some [⟨0, 80, 80⟩, ⟨2, 80, 90⟩, ⟨1, 80, 110⟩],
            0, 3/5⟩, 0⟩ := by
      simp only [tickP, findPathP_stacked]
      rw [if_neg (show ¬ ((1 : ℕ) < ([⟨0, 80, 80⟩, ⟨2, 80, 90⟩,
        ⟨1, 80, 110⟩] : List Node).length ∧ ([⟨0, 80, 80⟩, ⟨2, 80, 90⟩,
        ⟨1, 80, 110⟩] : List Node).length ≤ 0) by norm_num)]
      unfold carMotion
      dsimp only
      rw [if_pos (show (1 : ℕ) < ([⟨0, 80, 80⟩, ⟨2, 80, 90⟩,
        ⟨1, 80, 110⟩] : List Node).length by norm_num)]
      rw [show ([⟨0, 80, 80⟩, ⟨2, 80, 90⟩,
            ⟨1, 80, 110⟩] : List Node).get? 0 = some ⟨0, 80, 80⟩ from rfl,
          show ([⟨0, 80, 80⟩, ⟨2, 80, 90⟩,
            ⟨1, 80, 110⟩] : List Node).get? (0 + 1) = some ⟨2, 80, 90⟩
            from rfl]
      dsimp only
      rw [sqrt_seg10]
      rw [if_neg (show ¬ ((10 : ℝ) = 0 ∧ (2 : ℝ) ≤ 0) by norm_num)]
      rw [if_neg (show ¬ (1 ≤ (2 : ℝ)/5 + 2 / 10 ∨ (10 : ℝ) = 0) by
        norm_num)]
      norm_num
    have t4 : tickP ⟨160, 190⟩ ⟨[⟨80, 80, 80, 90⟩, ⟨80, 90, 80, 110⟩],
        ⟨80, 86, 2, some [⟨0, 80, 80⟩, ⟨2, 80, 90⟩, ⟨1, 80, 110⟩],
          0, 3/5⟩, 0⟩ =
        some ⟨[⟨80, 80, 80, 90⟩, ⟨80, 90, 80, 110⟩],
          ⟨80, 88, 2, some [⟨0, 80, 80⟩, ⟨2, 80, 90⟩, ⟨1, 80, 110⟩],
            0, 4/5⟩, 0⟩ := by
      simp only [tickP, findPathP_stacked]
      rw [if_neg (show ¬ ((1 : ℕ) < ([⟨0, 80, 80⟩, ⟨2, 80, 90⟩,
        ⟨1, 80, 110⟩] : List Node).length ∧ ([⟨0, 80, 80⟩, ⟨2, 80, 90⟩,
        ⟨1, 80, 110⟩] : List Node).length ≤ 0) by norm_num)]
      unfold carMotion
      dsimp only
      rw [if_pos (show (1 : ℕ) < ([⟨0, 80, 80⟩, ⟨2, 80, 90⟩,
        ⟨1, 80, 110⟩] : List Node).length by norm_num)]
      rw [show ([⟨0, 80, 80⟩, ⟨2, 80, 90⟩,
            ⟨1, 80, 110⟩] : List Node).get? 0 = some ⟨0, 80, 80⟩ from rfl,
          show ([⟨0, 80, 80⟩, ⟨2, 80, 90⟩,
            ⟨1, 80, 110⟩] : List Node).get? (0 + 1) = some ⟨2, 80, 90⟩
            from rfl]
      dsimp only
      rw [sqrt_seg10]
      rw [if_neg (show ¬ ((10 : ℝ) = 0 ∧ (2 : ℝ) ≤ 0) by norm_num)]
      rw [if_neg (show ¬ (1 ≤ (3 : ℝ)/5 + 2 / 10 ∨ (10 : ℝ) = 0) by
        norm_num)]
      norm_num
    have t5 : tickP ⟨160, 190⟩ ⟨[⟨80, 80, 80, 90⟩, ⟨80, 90, 80, 110⟩],
        ⟨80, 88, 2, some [⟨0, 80, 80⟩, ⟨2, 80, 90⟩, ⟨1, 80, 110⟩],
          0, 4/5⟩, 0⟩ =
        some ⟨[⟨80, 80, 80, 90⟩, ⟨80, 90, 80, 110⟩],
          ⟨80, 80, 2, some [⟨0, 80, 80⟩, ⟨2, 80, 90⟩, ⟨1, 80, 110⟩],
            1, 0⟩, 0⟩ := by
      simp only [tickP, findPathP_stacked]
      rw [if_neg (show ¬ ((1 : ℕ) < ([⟨0, 80, 80⟩, ⟨2, 80, 90⟩,
        ⟨1, 80, 110⟩] : List Node).length ∧ ([⟨0, 80, 80⟩, ⟨2, 80, 90⟩,
        ⟨1, 80, 110⟩] : List Node).length ≤ 0) by norm_num)]
      unfold carMotion
      dsimp only
      rw [if_pos (show (1 : ℕ) < ([⟨0, 80, 80⟩, ⟨2, 80, 90⟩,
        ⟨1, 80, 110⟩] : List Node).length by norm_num)]
      rw [show ([⟨0, 80, 80⟩, ⟨2, 80, 90⟩,
            ⟨1, 80, 110⟩] : List Node).get? 0 = some ⟨0, 80, 80⟩ from rfl,
          show ([⟨0, 80, 80⟩, ⟨2, 80, 90⟩,
            ⟨1, 80, 110⟩] : List Node).get? (0 + 1) = some ⟨2, 80, 90⟩
            from rfl]
      dsimp only
      rw [sqrt_seg10]
      rw [if_neg (show ¬ ((10 : ℝ) = 0 ∧ (2 : ℝ) ≤ 0) by norm_num)]
      rw [if_pos (Or.inl (show (1 : ℝ) ≤ 4/5 + 2 / 10 by norm_num))]
      rw [if_neg (show ¬ (([⟨0, 80, 80⟩, ⟨2, 80, 90⟩,
        ⟨1, 80, 110⟩] : List Node).length - 1 ≤ 0 + 1) by norm_num)]
      norm_num
    have t6 : tickP ⟨160, 190⟩
        ⟨[⟨80, 80, 80, 90⟩, ⟨80, 90, 80, 110⟩, ⟨80, 80, 80, 110⟩],
          ⟨80, 80, 2, some [⟨0, 80, 80⟩, ⟨2, 80, 90⟩, ⟨1, 80, 110⟩],
            1, 0⟩, 0⟩ = none := by
      simp only [tickP, findPathP_shortcut]
      rw [if_neg (show ¬ ((1 : ℕ) < ([⟨0, 80, 80⟩,
        ⟨1, 80, 110⟩] : List Node).length ∧ ([⟨0, 80, 80⟩,
        ⟨1, 80, 110⟩] : List Node).length ≤ 1) by norm_num)]
      unfold carMotion
      dsimp only
      rw [if_pos (show (1 : ℕ) < ([⟨0, 80, 80⟩,
        ⟨1, 80, 110⟩] : List Node).length by norm_num)]
      rw [show ([⟨0, 80, 80⟩, ⟨1, 80, 110⟩] : List Node).get? 1 =
            some ⟨1, 80, 110⟩ from rfl,
          show ([⟨0, 80, 80⟩, ⟨1, 80, 110⟩] : List Node).get? (1 + 1) =
            none from rfl]
      rfl
    show runP _ _ _ = none
    simp only [runP]
    rw [hmu1, hmu2, t1, Option.some_bind, t2, Option.some_bind, t3,
      Option.some_bind, t4, Option.some_bind, t5, Option.some_bind,
      hmu3, t6]
    rfl

end RoadGame
